import Mathlib

/-!
# rbm.c : a restricted Boltzmann machine with softmax visible units

A shallow embedding of `rbm.c` (`score_setup`, `recordErrors`, `doAllFeatures`)
and theorems about it.

Modelling conventions.

* `double` values are elements of a linearly ordered field `α` (exact
  arithmetic, `x / 0 = 0`); `exp`, `log`, `sqrt` of the C library are
  parameters of the environment.  Instantiating `α := ℚ` gives executable
  definitions.
* C arrays are total functions on `Nat` indices; `ZERO(x)` stores zero in
  every entry.  `int`/`unsigned int` values are `Nat` (none of the counters
  can overflow on the data sizes of the program).
* `rand()/(double)RAND_MAX` is the next element of a fixed stream
  `rand : Nat → α`; the state counts the calls made so far in `nrand`.
* Everything `rbm.c` takes from `netflix.h` / `basic.h` (sizes, the encoded
  rating table, the per-user index and its access macros) is a field of the
  environment `Env`.
* `for (i = 0; i < n; i++) body` is `forLoop n body`; the `do .. while` of
  the Gibbs chain is `doWhile`; the epoch `while` loop takes fuel and returns
  `none` when the fuel does not suffice.
* Logging and timing (`lg`, `clock`) are omitted.
-/

namespace Rbm

/-- Number of rating categories, `#define SOFTMAX 5`. -/
def SOFTMAX : Nat := 5

/-- Everything `rbm.c` reads but does not define: the declarations of
`netflix.h`, the number of hidden units (`TOTAL_FEATURES`, 100 in the file,
200 in the variant the file describes), the C library functions and the
stream of uniform draws. -/
structure Env (α : Type) where
  NMOVIES : Nat
  NUSERS : Nat
  USER_MOVIEMASK : Nat
  USER_LMOVIEMASK : Nat
  useridx : Nat → Nat → Nat
  userent : Nat → Nat
  UNTRAIN : Nat → Nat
  UNALL : Nat → Nat
  TOTAL_FEATURES : Nat
  exp : α → α
  log : α → α
  sqrt : α → α
  rand : Nat → α

/-- The global arrays of `rbm.c`, the residual array `err`, the locals of
`doAllFeatures` that live across loop iterations, and the number of calls of
`rand()` made so far. -/
structure State (α : Type) where
  vishid : Nat → Nat → Nat → α
  visbiases : Nat → Nat → α
  hidbiases : Nat → α
  CDpos : Nat → Nat → Nat → α
  CDneg : Nat → Nat → Nat → α
  CDinc : Nat → Nat → Nat → α
  poshidprobs : Nat → α
  poshidstates : Nat → Nat
  curposhidstates : Nat → Nat
  poshidact : Nat → α
  neghidact : Nat → α
  neghidprobs : Nat → α
  neghidstates : Nat → Nat
  hidbiasinc : Nat → α
  nvp2 : Nat → Nat → α
  negvisprobs : Nat → Nat → α
  negvissoftmax : Nat → Nat
  posvisact : Nat → Nat → α
  negvisact : Nat → Nat → α
  visbiasinc : Nat → Nat → α
  moviercount : Nat → Nat
  moviecount : Nat → Nat
  err : Nat → α
  sumW : Nat → α
  nrmse : α
  last_rmse : α
  prmse : α
  last_prmse : α
  s : α
  n : Nat
  ntrain : Nat
  loopcount : Nat
  tSteps : Nat
  EpsilonW : α
  EpsilonVB : α
  EpsilonHB : α
  Momentum : α
  nrand : Nat

section Defs

variable {α : Type} [LinearOrderedField α]

def epsilonw : α := 0.001
def epsilonvb : α := 0.008
def epsilonhb : α := 0.0006
def weightcost : α := 0.0001
def momentum : α := 0.8
def finalmomentum : α := 0.9
/-- Stop condition, `#define E (0.00002)`. -/
def E : α := 0.00002

/-- Array store `a[i] = v`. -/
def upd1 {β : Type} (a : Nat → β) (i : Nat) (v : β) : Nat → β :=
  fun i' => if i' = i then v else a i'

/-- Array store `a[i][j] = v`. -/
def upd2 {β : Type} (a : Nat → Nat → β) (i j : Nat) (v : β) : Nat → Nat → β :=
  fun i' j' => if i' = i ∧ j' = j then v else a i' j'

/-- Array store `a[i][j][k] = v`. -/
def upd3 {β : Type} (a : Nat → Nat → Nat → β) (i j k : Nat) (v : β) :
    Nat → Nat → Nat → β :=
  fun i' j' k' => if i' = i ∧ j' = j ∧ k' = k then v else a i' j' k'

/-- The loop `for (i = 0; i < n; i++) body(i)` on a state. -/
def forLoop {σ : Type} : Nat → (Nat → σ → σ) → σ → σ
  | 0, _, s => s
  | n + 1, body, s => body n (forLoop n body s)

/-- The loop `do { body(stepT) } while (++stepT < tSteps)`, entered with the
current value of `stepT`. -/
def doWhile {σ : Type} (body : Nat → σ → σ) (tSteps : Nat) (stepT : Nat) (s : σ) : σ :=
  if stepT + 1 < tSteps then doWhile body tSteps (stepT + 1) (body stepT s)
  else body stepT s
termination_by tSteps - stepT

/-- Item of an encoded rating, `userent[i] & USER_MOVIEMASK`. -/
def entMovie (cfg : Env α) (i : Nat) : Nat := cfg.userent i &&& cfg.USER_MOVIEMASK

/-- Category of an encoded rating, `(userent[i] >> USER_LMOVIEMASK) & 7`. -/
def entRating (cfg : Env α) (i : Nat) : Nat := (cfg.userent i >>> cfg.USER_LMOVIEMASK) &&& 7

/-! ### score_setup -/

/-- Lines 89-95. -/
def clearCounts (m : Nat) (st : State α) : State α :=
  let st := { st with moviercount := upd1 st.moviercount (m * SOFTMAX + 0) 0 }
  let st := { st with moviercount := upd1 st.moviercount (m * SOFTMAX + 1) 0 }
  let st := { st with moviercount := upd1 st.moviercount (m * SOFTMAX + 2) 0 }
  let st := { st with moviercount := upd1 st.moviercount (m * SOFTMAX + 3) 0 }
  { st with moviercount := upd1 st.moviercount (m * SOFTMAX + 4) 0 }

/-- Lines 101-105 for one rating `j` of user `u`. -/
def countRating (cfg : Env α) (u j : Nat) (st : State α) : State α :=
  let base0 := cfg.useridx u 0
  let m := entMovie cfg (base0 + j)
  let r := entRating cfg (base0 + j)
  let c := st.moviercount (m * SOFTMAX + r) + 1
  { st with moviercount := upd1 st.moviercount (m * SOFTMAX + r) c }

def score_setup (cfg : Env α) (st : State α) : State α :=
  let st := forLoop cfg.NMOVIES clearCounts st
  forLoop cfg.NUSERS (fun u s => forLoop (cfg.UNTRAIN u) (countRating cfg u) s) st

/-! ### Pieces shared by recordErrors and doAllFeatures -/

/-- The five assignments `a[m][c] = 1./(1 + exp(-a[m][c] - visbiases[m][c]))`. -/
def sigmoidRow (cfg : Env α) (visbiases a : Nat → Nat → α) (m : Nat) : Nat → Nat → α :=
  let a := upd2 a m 0 (1 / (1 + cfg.exp (-a m 0 - visbiases m 0)))
  let a := upd2 a m 1 (1 / (1 + cfg.exp (-a m 1 - visbiases m 1)))
  let a := upd2 a m 2 (1 / (1 + cfg.exp (-a m 2 - visbiases m 2)))
  let a := upd2 a m 3 (1 / (1 + cfg.exp (-a m 3 - visbiases m 3)))
  upd2 a m 4 (1 / (1 + cfg.exp (-a m 4 - visbiases m 4)))

/-- The block `tsum = a[m][0] + .. + a[m][4]; if (tsum != 0) { a[m][c] /= tsum; .. }`. -/
def normalizeRow (a : Nat → Nat → α) (m : Nat) : Nat → Nat → α :=
  let tsum := a m 0 + a m 1 + a m 2 + a m 3 + a m 4
  if tsum ≠ 0 then
    let a := upd2 a m 0 (a m 0 / tsum)
    let a := upd2 a m 1 (a m 1 / tsum)
    let a := upd2 a m 2 (a m 2 / tsum)
    let a := upd2 a m 3 (a m 3 / tsum)
    upd2 a m 4 (a m 4 / tsum)
  else a

/-- The loop `sumW[h] += vishid[m][r][h]` over all hidden units `h`. -/
def addWeights (cfg : Env α) (m r : Nat) (st : State α) : State α :=
  forLoop cfg.TOTAL_FEATURES
    (fun h s => { s with sumW := upd1 s.sumW h (s.sumW h + s.vishid m r h) }) st

/-- Expected rating `a[m][1] + 2.0 * a[m][2] + 3.0 * a[m][3] + 4.0 * a[m][4]`. -/
def expectedV (a : Nat → Nat → α) (m : Nat) : α :=
  a m 1 + 2 * a m 2 + 3 * a m 3 + 4 * a m 4

/-! ### recordErrors -/

/-- Lines 127-139 for one rating. -/
def reSumStep (cfg : Env α) (u j : Nat) (st : State α) : State α :=
  let base0 := cfg.useridx u 0
  let m := entMovie cfg (base0 + j)
  let r := entRating cfg (base0 + j)
  addWeights cfg m r st

/-- Lines 142-147 for one hidden unit. -/
def reHiddenStep (cfg : Env α) (h : Nat) (st : State α) : State α :=
  let p := 1 / (1 + cfg.exp (-st.sumW h - st.hidbiases h))
  { st with poshidprobs := upd1 st.poshidprobs h p }

/-- Lines 153-181 for one entry. -/
def reVisStep (cfg : Env α) (u j : Nat) (st : State α) : State α :=
  let base0 := cfg.useridx u 0
  let m := entMovie cfg (base0 + j)
  let st := forLoop cfg.TOTAL_FEATURES (fun h s =>
    forLoop SOFTMAX (fun r s =>
      let v := s.negvisprobs m r + s.poshidprobs h * s.vishid m r h
      { s with negvisprobs := upd2 s.negvisprobs m r v }) s) st
  let st := { st with negvisprobs := sigmoidRow cfg st.visbiases st.negvisprobs m }
  { st with negvisprobs := normalizeRow st.negvisprobs m }

/-- Lines 184-190 for one entry. -/
def reErrStep (cfg : Env α) (u i : Nat) (st : State α) : State α :=
  let base0 := cfg.useridx u 0
  let m := entMovie cfg (base0 + i)
  let r := entRating cfg (base0 + i)
  let vdelta := (r : α) - expectedV st.negvisprobs m
  { st with err := upd1 st.err (base0 + i) vdelta }

/-- The body of the user loop of `recordErrors`. -/
def reUser (cfg : Env α) (u : Nat) (st : State α) : State α :=
  let st := { st with negvisprobs := fun _ _ => 0 }
  let d0 := cfg.UNTRAIN u
  let dall := cfg.UNALL u
  let st := { st with sumW := fun _ => 0 }
  let st := forLoop d0 (reSumStep cfg u) st
  let st := forLoop cfg.TOTAL_FEATURES (reHiddenStep cfg) st
  let st := forLoop dall (reVisStep cfg u) st
  forLoop dall (reErrStep cfg u) st

def recordErrors (cfg : Env α) (st : State α) : State α :=
  forLoop cfg.NUSERS (reUser cfg) st

/-! ### doAllFeatures: one user -/

/-- Draw of `rand()/(double)(RAND_MAX)`: the value returned. -/
def drawVal (cfg : Env α) (st : State α) : α := cfg.rand st.nrand

/-- Draw of `rand()/(double)(RAND_MAX)`: the state after the call. -/
def drawNext (st : State α) : State α := { st with nrand := st.nrand + 1 }

/-- Lines 287-303 for one training rating `j` of user `u`. -/
def posAccumStep (cfg : Env α) (u j : Nat) (st : State α) : State α :=
  let base0 := cfg.useridx u 0
  let m := entMovie cfg (base0 + j)
  let st := { st with moviecount := upd1 st.moviecount m (st.moviecount m + 1) }
  let r := entRating cfg (base0 + j)
  let st := { st with posvisact := upd2 st.posvisact m r (st.posvisact m r + 1) }
  addWeights cfg m r st

/-- Lines 306-320 for one hidden unit. -/
def posHiddenStep (cfg : Env α) (h : Nat) (st : State α) : State α :=
  let p := 1 / (1 + cfg.exp (-st.sumW h - st.hidbiases h))
  let st := { st with poshidprobs := upd1 st.poshidprobs h p }
  let rnd := drawVal cfg st
  let st := drawNext st
  if st.poshidprobs h > rnd then
    let st := { st with poshidstates := upd1 st.poshidstates h 1 }
    { st with poshidact := upd1 st.poshidact h (st.poshidact h + 1) }
  else
    { st with poshidstates := upd1 st.poshidstates h 0 }

/-- Line 343, `negvisprobs[m][r] += vishid[m][r][h]`. -/
def negAddCell (m h r : Nat) (s : State α) : State α :=
  { s with negvisprobs := upd2 s.negvisprobs m r (s.negvisprobs m r + s.vishid m r h) }

/-- Line 350, `nvp2[m][r] += poshidprobs[h] * vishid[m][r][h]`. -/
def nvpAddCell (m h r : Nat) (s : State α) : State α :=
  { s with nvp2 := upd2 s.nvp2 m r (s.nvp2 m r + s.poshidprobs h * s.vishid m r h) }

/-- Lines 339-352 for one hidden unit `h` and the item `m`. -/
def visAccumStep (m stepT h : Nat) (st : State α) : State α :=
  let st := if st.curposhidstates h = 1 then forLoop SOFTMAX (negAddCell m h) st else st
  if stepT = 0 then forLoop SOFTMAX (nvpAddCell m h) st else st

/-- Lines 399-409: the category chosen for the draw `randval` and the row `p`. -/
def sampleCategory (p : Nat → α) (randval : α) : Nat :=
  let randval := randval - p 0
  if randval ≤ 0 then 0
  else
    let randval := randval - p 1
    if randval ≤ 0 then 1
    else
      let randval := randval - p 2
      if randval ≤ 0 then 2
      else
        let randval := randval - p 3
        if randval ≤ 0 then 3
        else 4

/-- Lines 337-414 for one entry `j` (training or probe) of user `u`. -/
def visReconStep (cfg : Env α) (u stepT : Nat) (finalTStep : Bool) (j : Nat)
    (st : State α) : State α :=
  let base0 := cfg.useridx u 0
  let d0 := cfg.UNTRAIN u
  let m := entMovie cfg (base0 + j)
  let st := forLoop cfg.TOTAL_FEATURES (visAccumStep m stepT) st
  let st := { st with negvisprobs := sigmoidRow cfg st.visbiases st.negvisprobs m }
  let st := { st with negvisprobs := normalizeRow st.negvisprobs m }
  let st :=
    if stepT = 0 then
      let st := { st with nvp2 := sigmoidRow cfg st.visbiases st.nvp2 m }
      { st with nvp2 := normalizeRow st.nvp2 m }
    else st
  let randval := drawVal cfg st
  let st := drawNext st
  let c := sampleCategory (st.negvisprobs m) randval
  let st := { st with negvissoftmax := upd1 st.negvissoftmax m c }
  if j < d0 ∧ finalTStep = true then
    let c := st.negvissoftmax m
    { st with negvisact := upd2 st.negvisact m c (st.negvisact m c + 1) }
  else st

/-- Lines 420-427 for one training rating. -/
def negSumStep (cfg : Env α) (u j : Nat) (st : State α) : State α :=
  let base0 := cfg.useridx u 0
  let m := entMovie cfg (base0 + j)
  addWeights cfg m (st.negvissoftmax m) st

/-- Lines 429-441 for one hidden unit. -/
def negHiddenStep (cfg : Env α) (finalTStep : Bool) (h : Nat) (st : State α) : State α :=
  let p := 1 / (1 + cfg.exp (-st.sumW h - st.hidbiases h))
  let st := { st with neghidprobs := upd1 st.neghidprobs h p }
  let rnd := drawVal cfg st
  let st := drawNext st
  if st.neghidprobs h > rnd then
    let st := { st with neghidstates := upd1 st.neghidstates h 1 }
    if finalTStep = true then
      { st with neghidact := upd1 st.neghidact h (st.neghidact h + 1) }
    else st
  else
    { st with neghidstates := upd1 st.neghidstates h 0 }

/-- Lines 447-455 for one training rating. -/
def trainErrStep (cfg : Env α) (u j : Nat) (st : State α) : State α :=
  let base0 := cfg.useridx u 0
  let m := entMovie cfg (base0 + j)
  let r := entRating cfg (base0 + j)
  let vdelta := (r : α) - expectedV st.nvp2 m
  { st with nrmse := st.nrmse + vdelta * vdelta }

/-- Lines 462-469 for one probe rating; `base` is the start of the probe segment. -/
def probeErrStep (cfg : Env α) (base i : Nat) (st : State α) : State α :=
  let m := entMovie cfg (base + i)
  let r := entRating cfg (base + i)
  let vdelta := (r : α) - expectedV st.nvp2 m
  { st with s := st.s + vdelta * vdelta }

/-- Lines 444-471, the block run when `stepT == 0`. -/
def errAccum (cfg : Env α) (u : Nat) (st : State α) : State α :=
  let d0 := cfg.UNTRAIN u
  let st := forLoop d0 (trainErrStep cfg u) st
  let st := { st with ntrain := st.ntrain + d0 }
  let base := cfg.useridx u 0
  let base := base + cfg.useridx u 1
  let d := cfg.useridx u 2
  let st := forLoop d (probeErrStep cfg base) st
  { st with n := st.n + d }

/-- Lines 474-478, the block run when the step is not the final one. -/
def carryHidden (cfg : Env α) (st : State α) : State α :=
  let st := forLoop cfg.TOTAL_FEATURES (fun h s =>
    { s with curposhidstates := upd1 s.curposhidstates h (s.neghidstates h) }) st
  { st with negvisprobs := fun _ _ => 0 }

/-- The body of the `do .. while` loop, lines 329-478, for the step `stepT`. -/
def gibbsStep (cfg : Env α) (u stepT : Nat) (st : State α) : State α :=
  let finalTStep : Bool := decide (stepT + 1 ≥ st.tSteps)
  let d0 := cfg.UNTRAIN u
  let count := d0
  let count := count + cfg.useridx u 2
  let st := forLoop count (visReconStep cfg u stepT finalTStep) st
  let st := { st with sumW := fun _ => 0 }
  let st := forLoop d0 (negSumStep cfg u) st
  let st := forLoop cfg.TOTAL_FEATURES (negHiddenStep cfg finalTStep) st
  let st := if stepT = 0 then errAccum cfg u st else st
  if finalTStep = false then carryHidden cfg st else st

/-- Lines 486-501 for one hidden unit `h` of the training rating `(m, r)`. -/
def cdCell (m r h : Nat) (st : State α) : State α :=
  let st :=
    if st.poshidstates h = 1 then
      { st with CDpos := upd3 st.CDpos m r h (st.CDpos m r h + 1) }
    else st
  let c := st.negvissoftmax m
  { st with CDneg := upd3 st.CDneg m c h (st.CDneg m c h + (st.neghidstates h : α)) }

/-- Lines 486-501 for one training rating. -/
def cdAccumStep (cfg : Env α) (u j : Nat) (st : State α) : State α :=
  let base0 := cfg.useridx u 0
  let m := entMovie cfg (base0 + j)
  let r := entRating cfg (base0 + j)
  forLoop cfg.TOTAL_FEATURES (cdCell m r) st

/-- Lines 275-303: the scratch arrays are cleared and the training ratings of
user `u` are accumulated (`moviecount`, `posvisact`, `sumW`). -/
def posPhase (cfg : Env α) (u : Nat) (st : State α) : State α :=
  let st := { st with negvisprobs := fun _ _ => 0 }
  let st := { st with nvp2 := fun _ _ => 0 }
  let d0 := cfg.UNTRAIN u
  let st := { st with sumW := fun _ => 0 }
  forLoop d0 (posAccumStep cfg u) st

/-- Lines 275-501: everything done for user `u` before the batch test. -/
def processUser (cfg : Env α) (u : Nat) (st : State α) : State α :=
  let d0 := cfg.UNTRAIN u
  let st := posPhase cfg u st
  let st := forLoop cfg.TOTAL_FEATURES (posHiddenStep cfg) st
  let st := forLoop cfg.TOTAL_FEATURES (fun h s =>
    { s with curposhidstates := upd1 s.curposhidstates h (s.poshidstates h) }) st
  let st := doWhile (gibbsStep cfg u) st.tSteps 0 st
  forLoop d0 (cdAccumStep cfg u) st

/-! ### doAllFeatures: the mini-batch update -/

/-- Lines 521-532 for the weight `vishid[m][rr][h]`. -/
def weightCell (m h rr : Nat) (st : State α) : State α :=
  let CDp := st.CDpos m rr h
  let CDn := st.CDneg m rr h
  if CDp ≠ 0 ∨ CDn ≠ 0 then
    let CDp := CDp / (st.moviecount m : α)
    let CDn := CDn / (st.moviecount m : α)
    let inc := st.Momentum * st.CDinc m rr h
      + st.EpsilonW * ((CDp - CDn) - weightcost * st.vishid m rr h)
    let st := { st with CDinc := upd3 st.CDinc m rr h inc }
    { st with vishid := upd3 st.vishid m rr h (st.vishid m rr h + st.CDinc m rr h) }
  else st

/-- Lines 541-547 for the visible bias `visbiases[m][rr]`. -/
def visBiasCell (m rr : Nat) (st : State α) : State α :=
  if st.posvisact m rr ≠ 0 ∨ st.negvisact m rr ≠ 0 then
    let pv := st.posvisact m rr / (st.moviecount m : α)
    let st := { st with posvisact := upd2 st.posvisact m rr pv }
    let nv := st.negvisact m rr / (st.moviecount m : α)
    let st := { st with negvisact := upd2 st.negvisact m rr nv }
    let inc := st.Momentum * st.visbiasinc m rr
      + st.EpsilonVB * (st.posvisact m rr - st.negvisact m rr)
    let st := { st with visbiasinc := upd2 st.visbiasinc m rr inc }
    { st with visbiases := upd2 st.visbiases m rr (st.visbiases m rr + st.visbiasinc m rr) }
  else st

/-- Lines 511-549 for one item `m`. -/
def updateMovie (cfg : Env α) (m : Nat) (st : State α) : State α :=
  if st.moviecount m = 0 then st
  else
    let st := forLoop cfg.TOTAL_FEATURES (fun h s => forLoop SOFTMAX (weightCell m h) s) st
    forLoop SOFTMAX (visBiasCell m) st

/-- Lines 555-561 for the hidden bias `hidbiases[h]`. -/
def hidBiasCell (numcases h : Nat) (st : State α) : State α :=
  if st.poshidact h ≠ 0 ∨ st.neghidact h ≠ 0 then
    let st := { st with poshidact := upd1 st.poshidact h (st.poshidact h / (numcases : α)) }
    let st := { st with neghidact := upd1 st.neghidact h (st.neghidact h / (numcases : α)) }
    let inc := st.Momentum * st.hidbiasinc h
      + st.EpsilonHB * (st.poshidact h - st.neghidact h)
    let st := { st with hidbiasinc := upd1 st.hidbiasinc h inc }
    { st with hidbiases := upd1 st.hidbiases h (st.hidbiases h + st.hidbiasinc h) }
  else st

/-- The seven `ZERO` calls of lines 264-270 and 563-569. -/
def zeroAccumulators (st : State α) : State α :=
  let st := { st with CDpos := fun _ _ _ => 0 }
  let st := { st with CDneg := fun _ _ _ => 0 }
  let st := { st with poshidact := fun _ => 0 }
  let st := { st with neghidact := fun _ => 0 }
  let st := { st with posvisact := fun _ _ => 0 }
  let st := { st with negvisact := fun _ _ => 0 }
  { st with moviecount := fun _ => 0 }

/-- Batch size, `int bsize = 100`. -/
def bsize : Nat := 100

/-- Lines 507-569: the update run after user `u` when the batch test holds. -/
def miniBatchUpdate (cfg : Env α) (u : Nat) (st : State α) : State α :=
  let numcases := u % bsize
  let numcases := numcases + 1
  let st := forLoop cfg.NMOVIES (updateMovie cfg) st
  let st := forLoop cfg.TOTAL_FEATURES (hidBiasCell numcases) st
  zeroAccumulators st

/-- The test of line 506. -/
def batchEnd (cfg : Env α) (u : Nat) : Prop :=
  (u + 1) % bsize = 0 ∨ u + 1 = cfg.NUSERS

instance (cfg : Env α) (u : Nat) : Decidable (batchEnd cfg u) := by
  unfold batchEnd
  exact inferInstance

/-- The body of the user loop, lines 273-571. -/
def userStep (cfg : Env α) (u : Nat) (st : State α) : State α :=
  let st := processUser cfg u st
  if batchEnd cfg u then miniBatchUpdate cfg u st else st

/-! ### doAllFeatures: epochs -/

/-- Lines 578-606: decay of the learning rates at the end of an epoch. -/
def decayRates (cfg : Env α) (st : State α) : State α :=
  let scale (f : α) (st : State α) : State α :=
    let st := { st with EpsilonW := st.EpsilonW * f }
    let st := { st with EpsilonVB := st.EpsilonVB * f }
    { st with EpsilonHB := st.EpsilonHB * f }
  if cfg.TOTAL_FEATURES = 200 then
    if st.loopcount > 6 then scale 0.90 st
    else if st.loopcount > 5 then scale 0.50 st
    else if st.loopcount > 2 then scale 0.70 st
    else st
  else
    if st.loopcount > 8 then scale 0.92 st
    else if st.loopcount > 6 then scale 0.90 st
    else if st.loopcount > 2 then scale 0.78 st
    else st

/-- Lines 248-249: the sampling depth of the epoch. -/
def setSteps (st : State α) : State α :=
  if st.loopcount ≥ 10 then { st with tSteps := 3 + (st.loopcount - 10) / 5 } else st

/-- Lines 260-261: the momentum of the epoch. -/
def setMomentum (st : State α) : State α :=
  if st.loopcount > 5 then { st with Momentum := finalmomentum } else st

/-- Lines 248-270: the statements of an epoch before its user loop. -/
def epochStart (st : State α) : State α :=
  let st := setSteps st
  let st := { st with last_rmse := st.nrmse }
  let st := { st with last_prmse := st.prmse }
  let st := { st with loopcount := st.loopcount + 1 }
  let st := { st with ntrain := 0 }
  let st := { st with nrmse := 0 }
  let st := { st with s := 0 }
  let st := { st with n := 0 }
  let st := setMomentum st
  zeroAccumulators st

/-- The body of the epoch loop, lines 248-606. -/
def epochBody (cfg : Env α) (st : State α) : State α :=
  let st := epochStart st
  let st := forLoop cfg.NUSERS (userStep cfg) st
  let st := { st with nrmse := cfg.sqrt (st.nrmse / (st.ntrain : α)) }
  let st := { st with prmse := cfg.sqrt (st.s / (st.n : α)) }
  decayRates cfg st

/-- The loop `while (cond) body`, run with `fuel` as an upper bound on the
number of iterations; `none` when the loop is still running after that. -/
def whileLoop {σ : Type} (cond : σ → Prop) [DecidablePred cond] (body : σ → σ) :
    Nat → σ → Option σ
  | 0, s => if cond s then none else some s
  | fuel + 1, s => if cond s then whileLoop cond body fuel (body s) else some s

/-- The shape of the loop test of line 246, `improved` being the outcome of
the comparison `nrmse < (last_rmse-E)`. -/
def capCond (improved : Prop) (loopcount : Nat) : Prop :=
  (improved ∨ loopcount < 14) ∧ loopcount < 80

instance (improved : Prop) [Decidable improved] (loopcount : Nat) :
    Decidable (capCond improved loopcount) := by
  unfold capCond
  exact inferInstance

/-- The loop test of line 246. -/
def epochCond (st : State α) : Prop :=
  capCond (st.nrmse < st.last_rmse - E) st.loopcount

instance (st : State α) : Decidable (epochCond st) := by
  unfold epochCond
  exact inferInstance

/-- The `while` loop of line 246 with fuel. -/
def epochLoop (cfg : Env α) (fuel : Nat) (st : State α) : Option (State α) :=
  whileLoop epochCond (epochBody cfg) fuel st

/-- Lines 208-216 for one hidden unit `i` of item `j`: five draws. -/
def initWeightCell (cfg : Env α) (j i : Nat) (st : State α) : State α :=
  let st := drawNext { st with vishid := upd3 st.vishid j 0 i (0.02 * drawVal cfg st - 0.01) }
  let st := drawNext { st with vishid := upd3 st.vishid j 1 i (0.02 * drawVal cfg st - 0.01) }
  let st := drawNext { st with vishid := upd3 st.vishid j 2 i (0.02 * drawVal cfg st - 0.01) }
  let st := drawNext { st with vishid := upd3 st.vishid j 3 i (0.02 * drawVal cfg st - 0.01) }
  drawNext { st with vishid := upd3 st.vishid j 4 i (0.02 * drawVal cfg st - 0.01) }

/-- Lines 222-227 for one item `j`. -/
def initVisBias (cfg : Env α) (j : Nat) (st : State α) : State α :=
  let mtot := st.moviercount (j * SOFTMAX + 0) + st.moviercount (j * SOFTMAX + 1)
    + st.moviercount (j * SOFTMAX + 2) + st.moviercount (j * SOFTMAX + 3)
    + st.moviercount (j * SOFTMAX + 4)
  forLoop SOFTMAX (fun i s =>
    let v := cfg.log ((s.moviercount (j * SOFTMAX + i) : α) / (mtot : α))
    { s with visbiases := upd2 s.visbiases j i v }) st

/-- Lines 206-242: initial weights, biases and locals. -/
def initParams (cfg : Env α) (st : State α) : State α :=
  let st := forLoop cfg.NMOVIES (fun j s =>
    forLoop cfg.TOTAL_FEATURES (initWeightCell cfg j) s) st
  let st := forLoop cfg.TOTAL_FEATURES (fun i s =>
    { s with hidbiases := upd1 s.hidbiases i 0 }) st
  let st := forLoop cfg.NMOVIES (initVisBias cfg) st
  let st := { st with nrmse := 2 }
  let st := { st with last_rmse := 10 }
  let st := { st with prmse := 0 }
  let st := { st with last_prmse := 0 }
  let st := { st with loopcount := 0 }
  let st := { st with EpsilonW := epsilonw }
  let st := { st with EpsilonVB := epsilonvb }
  let st := { st with EpsilonHB := epsilonhb }
  let st := { st with Momentum := momentum }
  let st := { st with CDinc := fun _ _ _ => 0 }
  let st := { st with visbiasinc := fun _ _ => 0 }
  let st := { st with hidbiasinc := fun _ => 0 }
  { st with tSteps := 1 }

/-- The function `doAllFeatures`: the final state and the value returned
(always 1), or `none` when `fuel` iterations do not finish the epoch loop. -/
def doAllFeatures (cfg : Env α) (fuel : Nat) (st : State α) : Option (State α × Int) :=
  match epochLoop cfg fuel (initParams cfg st) with
  | none => none
  | some st => some (recordErrors cfg st, 1)

/-- The function `score_train`. -/
def score_train (cfg : Env α) (fuel : Nat) (loop : Int) (st : State α) :
    Option (State α × Int) :=
  if loop = 0 then doAllFeatures cfg fuel st else some (st, 1)

/-! ### Observations used in the proofs -/

/-- The values one parameter update reads and writes: the momentum
increment `inc`, the parameter `val`, the positive and negative accumulator
entries, the divisor `cnt`, the momentum and the learning rate. -/
structure CellObs (α : Type) where
  inc : α
  val : α
  pos : α
  neg : α
  cnt : Nat
  mom : α
  eps : α

/-- What the update of `vishid[m][c][h]` reads and writes. -/
def weightObs (m c h : Nat) (st : State α) : CellObs α :=
  { inc := st.CDinc m c h, val := st.vishid m c h, pos := st.CDpos m c h,
    neg := st.CDneg m c h, cnt := st.moviecount m, mom := st.Momentum, eps := st.EpsilonW }

/-- The new increment of line 530 as a function of the old values. -/
def weightInc (o : CellObs α) : α :=
  o.mom * o.inc + o.eps * ((o.pos / (o.cnt : α) - o.neg / (o.cnt : α)) - weightcost * o.val)

/-- Effect of lines 521-532 on the observed values. -/
def weightNew (o : CellObs α) : CellObs α :=
  if o.pos ≠ 0 ∨ o.neg ≠ 0 then { o with inc := weightInc o, val := o.val + weightInc o }
  else o

/-- What the update of `visbiases[m][c]` reads and writes. -/
def visObs (m c : Nat) (st : State α) : CellObs α :=
  { inc := st.visbiasinc m c, val := st.visbiases m c, pos := st.posvisact m c,
    neg := st.negvisact m c, cnt := st.moviecount m, mom := st.Momentum, eps := st.EpsilonVB }

/-- The new increment of lines 544 and 558 as a function of the old values. -/
def biasInc (o : CellObs α) : α :=
  o.mom * o.inc + o.eps * (o.pos / (o.cnt : α) - o.neg / (o.cnt : α))

/-- Effect of lines 541-547 and of lines 555-561 on the observed values. -/
def biasNew (o : CellObs α) : CellObs α :=
  if o.pos ≠ 0 ∨ o.neg ≠ 0 then
    { o with inc := biasInc o, val := o.val + biasInc o, pos := o.pos / (o.cnt : α),
             neg := o.neg / (o.cnt : α) }
  else o

/-- What the update of `hidbiases[h]` reads and writes, `numcases` being the divisor. -/
def hidObs (numcases h : Nat) (st : State α) : CellObs α :=
  { inc := st.hidbiasinc h, val := st.hidbiases h, pos := st.poshidact h,
    neg := st.neghidact h, cnt := numcases, mom := st.Momentum, eps := st.EpsilonHB }

/-- Effect of one item's pass of the update loop (lines 511-534) on the
observed values of one of its weights, `inRange` telling whether the loops
reach the weight. -/
def movieWeightNew (inRange : Prop) [Decidable inRange] (o : CellObs α) : CellObs α :=
  if o.cnt = 0 then o else if inRange then weightNew o else o

/-- Effect of one item's pass of the update loop (lines 536-548) on the
observed values of one of its visible biases. -/
def movieVisNew (inRange : Prop) [Decidable inRange] (o : CellObs α) : CellObs α :=
  if o.cnt = 0 then o else if inRange then biasNew o else o

/-- The variables that the processing of a user and the mini-batch update
never write: the epoch-level locals, `moviercount` and `err`. -/
structure Ctl (α : Type) where
  loopcount : Nat
  tSteps : Nat
  Momentum : α
  EpsilonW : α
  EpsilonVB : α
  EpsilonHB : α
  last_rmse : α
  last_prmse : α
  prmse : α
  moviercount : Nat → Nat
  err : Nat → α

/-- The `Ctl` part of a state. -/
def ctlObs (st : State α) : Ctl α :=
  { loopcount := st.loopcount, tSteps := st.tSteps, Momentum := st.Momentum,
    EpsilonW := st.EpsilonW, EpsilonVB := st.EpsilonVB, EpsilonHB := st.EpsilonHB,
    last_rmse := st.last_rmse, last_prmse := st.last_prmse, prmse := st.prmse,
    moviercount := st.moviercount, err := st.err }

/-- The seven arrays cleared by lines 264-270 and 563-569 hold zero everywhere. -/
def accumulatorsZero (st : State α) : Prop :=
  (∀ m c h, st.CDpos m c h = 0) ∧ (∀ m c h, st.CDneg m c h = 0)
    ∧ (∀ h, st.poshidact h = 0) ∧ (∀ h, st.neghidact h = 0)
    ∧ (∀ m c, st.posvisact m c = 0) ∧ (∀ m c, st.negvisact m c = 0)
    ∧ (∀ m, st.moviecount m = 0)

/-- The state of an epoch begun in state `st` at the moment the iteration of
the user loop for user `u` starts (lines 248-270, then the iterations for
the users before `u`). -/
def beforeUser (cfg : Env α) (st : State α) (u : Nat) : State α :=
  forLoop u (userStep cfg) (epochStart st)

/-- The total `mtot` of line 223 for item `j` and the counts `cnt`. -/
def totalCount (cnt : Nat → Nat) (j : Nat) : Nat :=
  cnt (j * SOFTMAX + 0) + cnt (j * SOFTMAX + 1) + cnt (j * SOFTMAX + 2)
    + cnt (j * SOFTMAX + 3) + cnt (j * SOFTMAX + 4)

/-- The value `1./(1 + exp(-x - b))` that lines 356-360 store in
`negvisprobs[m][c]` during a reconstruction step begun in state `st`, `x`
being the old entry plus the weights `vishid[m][c][h]` of the hidden units
with `curposhidstates[h] == 1`. -/
def rawNeg (cfg : Env α) (st : State α) (m c : Nat) : α :=
  1 / (1 + cfg.exp (-(st.negvisprobs m c
      + ∑ h in Finset.range cfg.TOTAL_FEATURES,
          if st.curposhidstates h = 1 then st.vishid m c h else 0)
    - st.visbiases m c))

/-- The value `1./(1 + exp(-x - b))` that lines 378-382 store in `nvp2[m][c]`
during the first reconstruction step begun in state `st`, `x` being the old
entry plus the sum of `poshidprobs[h] * vishid[m][c][h]`. -/
def rawNvp (cfg : Env α) (st : State α) (m c : Nat) : α :=
  1 / (1 + cfg.exp (-(st.nvp2 m c
      + ∑ h in Finset.range cfg.TOTAL_FEATURES, st.poshidprobs h * st.vishid m c h)
    - st.visbiases m c))

/-- The variables a reconstruction step reads without writing them. -/
def reconInputs (st : State α) :
    (Nat → Nat → Nat → α) × (Nat → Nat → α) × (Nat → Nat) × (Nat → α) :=
  (st.vishid, st.visbiases, st.curposhidstates, st.poshidprobs)

/-- The sum `tsum` of lines 363-368 for the row `m` of `a`. -/
def rowSum (a : Nat → Nat → α) (m : Nat) : α :=
  a m 0 + a m 1 + a m 2 + a m 3 + a m 4

/-- The variables that a Gibbs step (lines 329-478) never writes. -/
def chainKeep (st : State α) :
    Ctl α × (Nat → Nat → Nat → α) × (Nat → Nat → α) × (Nat → α) × (Nat → Nat → Nat → α)
      × (Nat → Nat → α) × (Nat → α) × (Nat → Nat) × (Nat → Nat → α) × (Nat → Nat)
      × (Nat → α) × (Nat → α) × (Nat → Nat → Nat → α) × (Nat → Nat → Nat → α) :=
  (ctlObs st, st.vishid, st.visbiases, st.hidbiases, st.CDinc, st.visbiasinc, st.hidbiasinc,
    st.moviecount, st.posvisact, st.poshidstates, st.poshidprobs, st.poshidact, st.CDpos,
    st.CDneg)

/-- The number of training entries of user `u` that name item `m`. -/
def trainCount (cfg : Env α) (u m : Nat) : Nat :=
  ∑ j in Finset.range (cfg.UNTRAIN u),
    if entMovie cfg (cfg.useridx u 0 + j) = m then 1 else 0

/-! ### A small data set for concrete evaluation -/

/-- Three items, one user, three hidden units.  The user has the training
ratings (item 0, category 2) and (item 1, category 0) and the probe rating
(item 2, category 4); a rating is encoded as `category * 2^15 + item`.  The
library functions are rational stand-ins and every draw is `1/2`. -/
def exEnv : Env ℚ where
  NMOVIES := 3
  NUSERS := 1
  USER_MOVIEMASK := 32767
  USER_LMOVIEMASK := 15
  useridx := fun u k => if u = 0 then (if k = 1 then 2 else if k = 2 then 1 else 0) else 0
  userent := fun i => if i = 0 then 65536 else if i = 1 then 1 else if i = 2 then 131074 else 0
  UNTRAIN := fun u => if u = 0 then 2 else 0
  UNALL := fun u => if u = 0 then 3 else 0
  TOTAL_FEATURES := 3
  exp := fun x => 1 + x ^ 2
  log := fun x => x - 1
  sqrt := fun x => x
  rand := fun _ => 1 / 2

/-- The state with zero in every variable. -/
def zeroState : State ℚ where
  vishid := fun _ _ _ => 0
  visbiases := fun _ _ => 0
  hidbiases := fun _ => 0
  CDpos := fun _ _ _ => 0
  CDneg := fun _ _ _ => 0
  CDinc := fun _ _ _ => 0
  poshidprobs := fun _ => 0
  poshidstates := fun _ => 0
  curposhidstates := fun _ => 0
  poshidact := fun _ => 0
  neghidact := fun _ => 0
  neghidprobs := fun _ => 0
  neghidstates := fun _ => 0
  hidbiasinc := fun _ => 0
  nvp2 := fun _ _ => 0
  negvisprobs := fun _ _ => 0
  negvissoftmax := fun _ => 0
  posvisact := fun _ _ => 0
  negvisact := fun _ _ => 0
  visbiasinc := fun _ _ => 0
  moviercount := fun _ => 0
  moviecount := fun _ => 0
  err := fun _ => 0
  sumW := fun _ => 0
  nrmse := 0
  last_rmse := 0
  prmse := 0
  last_prmse := 0
  s := 0
  n := 0
  ntrain := 0
  loopcount := 0
  tSteps := 0
  EpsilonW := 0
  EpsilonVB := 0
  EpsilonHB := 0
  Momentum := 0
  nrand := 0

/-- A state as it stands before the update of a batch made of the one user of
`exEnv`: positive hidden states `1,0,1`, final negative hidden states
`0,0,1`, category 3 sampled for item 0 and category 0 for item 1; every
weight is `1/100` and every increment left by earlier updates is `1/1000`
(weights) or `1/100` (biases). -/
def exBatch : State ℚ :=
  { zeroState with
    vishid := fun _ _ _ => 1 / 100
    CDinc := fun _ _ _ => 1 / 1000
    visbiasinc := fun _ _ => 1 / 100
    hidbiasinc := fun _ => 1 / 100
    CDpos := fun m c h =>
      if (m = 0 ∧ c = 2 ∨ m = 1 ∧ c = 0) ∧ (h = 0 ∨ h = 2) then 1 else 0
    CDneg := fun m c h => if (m = 0 ∧ c = 3 ∨ m = 1 ∧ c = 0) ∧ h = 2 then 1 else 0
    posvisact := fun m c => if m = 0 ∧ c = 2 ∨ m = 1 ∧ c = 0 then 1 else 0
    negvisact := fun m c => if m = 0 ∧ c = 3 ∨ m = 1 ∧ c = 0 then 1 else 0
    poshidact := fun h => if h = 0 ∨ h = 2 then 1 else 0
    neghidact := fun h => if h = 2 then 1 else 0
    moviecount := fun m => if m = 0 ∨ m = 1 then 1 else 0
    loopcount := 1
    tSteps := 1
    EpsilonW := 1 / 1000
    EpsilonVB := 8 / 1000
    EpsilonHB := 6 / 10000
    Momentum := 8 / 10 }

/-- A state like `exBatch` but with pairwise different weights,
`vishid[m][c][h] = (100 m + 10 c + h) / 1000`. -/
def exWeights : State ℚ :=
  { exBatch with vishid := fun m c h => ((100 * m + 10 * c + h : Nat) : ℚ) / 1000 }

/-- Ten users with one training rating each, all of item 0, with the
categories `0,1,1,2,2,2,3,3,3,3`: the training counts of item 0 are
`1,2,3,4,0`. -/
def exTen : Env ℚ :=
  { exEnv with
    NMOVIES := 1
    NUSERS := 10
    useridx := fun u k => if k = 0 then u else if k = 1 then 1 else 0
    userent := fun i =>
      if i = 0 then 0 else if i ≤ 2 then 32768 else if i ≤ 5 then 65536
      else if i ≤ 9 then 98304 else 0
    UNTRAIN := fun _ => 1
    UNALL := fun _ => 1 }

/-- The state after `e` epochs of `doAllFeatures` (the state in which the
epoch with 0-based index `e` starts). -/
def afterEpochs (cfg : Env α) (st : State α) (e : Nat) : State α :=
  (epochBody cfg)^[e] (initParams cfg st)

/-- Lines 275-324: the part of a user's processing before the Gibbs chain. -/
def prePhase (cfg : Env α) (u : Nat) (st : State α) : State α :=
  let st := posPhase cfg u st
  let st := forLoop cfg.TOTAL_FEATURES (posHiddenStep cfg) st
  forLoop cfg.TOTAL_FEATURES (fun h s =>
    { s with curposhidstates := upd1 s.curposhidstates h (s.poshidstates h) }) st

/-- The decay factor after the `n`-th epoch as the specification states it
for 100 hidden units. -/
def statedFactor100 (n : Nat) : α :=
  if n ≤ 2 then 1 else if n ≤ 6 then 0.78 else if n ≤ 8 then 0.90 else 0.92

/-- The decay factor after the `n`-th epoch as the specification states it
for 200 hidden units. -/
def statedFactor200 (n : Nat) : α :=
  if n ≤ 2 then 1 else if n ≤ 5 then 0.70 else if n = 6 then 0.50 else 0.90

/-- The data of `exEnv` with 100 hidden units. -/
def exEnv100 : Env ℚ := { exEnv with TOTAL_FEATURES := 100 }

/-- The data of `exEnv` with 200 hidden units. -/
def exEnv200 : Env ℚ := { exEnv with TOTAL_FEATURES := 200 }

/-- The cumulative probability `p 0 + .. + p c`. -/
def cumProb (p : Nat → α) (c : Nat) : α := ∑ i in Finset.range (c + 1), p i

/-- The row of probabilities `1/10, 2/10, 3/10, 4/10, 0`. -/
def exProbs : Nat → ℚ := fun c => if c < 4 then ((c + 1 : Nat) : ℚ) / 10 else 0

/-- A state with `CDpos` and `CDneg` blanked: what lines 486-501 leave alone. -/
def dropCD (st : State α) : State α :=
  { st with CDpos := fun _ _ _ => 0, CDneg := fun _ _ _ => 0 }

/-- Lines 337-414 of the Gibbs step `stepT` begun in state `st`: the
reconstruction of all touched items. -/
def reconLoop (cfg : Env α) (u stepT : Nat) (st : State α) : State α :=
  forLoop (cfg.UNTRAIN u + cfg.useridx u 2)
    (visReconStep cfg u stepT (decide (stepT + 1 ≥ st.tSteps))) st

/-- Lines 337-441 of the Gibbs step `stepT` begun in state `st`: the
reconstruction, then the hidden units computed and sampled again. -/
def negPhase (cfg : Env α) (u stepT : Nat) (st : State α) : State α :=
  let t := reconLoop cfg u stepT st
  let t := { t with sumW := fun _ => 0 }
  let t := forLoop (cfg.UNTRAIN u) (negSumStep cfg u) t
  forLoop cfg.TOTAL_FEATURES (negHiddenStep cfg (decide (stepT + 1 ≥ st.tSteps))) t

/-- A state with the variables written by lines 275-324 blanked: what the
part of a user's processing before the Gibbs chain leaves alone. -/
def dropPre (st : State α) : State α :=
  { st with
    negvisprobs := fun _ _ => 0
    nvp2 := fun _ _ => 0
    sumW := fun _ => 0
    moviecount := fun _ => 0
    posvisact := fun _ _ => 0
    poshidprobs := fun _ => 0
    nrand := 0
    poshidstates := fun _ => 0
    poshidact := fun _ => 0
    curposhidstates := fun _ => 0 }

/-- The state in which the Gibbs chain of user `u` ends when the user is
processed from state `st` (the chain has `max tSteps 1` steps). -/
def afterChain (cfg : Env α) (u : Nat) (st : State α) : State α :=
  forLoop (max st.tSteps 1) (gibbsStep cfg u) (prePhase cfg u st)

/-- Item of the `j`-th entry of user `u`. -/
def itemOf (cfg : Env α) (u j : Nat) : Nat := entMovie cfg (cfg.useridx u 0 + j)

/-- Category of the `j`-th entry of user `u`. -/
def catOf (cfg : Env α) (u j : Nat) : Nat := entRating cfg (cfg.useridx u 0 + j)

/-- The state in which the last Gibbs step of user `u` begins. -/
def lastStart (cfg : Env α) (u : Nat) (st : State α) : State α :=
  forLoop (max st.tSteps 1 - 1) (gibbsStep cfg u) (prePhase cfg u st)

/-- The state after the negative phase (lines 337-441) of the last Gibbs
step of user `u`. -/
def lastNeg (cfg : Env α) (u : Nat) (st : State α) : State α :=
  negPhase cfg u (max st.tSteps 1 - 1) (lastStart cfg u st)

/-- The weighted sum of hidden unit `h` over the training entries of user
`u`, with the categories `cat` sampled for their items and weights `w`. -/
def trainSum (cfg : Env α) (u : Nat) (w : Nat → Nat → Nat → α) (cat : Nat → Nat)
    (h : Nat) : α :=
  ∑ j in Finset.range (cfg.UNTRAIN u), w (itemOf cfg u j) (cat (itemOf cfg u j)) h

/-- The error sums of an epoch and their record counts. -/
def errSums (st : State α) : α × α × Nat × Nat := (st.nrmse, st.s, st.n, st.ntrain)

/-- The squared residual `vdelta * vdelta` of lines 449-454 (and 464-469) for
the encoded rating `userent[i]` and the reconstruction `nvp`. -/
def sqResidual (cfg : Env α) (nvp : Nat → Nat → α) (i : Nat) : α :=
  ((entRating cfg i : α) - expectedV nvp (entMovie cfg i))
    * ((entRating cfg i : α) - expectedV nvp (entMovie cfg i))

/-- The sum of the squared residuals over the training entries of user `u`. -/
def trainSq (cfg : Env α) (u : Nat) (nvp : Nat → Nat → α) : α :=
  ∑ j in Finset.range (cfg.UNTRAIN u), sqResidual cfg nvp (cfg.useridx u 0 + j)

/-- The sum of the squared residuals over the probe entries of user `u`,
which lines 459-462 take to start at `useridx[u][0] + useridx[u][1]`. -/
def probeSq (cfg : Env α) (u : Nat) (nvp : Nat → Nat → α) : α :=
  ∑ i in Finset.range (cfg.useridx u 2),
    sqResidual cfg nvp (cfg.useridx u 0 + cfg.useridx u 1 + i)

/-- The reconstruction `nvp2` computed for user `u` in the Gibbs step 0, when
the user is processed from state `st`. -/
def stepZeroNvp (cfg : Env α) (u : Nat) (st : State α) : Nat → Nat → α :=
  (negPhase cfg u 0 (prePhase cfg u st)).nvp2

/-- The number of training entries, over all users, with item `m` and
category `c`. -/
def catCount (cfg : Env α) (m c : Nat) : Nat :=
  ∑ u in Finset.range cfg.NUSERS, ∑ j in Finset.range (cfg.UNTRAIN u),
    if itemOf cfg u j = m ∧ catOf cfg u j = c then 1 else 0

/-- The number of training entries, over all users, with item `m`. -/
def itemCount (cfg : Env α) (m : Nat) : Nat :=
  ∑ u in Finset.range cfg.NUSERS, ∑ j in Finset.range (cfg.UNTRAIN u),
    if itemOf cfg u j = m then 1 else 0

/-- The number of training entries, over all users, that line 104 counts in
the cell `moviercount[k]`. -/
def cellCount (cfg : Env α) (k : Nat) : Nat :=
  ∑ u in Finset.range cfg.NUSERS, ∑ j in Finset.range (cfg.UNTRAIN u),
    if k = itemOf cfg u j * SOFTMAX + catOf cfg u j then 1 else 0

/-- One item and five users with one training rating each, of the
categories `0,1,2,3,4`. -/
def exFive : Env ℚ :=
  { exEnv with
    NMOVIES := 1
    NUSERS := 5
    useridx := fun u k => if k = 0 then u else if k = 1 then 1 else 0
    userent := fun i => i * 32768
    UNTRAIN := fun _ => 1
    UNALL := fun _ => 1 }

/-- The probability `1./(1 + exp(-sumW[h] - hidbiases[h]))` of hidden unit
`h` for the training entries of user `u`, the weights `w` and the hidden
biases `hb` (lines 142-147 and 306-316). -/
def hiddenProb (cfg : Env α) (w : Nat → Nat → Nat → α) (hb : Nat → α) (u h : Nat) : α :=
  1 / (1 + cfg.exp (-(∑ j in Finset.range (cfg.UNTRAIN u),
      w (itemOf cfg u j) (catOf cfg u j) h) - hb h))

/-- The value `1./(1 + exp(-x - b))` that lines 168-172 of `recordErrors`
store in `negvisprobs[m][c]` during a reconstruction begun in state `st`. -/
def rawRe (cfg : Env α) (st : State α) (m c : Nat) : α :=
  1 / (1 + cfg.exp (-(st.negvisprobs m c
      + ∑ h in Finset.range cfg.TOTAL_FEATURES, st.poshidprobs h * st.vishid m c h)
    - st.visbiases m c))

/-- The variables a reconstruction step of `recordErrors` reads without
writing them. -/
def reInputs (st : State α) : (Nat → Nat → Nat → α) × (Nat → Nat → α) × (Nat → α) :=
  (st.vishid, st.visbiases, st.poshidprobs)

/-- Line 160 of `recordErrors`, `negvisprobs[m][r] += poshidprobs[h] *
vishid[m][r][h]`: the innermost body of `reVisStep`. -/
def reAddCell (m h r : Nat) (s : State α) : State α :=
  let v := s.negvisprobs m r + s.poshidprobs h * s.vishid m r h
  { s with negvisprobs := upd2 s.negvisprobs m r v }

/-- Lines 155-162 of `recordErrors` for the item `m`: the accumulation loop
of `reVisStep`. -/
def reAccLoop (cfg : Env α) (m : Nat) (st : State α) : State α :=
  forLoop cfg.TOTAL_FEATURES (fun h s => forLoop SOFTMAX (reAddCell m h) s) st

/-- Lines 118-147 of `recordErrors` for user `u`: the state in which the
reconstruction loop of the user begins. -/
def reHidden (cfg : Env α) (u : Nat) (st : State α) : State α :=
  let st := { st with negvisprobs := fun _ _ => 0 }
  let st := { st with sumW := fun _ => 0 }
  let st := forLoop (cfg.UNTRAIN u) (reSumStep cfg u) st
  forLoop cfg.TOTAL_FEATURES (reHiddenStep cfg) st

/-- The number of draws one Gibbs step of user `u` makes: one per touched
entry (training and probe), then one per hidden unit. -/
def stepDraws (cfg : Env α) (u : Nat) : Nat :=
  cfg.UNTRAIN u + cfg.useridx u 2 + cfg.TOTAL_FEATURES

/-- The number of mini-batch updates run for the first `k` users of an epoch:
the user loop runs one after user `u` exactly when the test of line 506 holds. -/
def updatesBefore (cfg : Env α) (k : Nat) : Nat :=
  ∑ u in Finset.range k, if batchEnd cfg u then 1 else 0

/-- The sum of the divisors `numcases` (lines 507-508) of the mini-batch
updates run for the first `k` users of an epoch. -/
def casesBefore (cfg : Env α) (k : Nat) : Nat :=
  ∑ u in Finset.range k, if batchEnd cfg u then u % bsize + 1 else 0

/-- For item `m`, the five entries of `posvisact[m]` and the five entries of
`negvisact[m]` each sum to `moviecount[m]`. -/
def visactBalanced (st : State α) (m : Nat) : Prop :=
  rowSum st.posvisact m = (st.moviecount m : α) ∧ rowSum st.negvisact m = (st.moviecount m : α)

/-- The five probabilities of item `m` in the array `a` are non-negative and
sum to 1. -/
def rowNormal (a : Nat → Nat → α) (m : Nat) : Prop :=
  (∀ c, c < SOFTMAX → 0 ≤ a m c) ∧ rowSum a m = 1

/-- The data of `exEnv` with the rational stand-in `(x + 16) / 8` for the
square root (its tangent at 16, which bounds it from above). -/
def exEnvSqrt : Env ℚ := { exEnv with sqrt := fun x => (x + 16) / 8 }

/-- A state whose reconstruction arrays hold the row `1,0,0,0,0` for every
item. -/
def exOneHot : State ℚ :=
  { zeroState with
    nvp2 := fun _ c => if c = 0 then 1 else 0
    negvisprobs := fun _ c => if c = 0 then 1 else 0 }

end Defs

/-! ## Loops -/

section Proofs

variable {α : Type} [LinearOrderedField α] {σ : Type}

theorem forLoop_succ (n : Nat) (body : Nat → σ → σ) (s : σ) :
    forLoop (n + 1) body s = body n (forLoop n body s) := rfl

/-- A property kept by every iteration holds after the loop. -/
theorem forLoop_inv (P : σ → Prop) (n : Nat) (body : Nat → σ → σ) (s : σ)
    (h0 : P s) (hstep : ∀ i, i < n → ∀ t, P t → P (body i t)) :
    P (forLoop n body s) := by
  induction n with
  | zero => exact h0
  | succ k ih =>
    rw [forLoop_succ]
    exact hstep k (Nat.lt_succ_self k) _
      (ih (fun i hi t ht => hstep i (Nat.lt_succ_of_lt hi) t ht))

/-- An observation that no iteration changes is the same after the loop. -/
theorem forLoop_keep {β : Type} (obs : σ → β) (n : Nat) (body : Nat → σ → σ) (s : σ)
    (hstep : ∀ i, i < n → ∀ t, obs (body i t) = obs t) :
    obs (forLoop n body s) = obs s :=
  forLoop_inv (fun t => obs t = obs s) n body s rfl
    (fun i hi t ht => (hstep i hi t).trans ht)

/-- An observation that only iteration `k` changes, and then as a function
`F` of the observation itself, is `F` of the old one once the loop has passed
`k`. -/
theorem forLoop_at {β : Type} (obs : σ → β) (F : β → β) (k n : Nat)
    (body : Nat → σ → σ) (s : σ)
    (hne : ∀ i, i ≠ k → ∀ t, obs (body i t) = obs t)
    (hk : ∀ t, obs (body k t) = F (obs t)) :
    obs (forLoop n body s) = if k < n then F (obs s) else obs s := by
  induction n with
  | zero => simp [forLoop]
  | succ j ih =>
    rw [forLoop_succ]
    by_cases hjk : j = k
    · subst hjk
      rw [hk, ih]
      simp
    · rw [hne j hjk, ih]
      by_cases hlt : k < j
      · simp [hlt, Nat.lt_succ_of_lt hlt]
      · have : ¬ k < j + 1 := by omega
        simp [hlt, this]

/-! ## The mini-batch update -/

theorem weightCell_same (m h c : Nat) (st : State α) :
    weightObs m c h (weightCell m h c st) = weightNew (weightObs m c h st) := by
  unfold weightCell weightNew weightObs weightInc
  by_cases hg : st.CDpos m c h ≠ 0 ∨ st.CDneg m c h ≠ 0
  · simp only [if_pos hg]; simp [upd3]
  · simp only [if_neg hg]

theorem weightCell_other (m h c m' h' c' : Nat) (hne : ¬ (m = m' ∧ c = c' ∧ h = h'))
    (st : State α) :
    weightObs m c h (weightCell m' h' c' st) = weightObs m c h st := by
  unfold weightCell weightObs
  by_cases hg : st.CDpos m' c' h' ≠ 0 ∨ st.CDneg m' c' h' ≠ 0
  · simp only [if_pos hg]; simp [upd3, hne]
  · simp only [if_neg hg]

theorem weightCell_visObs (m c m' h' c' : Nat) (st : State α) :
    visObs m c (weightCell m' h' c' st) = visObs m c st := by
  unfold weightCell visObs
  by_cases hg : st.CDpos m' c' h' ≠ 0 ∨ st.CDneg m' c' h' ≠ 0
  · simp only [if_pos hg]
  · simp only [if_neg hg]

theorem weightCell_hidObs (k h m' h' c' : Nat) (st : State α) :
    hidObs k h (weightCell m' h' c' st) = hidObs k h st := by
  unfold weightCell hidObs
  by_cases hg : st.CDpos m' c' h' ≠ 0 ∨ st.CDneg m' c' h' ≠ 0
  · simp only [if_pos hg]
  · simp only [if_neg hg]

theorem visBiasCell_same (m c : Nat) (st : State α) :
    visObs m c (visBiasCell m c st) = biasNew (visObs m c st) := by
  unfold visBiasCell biasNew visObs biasInc
  by_cases hg : st.posvisact m c ≠ 0 ∨ st.negvisact m c ≠ 0
  · simp only [if_pos hg]; simp [upd2]
  · simp only [if_neg hg]

theorem visBiasCell_other (m c m' c' : Nat) (hne : ¬ (m = m' ∧ c = c')) (st : State α) :
    visObs m c (visBiasCell m' c' st) = visObs m c st := by
  unfold visBiasCell visObs
  by_cases hg : st.posvisact m' c' ≠ 0 ∨ st.negvisact m' c' ≠ 0
  · simp only [if_pos hg]; simp [upd2, hne]
  · simp only [if_neg hg]

theorem visBiasCell_weightObs (m c h m' c' : Nat) (st : State α) :
    weightObs m c h (visBiasCell m' c' st) = weightObs m c h st := by
  unfold visBiasCell weightObs
  by_cases hg : st.posvisact m' c' ≠ 0 ∨ st.negvisact m' c' ≠ 0
  · simp only [if_pos hg]
  · simp only [if_neg hg]

theorem visBiasCell_hidObs (k h m' c' : Nat) (st : State α) :
    hidObs k h (visBiasCell m' c' st) = hidObs k h st := by
  unfold visBiasCell hidObs
  by_cases hg : st.posvisact m' c' ≠ 0 ∨ st.negvisact m' c' ≠ 0
  · simp only [if_pos hg]
  · simp only [if_neg hg]

theorem hidBiasCell_same (k h : Nat) (st : State α) :
    hidObs k h (hidBiasCell k h st) = biasNew (hidObs k h st) := by
  unfold hidBiasCell biasNew hidObs biasInc
  by_cases hg : st.poshidact h ≠ 0 ∨ st.neghidact h ≠ 0
  · simp only [if_pos hg]; simp [upd1]
  · simp only [if_neg hg]

theorem hidBiasCell_other (k h h' : Nat) (hne : h ≠ h') (st : State α) :
    hidObs k h (hidBiasCell k h' st) = hidObs k h st := by
  unfold hidBiasCell hidObs
  by_cases hg : st.poshidact h' ≠ 0 ∨ st.neghidact h' ≠ 0
  · simp only [if_pos hg]; simp [upd1, hne]
  · simp only [if_neg hg]

theorem hidBiasCell_weightObs (m c h k h' : Nat) (st : State α) :
    weightObs m c h (hidBiasCell k h' st) = weightObs m c h st := by
  unfold hidBiasCell weightObs
  by_cases hg : st.poshidact h' ≠ 0 ∨ st.neghidact h' ≠ 0
  · simp only [if_pos hg]
  · simp only [if_neg hg]

theorem hidBiasCell_visObs (m c k h' : Nat) (st : State α) :
    visObs m c (hidBiasCell k h' st) = visObs m c st := by
  unfold hidBiasCell visObs
  by_cases hg : st.poshidact h' ≠ 0 ∨ st.neghidact h' ≠ 0
  · simp only [if_pos hg]
  · simp only [if_neg hg]

theorem weightLoop_same (cfg : Env α) (m c h : Nat) (st : State α) :
    weightObs m c h
        (forLoop cfg.TOTAL_FEATURES (fun h' s => forLoop SOFTMAX (weightCell m h') s) st)
      = if h < cfg.TOTAL_FEATURES ∧ c < SOFTMAX then weightNew (weightObs m c h st)
        else weightObs m c h st := by
  rw [forLoop_at (weightObs m c h) (fun o => if c < SOFTMAX then weightNew o else o) h]
  · by_cases hh : h < cfg.TOTAL_FEATURES <;> by_cases hc : c < SOFTMAX <;> simp [hh, hc]
  · intro i hi t
    apply forLoop_keep
    intro r _ t'
    exact weightCell_other m h c m i r (fun hx => hi hx.2.2.symm) t'
  · intro t
    apply forLoop_at
    · intro r hr t'
      exact weightCell_other m h c m h r (fun hx => hr hx.2.1.symm) t'
    · intro t'
      exact weightCell_same m h c t'

theorem weightLoop_other (cfg : Env α) (m c h m' : Nat) (hne : m ≠ m') (st : State α) :
    weightObs m c h
        (forLoop cfg.TOTAL_FEATURES (fun h' s => forLoop SOFTMAX (weightCell m' h') s) st)
      = weightObs m c h st := by
  apply forLoop_keep
  intro i _ t
  apply forLoop_keep
  intro r _ t'
  exact weightCell_other m h c m' i r (fun hx => hne hx.1) t'

theorem weightLoop_visObs (cfg : Env α) (m c m' : Nat) (st : State α) :
    visObs m c
        (forLoop cfg.TOTAL_FEATURES (fun h' s => forLoop SOFTMAX (weightCell m' h') s) st)
      = visObs m c st := by
  apply forLoop_keep
  intro i _ t
  apply forLoop_keep
  intro r _ t'
  exact weightCell_visObs m c m' i r t'

theorem weightLoop_hidObs (cfg : Env α) (k h m' : Nat) (st : State α) :
    hidObs k h
        (forLoop cfg.TOTAL_FEATURES (fun h' s => forLoop SOFTMAX (weightCell m' h') s) st)
      = hidObs k h st := by
  apply forLoop_keep
  intro i _ t
  apply forLoop_keep
  intro r _ t'
  exact weightCell_hidObs k h m' i r t'

theorem visLoop_same (m c : Nat) (st : State α) :
    visObs m c (forLoop SOFTMAX (visBiasCell m) st)
      = if c < SOFTMAX then biasNew (visObs m c st) else visObs m c st := by
  apply forLoop_at
  · intro r hr t
    exact visBiasCell_other m c m r (fun hx => hr hx.2.symm) t
  · intro t
    exact visBiasCell_same m c t

theorem visLoop_other (m c m' : Nat) (hne : m ≠ m') (st : State α) :
    visObs m c (forLoop SOFTMAX (visBiasCell m') st) = visObs m c st := by
  apply forLoop_keep
  intro r _ t
  exact visBiasCell_other m c m' r (fun hx => hne hx.1) t

theorem visLoop_weightObs (m c h m' : Nat) (st : State α) :
    weightObs m c h (forLoop SOFTMAX (visBiasCell m') st) = weightObs m c h st := by
  apply forLoop_keep
  intro r _ t
  exact visBiasCell_weightObs m c h m' r t

theorem visLoop_hidObs (k h m' : Nat) (st : State α) :
    hidObs k h (forLoop SOFTMAX (visBiasCell m') st) = hidObs k h st := by
  apply forLoop_keep
  intro r _ t
  exact visBiasCell_hidObs k h m' r t

theorem updateMovie_weight_same (cfg : Env α) (m c h : Nat) (st : State α) :
    weightObs m c h (updateMovie cfg m st)
      = movieWeightNew (h < cfg.TOTAL_FEATURES ∧ c < SOFTMAX) (weightObs m c h st) := by
  unfold updateMovie movieWeightNew
  by_cases hz : st.moviecount m = 0
  · have hz' : (weightObs m c h st).cnt = 0 := hz
    simp only [if_pos hz, if_pos hz']
  · have hz' : ¬ (weightObs m c h st).cnt = 0 := hz
    simp only [if_neg hz, if_neg hz']
    rw [visLoop_weightObs, weightLoop_same]

theorem updateMovie_weight_other (cfg : Env α) (m c h m' : Nat) (hne : m ≠ m')
    (st : State α) :
    weightObs m c h (updateMovie cfg m' st) = weightObs m c h st := by
  unfold updateMovie
  by_cases hz : st.moviecount m' = 0
  · simp only [if_pos hz]
  · simp only [if_neg hz]
    rw [visLoop_weightObs, weightLoop_other cfg m c h m' hne]

theorem updateMovie_vis_same (cfg : Env α) (m c : Nat) (st : State α) :
    visObs m c (updateMovie cfg m st) = movieVisNew (c < SOFTMAX) (visObs m c st) := by
  unfold updateMovie movieVisNew
  by_cases hz : st.moviecount m = 0
  · have hz' : (visObs m c st).cnt = 0 := hz
    simp only [if_pos hz, if_pos hz']
  · have hz' : ¬ (visObs m c st).cnt = 0 := hz
    simp only [if_neg hz, if_neg hz']
    rw [visLoop_same, weightLoop_visObs]

theorem updateMovie_vis_other (cfg : Env α) (m c m' : Nat) (hne : m ≠ m') (st : State α) :
    visObs m c (updateMovie cfg m' st) = visObs m c st := by
  unfold updateMovie
  by_cases hz : st.moviecount m' = 0
  · simp only [if_pos hz]
  · simp only [if_neg hz]
    rw [visLoop_other m c m' hne, weightLoop_visObs]

theorem updateMovie_hidObs (cfg : Env α) (k h m' : Nat) (st : State α) :
    hidObs k h (updateMovie cfg m' st) = hidObs k h st := by
  unfold updateMovie
  by_cases hz : st.moviecount m' = 0
  · simp only [if_pos hz]
  · simp only [if_neg hz]
    rw [visLoop_hidObs, weightLoop_hidObs]

/-- The item loop of the update, seen from one weight. -/
theorem movieLoop_weight (cfg : Env α) (m c h : Nat) (st : State α) :
    weightObs m c h (forLoop cfg.NMOVIES (updateMovie cfg) st)
      = if m < cfg.NMOVIES then
          movieWeightNew (h < cfg.TOTAL_FEATURES ∧ c < SOFTMAX) (weightObs m c h st)
        else weightObs m c h st := by
  apply forLoop_at
  · intro i hi t
    exact updateMovie_weight_other cfg m c h i (fun hx => hi hx.symm) t
  · intro t
    exact updateMovie_weight_same cfg m c h t

/-- The item loop of the update, seen from one visible bias. -/
theorem movieLoop_vis (cfg : Env α) (m c : Nat) (st : State α) :
    visObs m c (forLoop cfg.NMOVIES (updateMovie cfg) st)
      = if m < cfg.NMOVIES then movieVisNew (c < SOFTMAX) (visObs m c st)
        else visObs m c st := by
  apply forLoop_at
  · intro i hi t
    exact updateMovie_vis_other cfg m c i (fun hx => hi hx.symm) t
  · intro t
    exact updateMovie_vis_same cfg m c t

theorem movieLoop_hidObs (cfg : Env α) (k h : Nat) (st : State α) :
    hidObs k h (forLoop cfg.NMOVIES (updateMovie cfg) st) = hidObs k h st := by
  apply forLoop_keep
  intro i _ t
  exact updateMovie_hidObs cfg k h i t

/-- The hidden-bias loop of the update, seen from one hidden bias. -/
theorem hidLoop_same (cfg : Env α) (k h : Nat) (st : State α) :
    hidObs k h (forLoop cfg.TOTAL_FEATURES (hidBiasCell k) st)
      = if h < cfg.TOTAL_FEATURES then biasNew (hidObs k h st) else hidObs k h st := by
  apply forLoop_at
  · intro i hi t
    exact hidBiasCell_other k h i (fun hx => hi hx.symm) t
  · intro t
    exact hidBiasCell_same k h t

theorem hidLoop_weightObs (cfg : Env α) (m c h k : Nat) (st : State α) :
    weightObs m c h (forLoop cfg.TOTAL_FEATURES (hidBiasCell k) st) = weightObs m c h st := by
  apply forLoop_keep
  intro i _ t
  exact hidBiasCell_weightObs m c h k i t

theorem hidLoop_visObs (cfg : Env α) (m c k : Nat) (st : State α) :
    visObs m c (forLoop cfg.TOTAL_FEATURES (hidBiasCell k) st) = visObs m c st := by
  apply forLoop_keep
  intro i _ t
  exact hidBiasCell_visObs m c k i t

/-- The update as a whole, seen from one weight and its increment. -/
theorem miniBatch_weight (cfg : Env α) (u m c h : Nat) (st : State α) :
    (miniBatchUpdate cfg u st).CDinc m c h
        = (if m < cfg.NMOVIES then
            movieWeightNew (h < cfg.TOTAL_FEATURES ∧ c < SOFTMAX) (weightObs m c h st)
          else weightObs m c h st).inc
    ∧ (miniBatchUpdate cfg u st).vishid m c h
        = (if m < cfg.NMOVIES then
            movieWeightNew (h < cfg.TOTAL_FEATURES ∧ c < SOFTMAX) (weightObs m c h st)
          else weightObs m c h st).val := by
  rw [← movieLoop_weight, ← hidLoop_weightObs cfg m c h (u % bsize + 1)]
  exact ⟨rfl, rfl⟩

/-- The update as a whole, seen from one visible bias and its increment. -/
theorem miniBatch_vis (cfg : Env α) (u m c : Nat) (st : State α) :
    (miniBatchUpdate cfg u st).visbiasinc m c
        = (if m < cfg.NMOVIES then movieVisNew (c < SOFTMAX) (visObs m c st)
          else visObs m c st).inc
    ∧ (miniBatchUpdate cfg u st).visbiases m c
        = (if m < cfg.NMOVIES then movieVisNew (c < SOFTMAX) (visObs m c st)
          else visObs m c st).val := by
  rw [← movieLoop_vis, ← hidLoop_visObs cfg m c (u % bsize + 1)]
  exact ⟨rfl, rfl⟩

/-- The update as a whole, seen from one hidden bias and its increment. -/
theorem miniBatch_hid (cfg : Env α) (u h : Nat) (st : State α) :
    (miniBatchUpdate cfg u st).hidbiasinc h
        = (if h < cfg.TOTAL_FEATURES then biasNew (hidObs (u % bsize + 1) h st)
          else hidObs (u % bsize + 1) h st).inc
    ∧ (miniBatchUpdate cfg u st).hidbiases h
        = (if h < cfg.TOTAL_FEATURES then biasNew (hidObs (u % bsize + 1) h st)
          else hidObs (u % bsize + 1) h st).val := by
  rw [← movieLoop_hidObs cfg (u % bsize + 1) h st, ← hidLoop_same]
  exact ⟨rfl, rfl⟩

theorem weightcost_eq : (weightcost : α) = 1 / 10000 := by
  unfold weightcost
  norm_num

/-! ## C1: the weight update -/

/-- C1 (amended): in a mini-batch update, for every item `m` with
`moviecount[m] > 0`, every category `c < 5` and every hidden unit `h`, if
`CDpos[m][c][h]` or `CDneg[m][c][h]` is non-zero then the new `CDinc[m][c][h]`
is `Momentum * CDinc + EpsilonW * ((CDpos/moviecount - CDneg/moviecount) -
weightcost * vishid)` on the old values and the new weight is the old weight
plus the new increment (with `moviecount[m] = 1` and old increment 0 the
increment is `EpsilonW * (CDpos - CDneg - weightcost * W)`); if both are zero
the increment and the weight keep their values. -/
theorem weight_update_guarded (cfg : Env α) (u m c h : Nat) (st : State α)
    (hm : m < cfg.NMOVIES) (hc : c < SOFTMAX) (hh : h < cfg.TOTAL_FEATURES)
    (hcnt : 0 < st.moviecount m) :
    ((st.CDpos m c h ≠ 0 ∨ st.CDneg m c h ≠ 0) →
        (miniBatchUpdate cfg u st).CDinc m c h
            = st.Momentum * st.CDinc m c h
              + st.EpsilonW * ((st.CDpos m c h / (st.moviecount m : α)
                  - st.CDneg m c h / (st.moviecount m : α)) - weightcost * st.vishid m c h)
        ∧ (miniBatchUpdate cfg u st).vishid m c h
            = st.vishid m c h + (miniBatchUpdate cfg u st).CDinc m c h
        ∧ (st.moviecount m = 1 → st.CDinc m c h = 0 →
            (miniBatchUpdate cfg u st).CDinc m c h
              = st.EpsilonW * (st.CDpos m c h - st.CDneg m c h - weightcost * st.vishid m c h)))
    ∧ ((st.CDpos m c h = 0 ∧ st.CDneg m c h = 0) →
        (miniBatchUpdate cfg u st).CDinc m c h = st.CDinc m c h
        ∧ (miniBatchUpdate cfg u st).vishid m c h = st.vishid m c h) := by
  obtain ⟨hi, hv⟩ := miniBatch_weight cfg u m c h st
  have hcnt' : ¬ (weightObs m c h st).cnt = 0 := Nat.pos_iff_ne_zero.mp hcnt
  have hr : h < cfg.TOTAL_FEATURES ∧ c < SOFTMAX := ⟨hh, hc⟩
  simp only [if_pos hm, movieWeightNew, if_neg hcnt', if_pos hr] at hi hv
  constructor
  · intro hg
    have hg' : (weightObs m c h st).pos ≠ 0 ∨ (weightObs m c h st).neg ≠ 0 := hg
    simp only [weightNew, if_pos hg'] at hi hv
    have hinc : (miniBatchUpdate cfg u st).CDinc m c h
        = st.Momentum * st.CDinc m c h
          + st.EpsilonW * ((st.CDpos m c h / (st.moviecount m : α)
              - st.CDneg m c h / (st.moviecount m : α)) - weightcost * st.vishid m c h) := hi
    refine ⟨hinc, ?_, ?_⟩
    · rw [hv, hi]; rfl
    · intro h1 h0
      rw [hinc, h1, h0]
      simp
  · intro hz
    have hg' : ¬ ((weightObs m c h st).pos ≠ 0 ∨ (weightObs m c h st).neg ≠ 0) := by
      intro hx
      rcases hx with hx | hx
      · exact hx hz.1
      · exact hx hz.2
    simp only [weightNew, if_neg hg'] at hi hv
    exact ⟨hi, hv⟩

/-- Witness of `weight_update_guarded`: weight (item 0, category 2, hidden 0) of `exBatch`. -/
theorem weight_update_guarded_witness :
    (miniBatchUpdate exEnv 0 exBatch).CDinc 0 2 0
        = 8 / 10 * (1 / 1000) + 1 / 1000 * ((1 / 1 - 0 / 1) - 1 / 10000 * (1 / 100))
      ∧ (miniBatchUpdate exEnv 0 exBatch).vishid 0 2 0
        = 1 / 100 + (miniBatchUpdate exEnv 0 exBatch).CDinc 0 2 0 := by
  have hw := (weight_update_guarded exEnv 0 0 2 0 exBatch (by decide) (by decide) (by decide)
    (by decide)).1 (Or.inl (by simp [exBatch]))
  refine ⟨?_, ?_⟩
  · rw [hw.1]
    simp [exBatch, zeroState, weightcost_eq]
  · rw [hw.2.1]
    simp [exBatch, zeroState]

/-- C1 as stated fails: item 0 of `exBatch` has `moviecount = 1`, and for
category 0 and hidden unit 0 both `CDpos` and `CDneg` are zero; the code
leaves `CDinc[0][0][0]` at `1/1000`, while the formula of the claim gives
`8/10 * 1/1000 + 1/1000 * ((0 - 0) - 1/10000 * 1/100)`. -/
theorem weight_update_counterexample :
    0 < exBatch.moviecount 0
      ∧ (miniBatchUpdate exEnv 0 exBatch).CDinc 0 0 0 = 1 / 1000
      ∧ exBatch.Momentum * exBatch.CDinc 0 0 0
          + exBatch.EpsilonW * ((exBatch.CDpos 0 0 0 / (exBatch.moviecount 0 : ℚ)
              - exBatch.CDneg 0 0 0 / (exBatch.moviecount 0 : ℚ))
              - weightcost * exBatch.vishid 0 0 0) = 799999 / 1000000000
      ∧ (miniBatchUpdate exEnv 0 exBatch).CDinc 0 0 0
          ≠ exBatch.Momentum * exBatch.CDinc 0 0 0
            + exBatch.EpsilonW * ((exBatch.CDpos 0 0 0 / (exBatch.moviecount 0 : ℚ)
                - exBatch.CDneg 0 0 0 / (exBatch.moviecount 0 : ℚ))
                - weightcost * exBatch.vishid 0 0 0) := by
  have hcode : (miniBatchUpdate exEnv 0 exBatch).CDinc 0 0 0 = 1 / 1000 := by
    rw [(miniBatch_weight exEnv 0 0 0 0 exBatch).1]
    simp [exEnv, exBatch, zeroState, movieWeightNew, weightObs, weightNew]
  have hclaim : exBatch.Momentum * exBatch.CDinc 0 0 0
          + exBatch.EpsilonW * ((exBatch.CDpos 0 0 0 / (exBatch.moviecount 0 : ℚ)
              - exBatch.CDneg 0 0 0 / (exBatch.moviecount 0 : ℚ))
              - weightcost * exBatch.vishid 0 0 0) = 799999 / 1000000000 := by
    simp [exBatch, zeroState, weightcost_eq]
    norm_num
  refine ⟨by decide, hcode, hclaim, ?_⟩
  rw [hcode, hclaim]
  norm_num

/-! ## C8: the visible-bias update -/

theorem movieVisNew_inc_val (p : Prop) [Decidable p] (o : CellObs α) (v : α) :
    (movieVisNew p { o with val := v }).inc = (movieVisNew p o).inc := by
  unfold movieVisNew biasNew biasInc
  split_ifs <;> rfl

/-- C8 (amended): in a mini-batch update, for every item `m` with
`moviecount[m] > 0` and every category `c < 5`, if `posvisact[m][c]` or
`negvisact[m][c]` is non-zero then the new `visbiasinc[m][c]` is
`Momentum * visbiasinc + EpsilonVB * (posvisact/moviecount - negvisact/moviecount)`
on the old values and the new bias is the old bias plus the new increment; if
both are zero the increment and the bias keep their values.  In no case does
the new increment depend on the bias values. -/
theorem visbias_update_guarded (cfg : Env α) (u m c : Nat) (st : State α)
    (hm : m < cfg.NMOVIES) (hc : c < SOFTMAX) (hcnt : 0 < st.moviecount m) :
    ((st.posvisact m c ≠ 0 ∨ st.negvisact m c ≠ 0) →
        (miniBatchUpdate cfg u st).visbiasinc m c
            = st.Momentum * st.visbiasinc m c
              + st.EpsilonVB * (st.posvisact m c / (st.moviecount m : α)
                  - st.negvisact m c / (st.moviecount m : α))
        ∧ (miniBatchUpdate cfg u st).visbiases m c
            = st.visbiases m c + (miniBatchUpdate cfg u st).visbiasinc m c)
    ∧ ((st.posvisact m c = 0 ∧ st.negvisact m c = 0) →
        (miniBatchUpdate cfg u st).visbiasinc m c = st.visbiasinc m c
        ∧ (miniBatchUpdate cfg u st).visbiases m c = st.visbiases m c)
    ∧ (∀ vb : Nat → Nat → α,
        (miniBatchUpdate cfg u { st with visbiases := vb }).visbiasinc m c
          = (miniBatchUpdate cfg u st).visbiasinc m c) := by
  obtain ⟨hi, hv⟩ := miniBatch_vis cfg u m c st
  have hcnt' : ¬ (visObs m c st).cnt = 0 := Nat.pos_iff_ne_zero.mp hcnt
  refine ⟨?_, ?_, ?_⟩
  · intro hg
    have hg' : (visObs m c st).pos ≠ 0 ∨ (visObs m c st).neg ≠ 0 := hg
    simp only [if_pos hm, movieVisNew, if_neg hcnt', if_pos hc, biasNew, if_pos hg'] at hi hv
    have hinc : (miniBatchUpdate cfg u st).visbiasinc m c
        = st.Momentum * st.visbiasinc m c
          + st.EpsilonVB * (st.posvisact m c / (st.moviecount m : α)
              - st.negvisact m c / (st.moviecount m : α)) := hi
    refine ⟨hinc, ?_⟩
    rw [hv, hi]; rfl
  · intro hz
    have hg' : ¬ ((visObs m c st).pos ≠ 0 ∨ (visObs m c st).neg ≠ 0) := by
      intro hx
      rcases hx with hx | hx
      · exact hx hz.1
      · exact hx hz.2
    simp only [if_pos hm, movieVisNew, if_neg hcnt', if_pos hc, biasNew, if_neg hg'] at hi hv
    exact ⟨hi, hv⟩
  · intro vb
    rw [hi, (miniBatch_vis cfg u m c { st with visbiases := vb }).1]
    simp only [if_pos hm]
    exact movieVisNew_inc_val (c < SOFTMAX) (visObs m c st) (vb m c)

/-- Witness of `visbias_update_guarded`: bias (item 0, category 2) of `exBatch`. -/
theorem visbias_update_guarded_witness :
    (miniBatchUpdate exEnv 0 exBatch).visbiasinc 0 2
        = 8 / 10 * (1 / 100) + 8 / 1000 * (1 / 1 - 0 / 1)
      ∧ (miniBatchUpdate exEnv 0 exBatch).visbiases 0 2
        = 0 + (miniBatchUpdate exEnv 0 exBatch).visbiasinc 0 2 := by
  have hw := (visbias_update_guarded exEnv 0 0 2 exBatch (by decide) (by decide)
    (by decide)).1 (Or.inl (by simp [exBatch]))
  refine ⟨?_, ?_⟩
  · rw [hw.1]
    simp [exBatch, zeroState]
  · rw [hw.2]
    simp [exBatch, zeroState]

/-- C8 as stated fails: item 0 of `exBatch` has `moviecount = 1`, and for
category 0 both `posvisact` and `negvisact` are zero; the code leaves
`visbiasinc[0][0]` at `1/100`, while the formula of the claim gives
`8/10 * 1/100 + 8/1000 * (0 - 0) = 1/125`. -/
theorem visbias_update_counterexample :
    0 < exBatch.moviecount 0
      ∧ (miniBatchUpdate exEnv 0 exBatch).visbiasinc 0 0 = 1 / 100
      ∧ exBatch.Momentum * exBatch.visbiasinc 0 0
          + exBatch.EpsilonVB * (exBatch.posvisact 0 0 / (exBatch.moviecount 0 : ℚ)
              - exBatch.negvisact 0 0 / (exBatch.moviecount 0 : ℚ)) = 1 / 125
      ∧ (miniBatchUpdate exEnv 0 exBatch).visbiasinc 0 0
          ≠ exBatch.Momentum * exBatch.visbiasinc 0 0
            + exBatch.EpsilonVB * (exBatch.posvisact 0 0 / (exBatch.moviecount 0 : ℚ)
                - exBatch.negvisact 0 0 / (exBatch.moviecount 0 : ℚ)) := by
  have hcode : (miniBatchUpdate exEnv 0 exBatch).visbiasinc 0 0 = 1 / 100 := by
    rw [(miniBatch_vis exEnv 0 0 0 exBatch).1]
    simp [exEnv, exBatch, zeroState, movieVisNew, visObs, biasNew]
  have hclaim : exBatch.Momentum * exBatch.visbiasinc 0 0
          + exBatch.EpsilonVB * (exBatch.posvisact 0 0 / (exBatch.moviecount 0 : ℚ)
              - exBatch.negvisact 0 0 / (exBatch.moviecount 0 : ℚ)) = 1 / 125 := by
    simp [exBatch, zeroState]
    norm_num
  refine ⟨by decide, hcode, hclaim, ?_⟩
  rw [hcode, hclaim]
  norm_num

/-! ## C9: the hidden-bias update -/

/-- C9 (amended): in the mini-batch update run after user `u`, with
`numcases = u % 100 + 1`, for every hidden unit `h`, if `poshidact[h]` or
`neghidact[h]` is non-zero then the new `hidbiasinc[h]` is
`Momentum * hidbiasinc + EpsilonHB * (poshidact/numcases - neghidact/numcases)`
on the old values and the new bias is the old bias plus the new increment; if
both are zero the increment and the bias keep their values.  The users
`u - u % 100, .., u` are those processed since the previous update (or since
the start of the epoch), and there are `numcases` of them. -/
theorem hidbias_update_guarded (cfg : Env α) (u h : Nat) (st : State α)
    (hh : h < cfg.TOTAL_FEATURES) :
    ((st.poshidact h ≠ 0 ∨ st.neghidact h ≠ 0) →
        (miniBatchUpdate cfg u st).hidbiasinc h
            = st.Momentum * st.hidbiasinc h
              + st.EpsilonHB * (st.poshidact h / ((u % bsize + 1 : Nat) : α)
                  - st.neghidact h / ((u % bsize + 1 : Nat) : α))
        ∧ (miniBatchUpdate cfg u st).hidbiases h
            = st.hidbiases h + (miniBatchUpdate cfg u st).hidbiasinc h)
    ∧ ((st.poshidact h = 0 ∧ st.neghidact h = 0) →
        (miniBatchUpdate cfg u st).hidbiasinc h = st.hidbiasinc h
        ∧ (miniBatchUpdate cfg u st).hidbiases h = st.hidbiases h)
    ∧ (u < cfg.NUSERS →
        (u - u % bsize = 0 ∨ batchEnd cfg (u - u % bsize - 1))
        ∧ (∀ u', u - u % bsize ≤ u' → u' < u → ¬ batchEnd cfg u')
        ∧ u + 1 - (u - u % bsize) = u % bsize + 1) := by
  obtain ⟨hi, hv⟩ := miniBatch_hid cfg u h st
  refine ⟨?_, ?_, ?_⟩
  · intro hg
    have hg' : (hidObs (u % bsize + 1) h st).pos ≠ 0 ∨ (hidObs (u % bsize + 1) h st).neg ≠ 0 :=
      hg
    simp only [if_pos hh, biasNew, if_pos hg'] at hi hv
    have hinc : (miniBatchUpdate cfg u st).hidbiasinc h
        = st.Momentum * st.hidbiasinc h
          + st.EpsilonHB * (st.poshidact h / ((u % bsize + 1 : Nat) : α)
              - st.neghidact h / ((u % bsize + 1 : Nat) : α)) := hi
    refine ⟨hinc, ?_⟩
    rw [hv, hi]; rfl
  · intro hz
    have hg' : ¬ ((hidObs (u % bsize + 1) h st).pos ≠ 0
        ∨ (hidObs (u % bsize + 1) h st).neg ≠ 0) := by
      intro hx
      rcases hx with hx | hx
      · exact hx hz.1
      · exact hx hz.2
    simp only [if_pos hh, biasNew, if_neg hg'] at hi hv
    exact ⟨hi, hv⟩
  · intro hu
    unfold batchEnd bsize
    refine ⟨?_, ?_, ?_⟩
    · by_cases h0 : u - u % 100 = 0
      · exact Or.inl h0
      · right; left; omega
    · intro u' h1 h2 hb
      rcases hb with hb | hb
      · omega
      · omega
    · omega

/-- Witness of `hidbias_update_guarded`: hidden unit 0 of `exBatch`. -/
theorem hidbias_update_guarded_witness :
    (miniBatchUpdate exEnv 0 exBatch).hidbiasinc 0
        = 8 / 10 * (1 / 100) + 6 / 10000 * (1 / 1 - 0 / 1)
      ∧ (miniBatchUpdate exEnv 0 exBatch).hidbiases 0
        = 0 + (miniBatchUpdate exEnv 0 exBatch).hidbiasinc 0 := by
  have hw := (hidbias_update_guarded exEnv 0 0 exBatch (by decide)).1
    (Or.inl (by simp [exBatch]))
  refine ⟨?_, ?_⟩
  · rw [hw.1]
    simp [exBatch, zeroState, bsize]
  · rw [hw.2]
    simp [exBatch, zeroState]

/-- C9 as stated fails: for hidden unit 1 of `exBatch` both `poshidact` and
`neghidact` are zero; the code leaves `hidbiasinc[1]` at `1/100`, while the
formula of the claim gives `8/10 * 1/100 + 6/10000 * (0 - 0) = 1/125`. -/
theorem hidbias_update_counterexample :
    (miniBatchUpdate exEnv 0 exBatch).hidbiasinc 1 = 1 / 100
      ∧ exBatch.Momentum * exBatch.hidbiasinc 1
          + exBatch.EpsilonHB * (exBatch.poshidact 1 / ((0 % bsize + 1 : Nat) : ℚ)
              - exBatch.neghidact 1 / ((0 % bsize + 1 : Nat) : ℚ)) = 1 / 125
      ∧ (miniBatchUpdate exEnv 0 exBatch).hidbiasinc 1
          ≠ exBatch.Momentum * exBatch.hidbiasinc 1
            + exBatch.EpsilonHB * (exBatch.poshidact 1 / ((0 % bsize + 1 : Nat) : ℚ)
                - exBatch.neghidact 1 / ((0 % bsize + 1 : Nat) : ℚ)) := by
  have hcode : (miniBatchUpdate exEnv 0 exBatch).hidbiasinc 1 = 1 / 100 := by
    rw [(miniBatch_hid exEnv 0 1 exBatch).1]
    simp [exEnv, exBatch, zeroState, hidObs, biasNew]
  have hclaim : exBatch.Momentum * exBatch.hidbiasinc 1
          + exBatch.EpsilonHB * (exBatch.poshidact 1 / ((0 % bsize + 1 : Nat) : ℚ)
              - exBatch.neghidact 1 / ((0 % bsize + 1 : Nat) : ℚ)) = 1 / 125 := by
    simp [exBatch, zeroState]
    norm_num
  refine ⟨hcode, hclaim, ?_⟩
  rw [hcode, hclaim]
  norm_num

/-! ## Variables that a user's processing and the update leave alone -/

theorem doWhile_keep {β : Type} (obs : σ → β) (body : Nat → σ → σ) (tSteps : Nat)
    (hstep : ∀ i t, obs (body i t) = obs t) :
    ∀ (k stepT : Nat) (s : σ), tSteps - stepT = k →
      obs (doWhile body tSteps stepT s) = obs s := by
  intro k
  induction k with
  | zero =>
    intro stepT s hk
    rw [doWhile]
    have : ¬ stepT + 1 < tSteps := by omega
    simp only [if_neg this]
    exact hstep stepT s
  | succ j ih =>
    intro stepT s hk
    rw [doWhile]
    by_cases hlt : stepT + 1 < tSteps
    · simp only [if_pos hlt]
      rw [ih (stepT + 1) (body stepT s) (by omega)]
      exact hstep stepT s
    · simp only [if_neg hlt]
      exact hstep stepT s

theorem addWeights_ctl (cfg : Env α) (m r : Nat) (st : State α) :
    ctlObs (addWeights cfg m r st) = ctlObs st := by
  unfold addWeights
  apply forLoop_keep
  intro i _ t
  rfl

theorem posAccumStep_ctl (cfg : Env α) (u j : Nat) (st : State α) :
    ctlObs (posAccumStep cfg u j st) = ctlObs st := by
  unfold posAccumStep
  simp only [addWeights_ctl]
  rfl

theorem posPhase_ctl (cfg : Env α) (u : Nat) (st : State α) :
    ctlObs (posPhase cfg u st) = ctlObs st := by
  unfold posPhase
  simp only
  rw [forLoop_keep ctlObs _ _ _ (fun i _ t => posAccumStep_ctl cfg u i t)]
  rfl

theorem posHiddenStep_ctl (cfg : Env α) (h : Nat) (st : State α) :
    ctlObs (posHiddenStep cfg h st) = ctlObs st := by
  unfold posHiddenStep drawNext
  simp only
  split_ifs <;> rfl

theorem visAccumStep_ctl (m stepT h : Nat) (st : State α) :
    ctlObs (visAccumStep m stepT h st) = ctlObs st := by
  unfold visAccumStep
  simp only
  split_ifs
  · rw [forLoop_keep ctlObs, forLoop_keep ctlObs]
    all_goals intro i _ t; rfl
  · rw [forLoop_keep ctlObs]
    intro i _ t; rfl
  · rw [forLoop_keep ctlObs]
    intro i _ t; rfl
  · rfl

theorem visReconStep_ctl (cfg : Env α) (u stepT : Nat) (fin : Bool) (j : Nat) (st : State α) :
    ctlObs (visReconStep cfg u stepT fin j st) = ctlObs st := by
  have hacc := forLoop_keep ctlObs cfg.TOTAL_FEATURES
    (visAccumStep (entMovie cfg (cfg.useridx u 0 + j)) stepT) st
    (fun i _ t => visAccumStep_ctl _ stepT i t)
  unfold visReconStep drawNext
  simp only
  split_ifs <;> exact hacc

theorem negSumStep_ctl (cfg : Env α) (u j : Nat) (st : State α) :
    ctlObs (negSumStep cfg u j st) = ctlObs st := by
  unfold negSumStep
  exact addWeights_ctl cfg _ _ st

theorem negHiddenStep_ctl (cfg : Env α) (fin : Bool) (h : Nat) (st : State α) :
    ctlObs (negHiddenStep cfg fin h st) = ctlObs st := by
  unfold negHiddenStep drawNext
  simp only
  split_ifs <;> rfl

theorem errAccum_ctl (cfg : Env α) (u : Nat) (st : State α) :
    ctlObs (errAccum cfg u st) = ctlObs st := by
  unfold errAccum
  simp only
  have h1 := forLoop_keep ctlObs (cfg.UNTRAIN u) (trainErrStep cfg u) st (fun i _ t => rfl)
  have h2 : ∀ t : State α, ctlObs (forLoop (cfg.useridx u 2)
      (probeErrStep cfg (cfg.useridx u 0 + cfg.useridx u 1)) t) = ctlObs t :=
    fun t => forLoop_keep ctlObs _ _ t (fun i _ t' => rfl)
  exact (h2 _).trans h1

theorem carryHidden_ctl (cfg : Env α) (st : State α) :
    ctlObs (carryHidden cfg st) = ctlObs st := by
  unfold carryHidden
  exact forLoop_keep ctlObs _ _ st (fun i _ t => rfl)

theorem gibbsStep_ctl (cfg : Env α) (u stepT : Nat) (st : State α) :
    ctlObs (gibbsStep cfg u stepT st) = ctlObs st := by
  have h1 : ∀ (fin : Bool) (t : State α), ctlObs (forLoop (cfg.UNTRAIN u + cfg.useridx u 2)
      (visReconStep cfg u stepT fin) t) = ctlObs t :=
    fun fin t => forLoop_keep ctlObs _ _ t (fun i _ t' => visReconStep_ctl cfg u stepT fin i t')
  have h2 : ∀ t : State α, ctlObs (forLoop (cfg.UNTRAIN u) (negSumStep cfg u) t) = ctlObs t :=
    fun t => forLoop_keep ctlObs _ _ t (fun i _ t' => negSumStep_ctl cfg u i t')
  have h3 : ∀ (fin : Bool) (t : State α), ctlObs (forLoop cfg.TOTAL_FEATURES
      (negHiddenStep cfg fin) t) = ctlObs t :=
    fun fin t => forLoop_keep ctlObs _ _ t (fun i _ t' => negHiddenStep_ctl cfg fin i t')
  have hcore : ctlObs (forLoop cfg.TOTAL_FEATURES
      (negHiddenStep cfg (decide (stepT + 1 ≥ st.tSteps)))
      (forLoop (cfg.UNTRAIN u) (negSumStep cfg u)
        { forLoop (cfg.UNTRAIN u + cfg.useridx u 2)
            (visReconStep cfg u stepT (decide (stepT + 1 ≥ st.tSteps))) st with
          sumW := fun _ => 0 })) = ctlObs st := by
    rw [h3, h2]
    exact h1 _ st
  unfold gibbsStep
  simp only
  split_ifs
  all_goals
    first
    | exact hcore
    | (rw [carryHidden_ctl, errAccum_ctl]; exact hcore)
    | (rw [errAccum_ctl]; exact hcore)
    | (rw [carryHidden_ctl]; exact hcore)

theorem cdAccumStep_ctl (cfg : Env α) (u j : Nat) (st : State α) :
    ctlObs (cdAccumStep cfg u j st) = ctlObs st := by
  unfold cdAccumStep
  apply forLoop_keep
  intro i _ t
  unfold cdCell
  simp only
  split_ifs <;> rfl

theorem processUser_ctl (cfg : Env α) (u : Nat) (st : State α) :
    ctlObs (processUser cfg u st) = ctlObs st := by
  unfold processUser
  simp only
  rw [forLoop_keep ctlObs _ _ _ (fun i _ t => cdAccumStep_ctl cfg u i t),
    doWhile_keep ctlObs _ _ (fun i t => gibbsStep_ctl cfg u i t) _ _ _ rfl,
    forLoop_keep ctlObs,
    forLoop_keep ctlObs _ _ _ (fun i _ t => posHiddenStep_ctl cfg i t),
    posPhase_ctl]
  intro i _ t; rfl

theorem weightCell_ctl (m h c : Nat) (st : State α) :
    ctlObs (weightCell m h c st) = ctlObs st := by
  unfold weightCell
  simp only
  split_ifs <;> rfl

theorem visBiasCell_ctl (m c : Nat) (st : State α) :
    ctlObs (visBiasCell m c st) = ctlObs st := by
  unfold visBiasCell
  simp only
  split_ifs <;> rfl

theorem hidBiasCell_ctl (k h : Nat) (st : State α) :
    ctlObs (hidBiasCell k h st) = ctlObs st := by
  unfold hidBiasCell
  simp only
  split_ifs <;> rfl

theorem updateMovie_ctl (cfg : Env α) (m : Nat) (st : State α) :
    ctlObs (updateMovie cfg m st) = ctlObs st := by
  unfold updateMovie
  simp only
  split_ifs
  · rfl
  · rw [forLoop_keep ctlObs _ _ _ (fun i _ t => visBiasCell_ctl m i t)]
    apply forLoop_keep
    intro i _ t
    exact forLoop_keep ctlObs _ _ t (fun r _ t' => weightCell_ctl m i r t')

theorem miniBatchUpdate_ctl (cfg : Env α) (u : Nat) (st : State α) :
    ctlObs (miniBatchUpdate cfg u st) = ctlObs st := by
  have h1 := forLoop_keep ctlObs cfg.NMOVIES (updateMovie cfg) st
    (fun i _ t => updateMovie_ctl cfg i t)
  have h2 := forLoop_keep ctlObs cfg.TOTAL_FEATURES (hidBiasCell (u % bsize + 1))
    (forLoop cfg.NMOVIES (updateMovie cfg) st) (fun i _ t => hidBiasCell_ctl _ i t)
  exact h2.trans h1

theorem userStep_ctl (cfg : Env α) (u : Nat) (st : State α) :
    ctlObs (userStep cfg u st) = ctlObs st := by
  unfold userStep
  simp only
  split_ifs
  · rw [miniBatchUpdate_ctl, processUser_ctl]
  · exact processUser_ctl cfg u st

theorem userLoop_ctl (cfg : Env α) (n : Nat) (st : State α) :
    ctlObs (forLoop n (userStep cfg) st) = ctlObs st :=
  forLoop_keep ctlObs n _ st (fun i _ t => userStep_ctl cfg i t)

/-! ## C3: the accumulators at the start of a mini-batch window -/

theorem zeroAccumulators_zero (st : State α) : accumulatorsZero (zeroAccumulators st) :=
  ⟨fun _ _ _ => rfl, fun _ _ _ => rfl, fun _ => rfl, fun _ => rfl, fun _ _ => rfl,
    fun _ _ => rfl, fun _ => rfl⟩

/-- The user loop of an epoch is the iteration for the last user run on `beforeUser`. -/
theorem beforeUser_succ (cfg : Env α) (st : State α) (u : Nat) :
    beforeUser cfg st (u + 1) = userStep cfg u (beforeUser cfg st u) := rfl

theorem beforeUser_accumZero (cfg : Env α) (st : State α) (u : Nat)
    (hstart : u = 0 ∨ (0 < u ∧ batchEnd cfg (u - 1))) :
    accumulatorsZero (beforeUser cfg st u) := by
  cases u with
  | zero =>
    show accumulatorsZero (epochStart st)
    unfold epochStart
    exact zeroAccumulators_zero _
  | succ k =>
    have hb : batchEnd cfg k := by
      rcases hstart with h0 | ⟨_, hb⟩
      · exact absurd h0 (Nat.succ_ne_zero k)
      · simpa using hb
    rw [beforeUser_succ]
    unfold userStep
    simp only [if_pos hb]
    unfold miniBatchUpdate
    exact zeroAccumulators_zero _

/-- C3: in every epoch (begun in any state `st`), when the iteration for user
`u` starts and `u` is the first user of the epoch or the user after a
mini-batch update (the batch test of line 506 held for user `u - 1`), every
entry of `CDpos`, `CDneg`, `poshidact`, `neghidact`, `posvisact`, `negvisact`
and `moviecount` is zero. -/
theorem accumulators_zero_at_window_start (cfg : Env α) (st : State α) (u : Nat)
    (hstart : u = 0 ∨ (0 < u ∧ batchEnd cfg (u - 1))) :
    accumulatorsZero (beforeUser cfg st u) :=
  beforeUser_accumZero cfg st u hstart

/-- Witness of `accumulators_zero_at_window_start`: user 100, the first user
after the update that follows user 99. -/
theorem accumulators_zero_at_window_start_witness :
    accumulatorsZero (beforeUser exEnv exBatch 100) :=
  accumulators_zero_at_window_start exEnv exBatch 100 (Or.inr ⟨by decide, by decide⟩)

/-! ## C4 and C5: the epoch loop -/

theorem decayRates_ctl_loopcount (cfg : Env α) (st : State α) :
    (decayRates cfg st).loopcount = st.loopcount
      ∧ (decayRates cfg st).last_rmse = st.last_rmse
      ∧ (decayRates cfg st).nrmse = st.nrmse := by
  unfold decayRates
  simp only
  split_ifs <;> exact ⟨rfl, rfl, rfl⟩

theorem epochStart_loopcount (st : State α) :
    (epochStart st).loopcount = st.loopcount + 1 ∧ (epochStart st).last_rmse = st.nrmse := by
  unfold epochStart setSteps setMomentum
  simp only
  split_ifs <;> exact ⟨rfl, rfl⟩

theorem epochBody_loopcount (cfg : Env α) (st : State α) :
    (epochBody cfg st).loopcount = st.loopcount + 1
      ∧ (epochBody cfg st).last_rmse = st.nrmse := by
  have hctl := userLoop_ctl cfg cfg.NUSERS (epochStart st)
  have h1 := congrArg Ctl.loopcount hctl
  have h2 := congrArg Ctl.last_rmse hctl
  have hs := epochStart_loopcount st
  unfold epochBody
  simp only
  refine ⟨?_, ?_⟩
  · rw [(decayRates_ctl_loopcount cfg _).1]
    exact h1.trans hs.1
  · rw [(decayRates_ctl_loopcount cfg _).2.1]
    exact h2.trans hs.2

theorem iterate_loopcount (cfg : Env α) (st : State α) (k : Nat) :
    ((epochBody cfg)^[k] st).loopcount = st.loopcount + k := by
  induction k with
  | zero => rfl
  | succ j ih =>
    rw [Function.iterate_succ_apply', (epochBody_loopcount cfg _).1, ih]
    omega

theorem iterate_last_rmse (cfg : Env α) (st : State α) (k : Nat) :
    ((epochBody cfg)^[k + 1] st).last_rmse = ((epochBody cfg)^[k] st).nrmse := by
  rw [Function.iterate_succ_apply', (epochBody_loopcount cfg _).2]

/-- A `while` loop returns the first iterate of the body at which the test
fails, whenever the fuel covers that many iterations. -/
theorem whileLoop_first_exit (cond : σ → Prop) [DecidablePred cond] (body : σ → σ) :
    ∀ (N fuel : Nat) (s : σ), N ≤ fuel →
      (∀ k, k < N → cond (body^[k] s)) → ¬ cond (body^[N] s) →
      whileLoop cond body fuel s = some (body^[N] s) := by
  intro N
  induction N with
  | zero =>
    intro fuel s _ _ hexit
    have hexit' : ¬ cond s := hexit
    cases fuel with
    | zero => simp only [whileLoop, if_neg hexit']; rfl
    | succ f => simp only [whileLoop, if_neg hexit']; rfl
  | succ M ih =>
    intro fuel s hfuel hrun hexit
    cases fuel with
    | zero => omega
    | succ f =>
      have h0 : cond s := hrun 0 (Nat.succ_pos M)
      simp only [whileLoop, if_pos h0]
      rw [Function.iterate_succ_apply]
      apply ih f (body s) (by omega)
      · intro k hk
        rw [← Function.iterate_succ_apply]
        exact hrun (k + 1) (by omega)
      · rw [← Function.iterate_succ_apply]
        exact hexit

/-- Whatever the comparison of the loop test yields in each state, a body
that increments `loopcount` makes the test of line 246 fail after at most
`80 - loopcount` iterations. -/
theorem capped_exit_exists {β : Type} (improved : State β → Prop) [DecidablePred improved]
    (body : State β → State β) (hbody : ∀ t, (body t).loopcount = t.loopcount + 1)
    (st : State β) :
    ∃ N, N ≤ 80 - st.loopcount
      ∧ (∀ k, k < N → capCond (improved (body^[k] st)) (body^[k] st).loopcount)
      ∧ ¬ capCond (improved (body^[N] st)) (body^[N] st).loopcount := by
  have hlc : ∀ k, (body^[k] st).loopcount = st.loopcount + k := by
    intro k
    induction k with
    | zero => rfl
    | succ j ih =>
      rw [Function.iterate_succ_apply', hbody, ih]
      omega
  have hex : ∃ N, ¬ capCond (improved (body^[N] st)) (body^[N] st).loopcount := by
    refine ⟨80 - st.loopcount, ?_⟩
    intro hc
    have hlt := hc.2
    rw [hlc] at hlt
    omega
  refine ⟨Nat.find hex, ?_, ?_, Nat.find_spec hex⟩
  · apply Nat.find_min' hex
    intro hc
    have hlt := hc.2
    rw [hlc] at hlt
    omega
  · intro k hk
    exact not_not.mp (Nat.find_min hex hk)

theorem epochLoop_first_exit (cfg : Env α) (N fuel : Nat) (st : State α) (hfuel : N ≤ fuel)
    (hrun : ∀ k, k < N → epochCond ((epochBody cfg)^[k] st))
    (hexit : ¬ epochCond ((epochBody cfg)^[N] st)) :
    epochLoop cfg fuel st = some ((epochBody cfg)^[N] st) :=
  whileLoop_first_exit epochCond (epochBody cfg) N fuel st hfuel hrun hexit

/-- From any state the test fails after at most `80 - loopcount` epochs. -/
theorem epochLoop_exit_exists (cfg : Env α) (st : State α) :
    ∃ N, N ≤ 80 - st.loopcount
      ∧ (∀ k, k < N → epochCond ((epochBody cfg)^[k] st))
      ∧ ¬ epochCond ((epochBody cfg)^[N] st) :=
  capped_exit_exists (fun t => t.nrmse < t.last_rmse - E) (epochBody cfg)
    (fun t => (epochBody_loopcount cfg t).1) st

theorem initParams_loopcount (cfg : Env α) (st : State α) :
    (initParams cfg st).loopcount = 0 := rfl

/-- C4: the epoch loop of `doAllFeatures` stops after at most 80 epochs.
First, for the loop test of line 246 with any outcomes `improved` of the
comparison of the RMSE values (so for every sequence of per-epoch RMSE
values) and any loop body that increments `loopcount`: from every state the
loop returns after some `N ≤ 80 - loopcount` iterations.  Second, for
`doAllFeatures` itself, whatever the data, parameters, draws and library
functions: with any fuel of at least 80 the epoch loop returns the state
reached by running the epoch body `N ≤ 80` times, in which `loopcount = N`,
and `doAllFeatures` returns 1. -/
theorem epoch_loop_terminates (cfg : Env α) (st : State α) :
    (∀ (improved : State α → Prop) [DecidablePred improved] (body : State α → State α)
        (s : State α), (∀ t, (body t).loopcount = t.loopcount + 1) →
      ∃ N, N ≤ 80 - s.loopcount
        ∧ ∀ fuel, 80 - s.loopcount ≤ fuel →
          whileLoop (fun t => capCond (improved t) t.loopcount) body fuel s
            = some (body^[N] s))
    ∧ ∃ N, N ≤ 80
      ∧ (∀ fuel, 80 ≤ fuel →
          epochLoop cfg fuel (initParams cfg st)
            = some ((epochBody cfg)^[N] (initParams cfg st)))
      ∧ ((epochBody cfg)^[N] (initParams cfg st)).loopcount = N
      ∧ (∀ fuel, 80 ≤ fuel →
          doAllFeatures cfg fuel st
            = some (recordErrors cfg ((epochBody cfg)^[N] (initParams cfg st)), 1)) := by
  constructor
  · intro improved _ body s hbody
    obtain ⟨N, hN, hrun, hexit⟩ := capped_exit_exists improved body hbody s
    exact ⟨N, hN, fun fuel hf =>
      whileLoop_first_exit (fun t => capCond (improved t) t.loopcount) body N fuel s
        (by omega) hrun hexit⟩
  · obtain ⟨N, hN, hrun, hexit⟩ := epochLoop_exit_exists cfg (initParams cfg st)
    rw [initParams_loopcount] at hN
    have hloop : ∀ fuel, 80 ≤ fuel →
        epochLoop cfg fuel (initParams cfg st)
          = some ((epochBody cfg)^[N] (initParams cfg st)) :=
      fun fuel hf => epochLoop_first_exit cfg N fuel _ (by omega) hrun hexit
    refine ⟨N, hN, hloop, ?_, ?_⟩
    · rw [iterate_loopcount, initParams_loopcount]
      omega
    · intro fuel hf
      unfold doAllFeatures
      rw [hloop fuel hf]

/-- Witness of `epoch_loop_terminates`: the loop whose comparison always
reports an improvement, with the epoch body of `exEnv`, stops as well. -/
theorem epoch_loop_terminates_witness :
    ∃ N, N ≤ 80 - (initParams exEnv zeroState).loopcount
      ∧ ∀ fuel, 80 - (initParams exEnv zeroState).loopcount ≤ fuel →
        whileLoop (fun t : State ℚ => capCond True t.loopcount) (epochBody exEnv) fuel
            (initParams exEnv zeroState)
          = some ((epochBody exEnv)^[N] (initParams exEnv zeroState)) :=
  (epoch_loop_terminates exEnv zeroState).1 (fun _ => True) (epochBody exEnv)
    (initParams exEnv zeroState) (fun t => (epochBody_loopcount exEnv t).1)

/-- C5: with `r K` the value of `nrmse` after the `K`-th epoch, the number
`N` of epochs that `doAllFeatures` runs satisfies `14 ≤ N`, and `N = 80` or
`r N` is not smaller than `r (N-1) - E`, and every `K` with `14 ≤ K < N` has
`K ≠ 80` and `r K < r (K-1) - E` (so `N` is the least such number); the loop
test does not read `prmse` or `last_prmse`. -/
theorem epoch_count_characterised (cfg : Env α) (st : State α) :
    ∃ N, (∀ fuel, 80 ≤ fuel →
          epochLoop cfg fuel (initParams cfg st)
            = some ((epochBody cfg)^[N] (initParams cfg st)))
      ∧ ((epochBody cfg)^[N] (initParams cfg st)).loopcount = N
      ∧ 14 ≤ N
      ∧ (N = 80 ∨ ¬ ((epochBody cfg)^[N] (initParams cfg st)).nrmse
            < ((epochBody cfg)^[N - 1] (initParams cfg st)).nrmse - E)
      ∧ (∀ K, 14 ≤ K → K < N →
          K ≠ 80 ∧ ((epochBody cfg)^[K] (initParams cfg st)).nrmse
            < ((epochBody cfg)^[K - 1] (initParams cfg st)).nrmse - E)
      ∧ (∀ (s : State α) (p q : α),
          epochCond { s with prmse := p, last_prmse := q } ↔ epochCond s) := by
  obtain ⟨N, hN, hrun, hexit⟩ := epochLoop_exit_exists cfg (initParams cfg st)
  rw [initParams_loopcount] at hN
  have hlc : ∀ k, ((epochBody cfg)^[k] (initParams cfg st)).loopcount = k := by
    intro k
    rw [iterate_loopcount, initParams_loopcount]
    omega
  have h14 : 14 ≤ N := by
    by_contra hlt
    apply hexit
    refine ⟨Or.inr ?_, ?_⟩
    · rw [hlc]; omega
    · rw [hlc]; omega
  refine ⟨N, fun fuel hf => epochLoop_first_exit cfg N fuel _ (by omega) hrun hexit,
    hlc N, h14, ?_, ?_, fun s p q => Iff.rfl⟩
  · by_cases h80 : N = 80
    · exact Or.inl h80
    · right
      intro hlt
      apply hexit
      refine ⟨Or.inl ?_, ?_⟩
      · have hN1 : N = (N - 1) + 1 := by omega
        have hl := iterate_last_rmse cfg (initParams cfg st) (N - 1)
        rw [← hN1] at hl
        rw [hl]
        exact hlt
      · rw [hlc]; omega
  · intro K hK14 hKN
    have hc := hrun K hKN
    refine ⟨by omega, ?_⟩
    have hK1 : K = (K - 1) + 1 := by omega
    have hl := iterate_last_rmse cfg (initParams cfg st) (K - 1)
    rw [← hK1] at hl
    rcases hc.1 with hlt | hlt
    · rw [hl] at hlt
      exact hlt
    · rw [hlc] at hlt
      omega

/-! ## C6: the positive-phase weighted sum -/

theorem addWeights_sumW (cfg : Env α) (m r h : Nat) (st : State α) :
    (addWeights cfg m r st).sumW h
      = if h < cfg.TOTAL_FEATURES then st.sumW h + st.vishid m r h else st.sumW h := by
  have key := forLoop_at (fun s : State α => (s.sumW h, s.vishid m r h))
    (fun o => (o.1 + o.2, o.2)) h cfg.TOTAL_FEATURES
    (fun h' s => { s with sumW := upd1 s.sumW h' (s.sumW h' + s.vishid m r h') }) st
    (by
      intro i hi t
      have : ¬ h = i := fun hx => hi hx.symm
      simp [upd1, this])
    (by
      intro t
      simp [upd1])
  have key1 : (addWeights cfg m r st).sumW h
      = (if h < cfg.TOTAL_FEATURES then (st.sumW h + st.vishid m r h, st.vishid m r h)
          else (st.sumW h, st.vishid m r h)).1 := congrArg Prod.fst key
  rw [key1]
  split_ifs <;> rfl

theorem addWeights_vishid (cfg : Env α) (m r : Nat) (st : State α) :
    (addWeights cfg m r st).vishid = st.vishid := by
  unfold addWeights
  exact forLoop_keep (fun s : State α => s.vishid) _ _ st (fun i _ t => rfl)

theorem posAccumStep_sumW (cfg : Env α) (u j h : Nat) (st : State α) :
    (posAccumStep cfg u j st).sumW h
        = (if h < cfg.TOTAL_FEATURES then
            st.sumW h + st.vishid (entMovie cfg (cfg.useridx u 0 + j))
              (entRating cfg (cfg.useridx u 0 + j)) h
          else st.sumW h)
      ∧ (posAccumStep cfg u j st).vishid = st.vishid := by
  unfold posAccumStep
  simp only
  rw [addWeights_sumW, addWeights_vishid]
  exact ⟨rfl, rfl⟩

theorem posAccumLoop_sumW (cfg : Env α) (u h : Nat) (hh : h < cfg.TOTAL_FEATURES)
    (st : State α) (n : Nat) :
    (forLoop n (posAccumStep cfg u) st).sumW h
        = st.sumW h + ∑ j in Finset.range n,
            st.vishid (entMovie cfg (cfg.useridx u 0 + j))
              (entRating cfg (cfg.useridx u 0 + j)) h
      ∧ (forLoop n (posAccumStep cfg u) st).vishid = st.vishid := by
  induction n with
  | zero => simp [forLoop]
  | succ k ih =>
    rw [forLoop_succ, (posAccumStep_sumW cfg u k h _).1, (posAccumStep_sumW cfg u k h _).2,
      if_pos hh, ih.1, ih.2, Finset.sum_range_succ]
    exact ⟨by ring, rfl⟩

/-- C6: for every user `u` and hidden unit `h`, the weighted sum `sumW[h]`
that the positive phase of `doAllFeatures` leaves for the hidden
probabilities is the sum of `vishid[m][r][h]` over the entries `(m, r)` of
the training segment of `u` (entries `useridx[u][0] + j`, `j < UNTRAIN(u)`)
and nothing else. -/
theorem positive_phase_sum (cfg : Env α) (u h : Nat) (st : State α)
    (hh : h < cfg.TOTAL_FEATURES) :
    (posPhase cfg u st).sumW h
      = ∑ j in Finset.range (cfg.UNTRAIN u),
          st.vishid (entMovie cfg (cfg.useridx u 0 + j))
            (entRating cfg (cfg.useridx u 0 + j)) h := by
  unfold posPhase
  simp only
  rw [(posAccumLoop_sumW cfg u h hh _ _).1]
  simp

/-- Witness of `positive_phase_sum`: for the training segment
`[(item 0, category 2), (item 1, category 0)]` of `exEnv` the sum for hidden
unit 1 is `vishid[0][2][1] + vishid[1][0][1]`. -/
theorem positive_phase_sum_witness :
    (posPhase exEnv 0 exWeights).sumW 1 = exWeights.vishid 0 2 1 + exWeights.vishid 1 0 1 := by
  rw [positive_phase_sum exEnv 0 1 exWeights (by decide)]
  have h0 : entMovie exEnv (exEnv.useridx 0 0 + 0) = 0 := by decide
  have h1 : entRating exEnv (exEnv.useridx 0 0 + 0) = 2 := by decide
  have h2 : entMovie exEnv (exEnv.useridx 0 0 + 1) = 1 := by decide
  have h3 : entRating exEnv (exEnv.useridx 0 0 + 1) = 0 := by decide
  have hn : exEnv.UNTRAIN 0 = 2 := rfl
  rw [hn, Finset.sum_range_succ, Finset.sum_range_succ, Finset.sum_range_zero, h0, h1, h2, h3]
  ring

/-! ## C7: initial visible biases -/

theorem initWeightCell_keep (cfg : Env α) (j i : Nat) (st : State α) :
    (initWeightCell cfg j i st).visbiases = st.visbiases
      ∧ (initWeightCell cfg j i st).moviercount = st.moviercount := ⟨rfl, rfl⟩

theorem initVisBias_same (cfg : Env α) (j i : Nat) (st : State α) :
    (fun s : State α => (s.visbiases j i, s.moviercount)) (initVisBias cfg j st)
      = if i < SOFTMAX then
          (cfg.log ((st.moviercount (j * SOFTMAX + i) : α)
            / (totalCount st.moviercount j : α)), st.moviercount)
        else (st.visbiases j i, st.moviercount) := by
  unfold initVisBias
  exact forLoop_at (fun s : State α => (s.visbiases j i, s.moviercount))
    (fun o => (cfg.log ((o.2 (j * SOFTMAX + i) : α) / (totalCount st.moviercount j : α)), o.2))
    i SOFTMAX _ st
    (by
      intro i' hi t
      have : ¬ i = i' := fun hx => hi hx.symm
      simp [upd2, this])
    (by
      intro t
      simp [upd2, totalCount])

theorem initVisBias_other (cfg : Env α) (j i j' : Nat) (hne : j ≠ j') (st : State α) :
    (fun s : State α => (s.visbiases j i, s.moviercount)) (initVisBias cfg j' st)
      = (fun s : State α => (s.visbiases j i, s.moviercount)) st := by
  unfold initVisBias
  simp only
  apply forLoop_keep (fun s : State α => (s.visbiases j i, s.moviercount))
  intro i' _ t
  simp [upd2, hne]

theorem initParams_visbiases (cfg : Env α) (j i : Nat) (st : State α) :
    (initParams cfg st).visbiases j i
      = if j < cfg.NMOVIES ∧ i < SOFTMAX then
          cfg.log ((st.moviercount (j * SOFTMAX + i) : α) / (totalCount st.moviercount j : α))
        else st.visbiases j i := by
  have hw : ∀ t : State α,
      (fun s : State α => (s.visbiases, s.moviercount))
        (forLoop cfg.NMOVIES (fun j s => forLoop cfg.TOTAL_FEATURES (initWeightCell cfg j) s) t)
        = (t.visbiases, t.moviercount) := by
    intro t
    apply forLoop_keep (fun s : State α => (s.visbiases, s.moviercount))
    intro j' _ t'
    apply forLoop_keep (fun s : State α => (s.visbiases, s.moviercount))
    intro i' _ t''
    rfl
  have hh : ∀ t : State α,
      (fun s : State α => (s.visbiases, s.moviercount))
        (forLoop cfg.TOTAL_FEATURES (fun i s => { s with hidbiases := upd1 s.hidbiases i 0 }) t)
        = (t.visbiases, t.moviercount) := by
    intro t
    apply forLoop_keep (fun s : State α => (s.visbiases, s.moviercount))
    intro i' _ t'
    rfl
  have hv := forLoop_at (fun s : State α => (s.visbiases j i, s.moviercount))
    (fun o => if i < SOFTMAX then
        (cfg.log ((o.2 (j * SOFTMAX + i) : α) / (totalCount o.2 j : α)), o.2) else o)
    j cfg.NMOVIES (initVisBias cfg)
    (forLoop cfg.TOTAL_FEATURES (fun i s => { s with hidbiases := upd1 s.hidbiases i 0 })
      (forLoop cfg.NMOVIES (fun j s => forLoop cfg.TOTAL_FEATURES (initWeightCell cfg j) s)
        st))
    (fun j' hj t => initVisBias_other cfg j i j' (fun hx => hj hx.symm) t)
    (by
      intro t
      rw [initVisBias_same])
  have hpre := (hh _).trans (hw st)
  have hpre1 := congrArg Prod.fst hpre
  have hpre2 := congrArg Prod.snd hpre
  simp only at hpre1 hpre2
  simp only [hpre1, hpre2] at hv
  have hfst := congrArg Prod.fst hv
  have hgoal : (initParams cfg st).visbiases j i
      = (if j < cfg.NMOVIES then
          (if i < SOFTMAX then
            (cfg.log ((st.moviercount (j * SOFTMAX + i) : α) / (totalCount st.moviercount j : α)),
              st.moviercount)
          else (st.visbiases j i, st.moviercount))
        else (st.visbiases j i, st.moviercount)).1 := hfst
  rw [hgoal]
  by_cases hj : j < cfg.NMOVIES <;> by_cases hi : i < SOFTMAX <;> simp [hj, hi]

theorem doAllFeatures_returns (cfg : Env α) (st : State α) (fuel : Nat) (hf : 80 ≤ fuel) :
    ∃ r, doAllFeatures cfg fuel st = some (r, 1) := by
  obtain ⟨N, hN, hrun, hexit⟩ := epochLoop_exit_exists cfg (initParams cfg st)
  rw [initParams_loopcount] at hN
  refine ⟨recordErrors cfg ((epochBody cfg)^[N] (initParams cfg st)), ?_⟩
  unfold doAllFeatures
  rw [epochLoop_first_exit cfg N fuel _ (by omega) hrun hexit]

/-- C7 (amended): parameter initialization (`score_setup`, then the bias
initialization of `doAllFeatures`) has no failure outcome: for every item
`j` and category `i` it stores
`visbiases[j][i] = log(moviercount[j*5+i] / mtot)`, also when the count or
the total is zero, and `doAllFeatures` goes on to return 1. -/
theorem init_visbias_no_failure (cfg : Env α) (st : State α) (j i : Nat)
    (hj : j < cfg.NMOVIES) (hi : i < SOFTMAX) :
    (initParams cfg (score_setup cfg st)).visbiases j i
        = cfg.log (((score_setup cfg st).moviercount (j * SOFTMAX + i) : α)
            / (totalCount (score_setup cfg st).moviercount j : α))
      ∧ (∀ fuel, 80 ≤ fuel → ∃ r, doAllFeatures cfg fuel (score_setup cfg st) = some (r, 1)) := by
  refine ⟨?_, fun fuel hf => doAllFeatures_returns cfg _ fuel hf⟩
  rw [initParams_visbiases, if_pos ⟨hj, hi⟩]

theorem exTen_counts :
    (score_setup exTen zeroState).moviercount 0 = 1
      ∧ (score_setup exTen zeroState).moviercount 1 = 2
      ∧ (score_setup exTen zeroState).moviercount 2 = 3
      ∧ (score_setup exTen zeroState).moviercount 3 = 4
      ∧ (score_setup exTen zeroState).moviercount 4 = 0 := by
  decide

theorem exTen_total : totalCount (score_setup exTen zeroState).moviercount 0 = 10 := by
  decide

/-- Witness of `init_visbias_no_failure`: item 0 of `exTen`, category 3 (count 4 of 10). -/
theorem init_visbias_no_failure_witness :
    (initParams exTen (score_setup exTen zeroState)).visbiases 0 3
        = exTen.log ((4 : ℚ) / 10)
      ∧ ∃ r, doAllFeatures exTen 80 (score_setup exTen zeroState) = some (r, 1) := by
  have hw := init_visbias_no_failure exTen zeroState 0 3 (by decide) (by decide)
  have hc : (score_setup exTen zeroState).moviercount (0 * SOFTMAX + 3) = 4 := exTen_counts.2.2.2.1
  rw [hc, exTen_total] at hw
  exact ⟨by simpa using hw.1, hw.2 80 (le_refl 80)⟩

/-- C7 as stated fails: the training data of `exTen` give item 0 the counts
`1,2,3,4,0` (total 10); initialization completes and stores
`visbiases[0][4] = log(0/10)`, and `doAllFeatures` returns 1: no
DataDegenerate condition is raised. -/
theorem init_visbias_counterexample :
    (score_setup exTen zeroState).moviercount (0 * SOFTMAX + 4) = 0
      ∧ totalCount (score_setup exTen zeroState).moviercount 0 = 10
      ∧ (initParams exTen (score_setup exTen zeroState)).visbiases 0 4
          = exTen.log ((0 : ℚ) / 10)
      ∧ ∃ r, doAllFeatures exTen 80 (score_setup exTen zeroState) = some (r, 1) := by
  have hc : (score_setup exTen zeroState).moviercount (0 * SOFTMAX + 4) = 0 := exTen_counts.2.2.2.2
  refine ⟨hc, exTen_total, ?_, doAllFeatures_returns exTen _ 80 (le_refl 80)⟩
  rw [initParams_visbiases, if_pos ⟨by decide, by decide⟩, hc, exTen_total]
  simp

/-! ## C2: normalised reconstruction probabilities -/

/-- An observation made of a value and a part that no iteration changes,
where iteration `i` adds `inc i` of the unchanged part to the value, ends as
the old value plus the sum of the increments. -/
theorem forLoop_sum {β M : Type} [AddCommMonoid M] (val : σ → M) (ro : σ → β)
    (inc : β → Nat → M) (n : Nat) (body : Nat → σ → σ) (s : σ)
    (hval : ∀ i t, val (body i t) = val t + inc (ro t) i)
    (hro : ∀ i t, ro (body i t) = ro t) :
    val (forLoop n body s) = val s + ∑ i in Finset.range n, inc (ro s) i := by
  induction n with
  | zero => simp [forLoop]
  | succ k ih =>
    rw [forLoop_succ, hval, ih, forLoop_keep ro k body s (fun i _ t => hro i t),
      Finset.sum_range_succ, add_assoc]

/-- When only iteration `k` of a loop changes an observation, the observation
at the end is the one made right after iteration `k`, and iteration `k`
starts in a state with the observation of the start of the loop. -/
theorem forLoop_at_exists {β : Type} (obs : σ → β) (k n : Nat)
    (body : Nat → σ → σ) (s : σ) (hkn : k < n)
    (hne : ∀ i, i < n → i ≠ k → ∀ t, obs (body i t) = obs t) :
    ∃ t, obs t = obs s ∧ obs (forLoop n body s) = obs (body k t) := by
  refine ⟨forLoop k body s, ?_, ?_⟩
  · exact forLoop_keep obs k body s
      (fun i hi t => hne i (Nat.lt_trans hi hkn) (Nat.ne_of_lt hi) t)
  · induction n with
    | zero => omega
    | succ j ih =>
      rw [forLoop_succ]
      by_cases hjk : j = k
      · subst hjk
        rfl
      · rw [hne j (Nat.lt_succ_self j) hjk]
        exact ih (by omega) (fun i hi hik t => hne i (Nat.lt_succ_of_lt hi) hik t)

theorem negAddLoop_neg (m h m' c : Nat) (t : State α) :
    (forLoop SOFTMAX (negAddCell m h) t).negvisprobs m' c
      = if m' = m ∧ c < SOFTMAX then t.negvisprobs m c + t.vishid m c h
        else t.negvisprobs m' c := by
  by_cases hm : m' = m
  · subst hm
    have key := forLoop_at (fun s : State α => (s.negvisprobs m' c, s.vishid m' c h))
      (fun o => (o.1 + o.2, o.2)) c SOFTMAX (negAddCell m' h) t
      (by
        intro i hi s
        have : ¬ c = i := fun hx => hi hx.symm
        simp [negAddCell, upd2, this])
      (by
        intro s
        simp [negAddCell, upd2])
    have key1 : (forLoop SOFTMAX (negAddCell m' h) t).negvisprobs m' c
        = (if c < SOFTMAX then (t.negvisprobs m' c + t.vishid m' c h, t.vishid m' c h)
            else (t.negvisprobs m' c, t.vishid m' c h)).1 := congrArg Prod.fst key
    rw [key1]
    by_cases hc : c < SOFTMAX <;> simp [hc]
  · rw [forLoop_keep (fun s : State α => s.negvisprobs m' c) SOFTMAX (negAddCell m h) t
      (by
        intro i _ s
        simp [negAddCell, upd2, hm])]
    simp [hm]

theorem nvpAddLoop_nvp (m h m' c : Nat) (t : State α) :
    (forLoop SOFTMAX (nvpAddCell m h) t).nvp2 m' c
      = if m' = m ∧ c < SOFTMAX then t.nvp2 m c + t.poshidprobs h * t.vishid m c h
        else t.nvp2 m' c := by
  by_cases hm : m' = m
  · subst hm
    have key := forLoop_at
      (fun s : State α => (s.nvp2 m' c, s.poshidprobs h * s.vishid m' c h))
      (fun o => (o.1 + o.2, o.2)) c SOFTMAX (nvpAddCell m' h) t
      (by
        intro i hi s
        have : ¬ c = i := fun hx => hi hx.symm
        simp [nvpAddCell, upd2, this])
      (by
        intro s
        simp [nvpAddCell, upd2])
    have key1 : (forLoop SOFTMAX (nvpAddCell m' h) t).nvp2 m' c
        = (if c < SOFTMAX then
            (t.nvp2 m' c + t.poshidprobs h * t.vishid m' c h, t.poshidprobs h * t.vishid m' c h)
          else (t.nvp2 m' c, t.poshidprobs h * t.vishid m' c h)).1 := congrArg Prod.fst key
    rw [key1]
    by_cases hc : c < SOFTMAX <;> simp [hc]
  · rw [forLoop_keep (fun s : State α => s.nvp2 m' c) SOFTMAX (nvpAddCell m h) t
      (by
        intro i _ s
        simp [nvpAddCell, upd2, hm])]
    simp [hm]

theorem negAddLoop_keep (m h : Nat) (t : State α) :
    reconInputs (forLoop SOFTMAX (negAddCell m h) t) = reconInputs t
      ∧ (forLoop SOFTMAX (negAddCell m h) t).nvp2 = t.nvp2 :=
  ⟨forLoop_keep reconInputs _ _ t (fun _ _ _ => rfl),
    forLoop_keep (fun s : State α => s.nvp2) _ _ t (fun _ _ _ => rfl)⟩

theorem nvpAddLoop_keep (m h : Nat) (t : State α) :
    reconInputs (forLoop SOFTMAX (nvpAddCell m h) t) = reconInputs t
      ∧ (forLoop SOFTMAX (nvpAddCell m h) t).negvisprobs = t.negvisprobs :=
  ⟨forLoop_keep reconInputs _ _ t (fun _ _ _ => rfl),
    forLoop_keep (fun s : State α => s.negvisprobs) _ _ t (fun _ _ _ => rfl)⟩

theorem visAccumStep_inputs (m stepT h : Nat) (t : State α) :
    reconInputs (visAccumStep m stepT h t) = reconInputs t := by
  unfold visAccumStep
  simp only
  split_ifs
  · rw [(nvpAddLoop_keep m h _).1, (negAddLoop_keep m h t).1]
  · rw [(nvpAddLoop_keep m h _).1]
  · rw [(negAddLoop_keep m h t).1]
  · rfl

theorem visAccumStep_neg (m stepT h m' c : Nat) (t : State α) :
    (visAccumStep m stepT h t).negvisprobs m' c
      = t.negvisprobs m' c
        + (if m' = m ∧ c < SOFTMAX then
            (if t.curposhidstates h = 1 then t.vishid m c h else 0) else 0) := by
  unfold visAccumStep
  simp only
  by_cases hcur : t.curposhidstates h = 1 <;> by_cases hs : stepT = 0 <;>
    by_cases hmc : m' = m ∧ c < SOFTMAX <;>
    simp [hcur, hs, hmc, (nvpAddLoop_keep m h _).2, negAddLoop_neg]

theorem visAccumStep_nvp (m stepT h m' c : Nat) (t : State α) :
    (visAccumStep m stepT h t).nvp2 m' c
      = t.nvp2 m' c
        + (if m' = m ∧ c < SOFTMAX then
            (if stepT = 0 then t.poshidprobs h * t.vishid m c h else 0) else 0) := by
  have hin := (negAddLoop_keep m h t).1
  have hv : (forLoop SOFTMAX (negAddCell m h) t).vishid = t.vishid :=
    congrArg (fun o => o.1) hin
  have hp : (forLoop SOFTMAX (negAddCell m h) t).poshidprobs = t.poshidprobs :=
    congrArg (fun o => o.2.2.2) hin
  unfold visAccumStep
  simp only
  by_cases hcur : t.curposhidstates h = 1 <;> by_cases hs : stepT = 0 <;>
    by_cases hmc : m' = m ∧ c < SOFTMAX <;>
    simp [hcur, hs, hmc, (negAddLoop_keep m h _).2, nvpAddLoop_nvp, hv, hp]

/-- The accumulation loop of lines 339-352, seen from one entry of `negvisprobs`. -/
theorem visAccumLoop_neg (m stepT m' c n : Nat) (t : State α) :
    (forLoop n (visAccumStep m stepT) t).negvisprobs m' c
      = t.negvisprobs m' c
        + ∑ h in Finset.range n,
            (if m' = m ∧ c < SOFTMAX then
              (if t.curposhidstates h = 1 then t.vishid m c h else 0) else 0) :=
  forLoop_sum (fun s : State α => s.negvisprobs m' c) reconInputs
    (fun ro h => if m' = m ∧ c < SOFTMAX then (if ro.2.2.1 h = 1 then ro.1 m c h else 0) else 0)
    n (visAccumStep m stepT) t
    (fun h s => visAccumStep_neg m stepT h m' c s)
    (fun h s => visAccumStep_inputs m stepT h s)

/-- The accumulation loop of lines 339-352, seen from one entry of `nvp2`. -/
theorem visAccumLoop_nvp (m stepT m' c n : Nat) (t : State α) :
    (forLoop n (visAccumStep m stepT) t).nvp2 m' c
      = t.nvp2 m' c
        + ∑ h in Finset.range n,
            (if m' = m ∧ c < SOFTMAX then
              (if stepT = 0 then t.poshidprobs h * t.vishid m c h else 0) else 0) :=
  forLoop_sum (fun s : State α => s.nvp2 m' c) reconInputs
    (fun ro h => if m' = m ∧ c < SOFTMAX then
      (if stepT = 0 then ro.2.2.2 h * ro.1 m c h else 0) else 0)
    n (visAccumStep m stepT) t
    (fun h s => visAccumStep_nvp m stepT h m' c s)
    (fun h s => visAccumStep_inputs m stepT h s)

theorem visAccumLoop_inputs (m stepT n : Nat) (t : State α) :
    reconInputs (forLoop n (visAccumStep m stepT) t) = reconInputs t :=
  forLoop_keep reconInputs n _ t (fun h _ s => visAccumStep_inputs m stepT h s)

theorem sigmoidRow_apply (cfg : Env α) (vb a : Nat → Nat → α) (m m' c : Nat) :
    sigmoidRow cfg vb a m m' c
      = if m' = m ∧ c < SOFTMAX then 1 / (1 + cfg.exp (-a m c - vb m c)) else a m' c := by
  unfold sigmoidRow SOFTMAX
  by_cases hm : m' = m
  · subst hm
    by_cases hc : c < 5
    · interval_cases c <;> simp [upd2]
    · have h0 : c ≠ 0 := by omega
      have h1 : c ≠ 1 := by omega
      have h2 : c ≠ 2 := by omega
      have h3 : c ≠ 3 := by omega
      have h4 : c ≠ 4 := by omega
      simp [upd2, h0, h1, h2, h3, h4, hc]
  · simp [upd2, hm]

theorem normalizeRow_other (a : Nat → Nat → α) (m m' c : Nat) (hm : m' ≠ m) :
    normalizeRow a m m' c = a m' c := by
  unfold normalizeRow
  simp only
  split_ifs
  · simp [upd2, hm]
  · rfl

theorem normalizeRow_sum (a : Nat → Nat → α) (m : Nat)
    (hsum : a m 0 + a m 1 + a m 2 + a m 3 + a m 4 ≠ 0) :
    normalizeRow a m m 0 + normalizeRow a m m 1 + normalizeRow a m m 2
      + normalizeRow a m m 3 + normalizeRow a m m 4 = 1 := by
  unfold normalizeRow
  simp only [if_pos hsum]
  simp [upd2]
  field_simp

theorem normalizeRow_zero (a : Nat → Nat → α) (m : Nat)
    (hsum : a m 0 + a m 1 + a m 2 + a m 3 + a m 4 = 0) :
    normalizeRow a m = a := by
  unfold normalizeRow
  simp [hsum]

theorem visReconStep_inputs (cfg : Env α) (u stepT : Nat) (fin : Bool) (j : Nat)
    (t : State α) :
    reconInputs (visReconStep cfg u stepT fin j t) = reconInputs t := by
  have hacc := visAccumLoop_inputs (entMovie cfg (cfg.useridx u 0 + j)) stepT
    cfg.TOTAL_FEATURES t
  unfold visReconStep drawNext
  simp only
  split_ifs <;> exact hacc

theorem visReconStep_neg (cfg : Env α) (u stepT : Nat) (fin : Bool) (j : Nat)
    (t : State α) :
    (visReconStep cfg u stepT fin j t).negvisprobs
      = normalizeRow (sigmoidRow cfg t.visbiases
          (forLoop cfg.TOTAL_FEATURES
            (visAccumStep (entMovie cfg (cfg.useridx u 0 + j)) stepT) t).negvisprobs
          (entMovie cfg (cfg.useridx u 0 + j))) (entMovie cfg (cfg.useridx u 0 + j)) := by
  have hvb : (forLoop cfg.TOTAL_FEATURES
      (visAccumStep (entMovie cfg (cfg.useridx u 0 + j)) stepT) t).visbiases = t.visbiases :=
    congrArg (fun o => o.2.1)
      (visAccumLoop_inputs (entMovie cfg (cfg.useridx u 0 + j)) stepT cfg.TOTAL_FEATURES t)
  rw [← hvb]
  unfold visReconStep drawNext
  simp only
  split_ifs <;> rfl

theorem visReconStep_nvp (cfg : Env α) (u stepT : Nat) (fin : Bool) (j : Nat)
    (t : State α) :
    (visReconStep cfg u stepT fin j t).nvp2
      = if stepT = 0 then
          normalizeRow (sigmoidRow cfg t.visbiases
            (forLoop cfg.TOTAL_FEATURES
              (visAccumStep (entMovie cfg (cfg.useridx u 0 + j)) stepT) t).nvp2
            (entMovie cfg (cfg.useridx u 0 + j))) (entMovie cfg (cfg.useridx u 0 + j))
        else
          (forLoop cfg.TOTAL_FEATURES
            (visAccumStep (entMovie cfg (cfg.useridx u 0 + j)) stepT) t).nvp2 := by
  have hvb : (forLoop cfg.TOTAL_FEATURES
      (visAccumStep (entMovie cfg (cfg.useridx u 0 + j)) stepT) t).visbiases = t.visbiases :=
    congrArg (fun o => o.2.1)
      (visAccumLoop_inputs (entMovie cfg (cfg.useridx u 0 + j)) stepT cfg.TOTAL_FEATURES t)
  rw [← hvb]
  unfold visReconStep drawNext
  simp only
  split_ifs <;> rfl

/-- A reconstruction step for another item leaves the two rows of item `m` alone. -/
theorem visReconStep_other_row (cfg : Env α) (u stepT : Nat) (fin : Bool) (j m : Nat)
    (hm : entMovie cfg (cfg.useridx u 0 + j) ≠ m) (t : State α) :
    (visReconStep cfg u stepT fin j t).negvisprobs m = t.negvisprobs m
      ∧ (visReconStep cfg u stepT fin j t).nvp2 m = t.nvp2 m := by
  have hm' : m ≠ entMovie cfg (cfg.useridx u 0 + j) := fun hx => hm hx.symm
  have hm'' : ¬ m = entMovie cfg (cfg.useridx u 0 + j) := hm'
  constructor
  · funext c
    rw [visReconStep_neg, normalizeRow_other _ _ _ _ hm', sigmoidRow_apply]
    simp [hm'', visAccumLoop_neg]
  · funext c
    rw [visReconStep_nvp]
    split_ifs
    · rw [normalizeRow_other _ _ _ _ hm', sigmoidRow_apply]
      simp [hm'', visAccumLoop_nvp]
    · simp [hm'', visAccumLoop_nvp]

/-- The row of `negvisprobs` that a reconstruction step leaves for its item. -/
theorem visReconStep_neg_row (cfg : Env α) (u stepT : Nat) (fin : Bool) (j : Nat)
    (t : State α) :
    (rowSum (rawNeg cfg t) (entMovie cfg (cfg.useridx u 0 + j)) ≠ 0 →
      rowSum (visReconStep cfg u stepT fin j t).negvisprobs
        (entMovie cfg (cfg.useridx u 0 + j)) = 1)
    ∧ (rowSum (rawNeg cfg t) (entMovie cfg (cfg.useridx u 0 + j)) = 0 →
      ∀ c, c < SOFTMAX →
        (visReconStep cfg u stepT fin j t).negvisprobs (entMovie cfg (cfg.useridx u 0 + j)) c
          = rawNeg cfg t (entMovie cfg (cfg.useridx u 0 + j)) c) := by
  generalize hmdef : entMovie cfg (cfg.useridx u 0 + j) = m
  have hraw : ∀ c, c < SOFTMAX →
      sigmoidRow cfg t.visbiases
        (forLoop cfg.TOTAL_FEATURES (visAccumStep m stepT) t).negvisprobs m m c
        = rawNeg cfg t m c := by
    intro c hc
    rw [sigmoidRow_apply, visAccumLoop_neg]
    simp [hc, rawNeg]
  have hneg := visReconStep_neg cfg u stepT fin j t
  rw [hmdef] at hneg
  unfold rowSum
  rw [hneg, ← hraw 0 (by decide), ← hraw 1 (by decide), ← hraw 2 (by decide),
    ← hraw 3 (by decide), ← hraw 4 (by decide)]
  constructor
  · intro hsum
    exact normalizeRow_sum _ m hsum
  · intro hsum c hc
    rw [normalizeRow_zero _ m hsum, hraw c hc]

/-- The row of `nvp2` that the first reconstruction step leaves for its item. -/
theorem visReconStep_nvp_row (cfg : Env α) (u : Nat) (fin : Bool) (j : Nat) (t : State α) :
    (rowSum (rawNvp cfg t) (entMovie cfg (cfg.useridx u 0 + j)) ≠ 0 →
      rowSum (visReconStep cfg u 0 fin j t).nvp2 (entMovie cfg (cfg.useridx u 0 + j)) = 1)
    ∧ (rowSum (rawNvp cfg t) (entMovie cfg (cfg.useridx u 0 + j)) = 0 →
      ∀ c, c < SOFTMAX →
        (visReconStep cfg u 0 fin j t).nvp2 (entMovie cfg (cfg.useridx u 0 + j)) c
          = rawNvp cfg t (entMovie cfg (cfg.useridx u 0 + j)) c) := by
  generalize hmdef : entMovie cfg (cfg.useridx u 0 + j) = m
  have hraw : ∀ c, c < SOFTMAX →
      sigmoidRow cfg t.visbiases
        (forLoop cfg.TOTAL_FEATURES (visAccumStep m 0) t).nvp2 m m c
        = rawNvp cfg t m c := by
    intro c hc
    rw [sigmoidRow_apply, visAccumLoop_nvp]
    simp [hc, rawNvp]
  have hnvp := visReconStep_nvp cfg u 0 fin j t
  rw [hmdef, if_pos rfl] at hnvp
  unfold rowSum
  rw [hnvp, ← hraw 0 (by decide), ← hraw 1 (by decide), ← hraw 2 (by decide),
    ← hraw 3 (by decide), ← hraw 4 (by decide)]
  constructor
  · intro hsum
    exact normalizeRow_sum _ m hsum
  · intro hsum c hc
    rw [normalizeRow_zero _ m hsum, hraw c hc]

theorem rawNeg_congr (cfg : Env α) (s t : State α) (m : Nat)
    (hneg : t.negvisprobs m = s.negvisprobs m) (hin : reconInputs t = reconInputs s) :
    rawNeg cfg t m = rawNeg cfg s m := by
  have h1 : t.vishid = s.vishid := congrArg (fun o => o.1) hin
  have h2 : t.visbiases = s.visbiases := congrArg (fun o => o.2.1) hin
  have h3 : t.curposhidstates = s.curposhidstates := congrArg (fun o => o.2.2.1) hin
  funext c
  unfold rawNeg
  rw [hneg, h1, h2, h3]

theorem rawNvp_congr (cfg : Env α) (s t : State α) (m : Nat)
    (hnvp : t.nvp2 m = s.nvp2 m) (hin : reconInputs t = reconInputs s) :
    rawNvp cfg t m = rawNvp cfg s m := by
  have h1 : t.vishid = s.vishid := congrArg (fun o => o.1) hin
  have h2 : t.visbiases = s.visbiases := congrArg (fun o => o.2.1) hin
  have h4 : t.poshidprobs = s.poshidprobs := congrArg (fun o => o.2.2.2) hin
  funext c
  unfold rawNvp
  rw [hnvp, h1, h2, h4]

theorem rowSum_congr (a b : Nat → Nat → α) (m : Nat) (h : a m = b m) :
    rowSum a m = rowSum b m := by
  unfold rowSum
  rw [h]

/-- C2: let `st` be any state in which the reconstruction loop of a Gibbs
step (lines 337-414) of user `u` starts and `st'` the state in which it
ends.  For every touched entry `j` (training or probe) whose item `m` no
other touched entry of the user names: if the five values
`1./(1 + exp(..))` computed for `m` do not sum to zero, then
`negvisprobs[m][0..4]` sum to 1 in `st'`, and if they sum to zero they are
left as they are; at step 0 the same holds for `nvp2[m][0..4]`. -/
theorem reconstruction_normalised (cfg : Env α) (u stepT : Nat) (fin : Bool)
    (st : State α) (j : Nat) (hj : j < cfg.UNTRAIN u + cfg.useridx u 2)
    (hdist : ∀ i, i < cfg.UNTRAIN u + cfg.useridx u 2 → i ≠ j →
      entMovie cfg (cfg.useridx u 0 + i) ≠ entMovie cfg (cfg.useridx u 0 + j)) :
    (rowSum (rawNeg cfg st) (entMovie cfg (cfg.useridx u 0 + j)) ≠ 0 →
      rowSum (forLoop (cfg.UNTRAIN u + cfg.useridx u 2)
        (visReconStep cfg u stepT fin) st).negvisprobs
        (entMovie cfg (cfg.useridx u 0 + j)) = 1)
    ∧ (rowSum (rawNeg cfg st) (entMovie cfg (cfg.useridx u 0 + j)) = 0 →
      ∀ c, c < SOFTMAX →
        (forLoop (cfg.UNTRAIN u + cfg.useridx u 2)
          (visReconStep cfg u stepT fin) st).negvisprobs
          (entMovie cfg (cfg.useridx u 0 + j)) c
          = rawNeg cfg st (entMovie cfg (cfg.useridx u 0 + j)) c)
    ∧ (stepT = 0 →
      (rowSum (rawNvp cfg st) (entMovie cfg (cfg.useridx u 0 + j)) ≠ 0 →
        rowSum (forLoop (cfg.UNTRAIN u + cfg.useridx u 2)
          (visReconStep cfg u stepT fin) st).nvp2
          (entMovie cfg (cfg.useridx u 0 + j)) = 1)
      ∧ (rowSum (rawNvp cfg st) (entMovie cfg (cfg.useridx u 0 + j)) = 0 →
        ∀ c, c < SOFTMAX →
          (forLoop (cfg.UNTRAIN u + cfg.useridx u 2)
            (visReconStep cfg u stepT fin) st).nvp2
            (entMovie cfg (cfg.useridx u 0 + j)) c
            = rawNvp cfg st (entMovie cfg (cfg.useridx u 0 + j)) c)) := by
  obtain ⟨t, ht, hfin⟩ := forLoop_at_exists
    (fun s : State α => (s.negvisprobs (entMovie cfg (cfg.useridx u 0 + j)),
      s.nvp2 (entMovie cfg (cfg.useridx u 0 + j)), reconInputs s))
    j (cfg.UNTRAIN u + cfg.useridx u 2) (visReconStep cfg u stepT fin) st hj
    (by
      intro i hi hij s
      have hrow := visReconStep_other_row cfg u stepT fin i
        (entMovie cfg (cfg.useridx u 0 + j)) (hdist i hi hij) s
      simp only [hrow.1, hrow.2, visReconStep_inputs])
  have ht1 : t.negvisprobs (entMovie cfg (cfg.useridx u 0 + j))
      = st.negvisprobs (entMovie cfg (cfg.useridx u 0 + j)) := congrArg (fun o => o.1) ht
  have ht2 : t.nvp2 (entMovie cfg (cfg.useridx u 0 + j))
      = st.nvp2 (entMovie cfg (cfg.useridx u 0 + j)) := congrArg (fun o => o.2.1) ht
  have ht3 : reconInputs t = reconInputs st := congrArg (fun o => o.2.2) ht
  have hf1 : (forLoop (cfg.UNTRAIN u + cfg.useridx u 2)
      (visReconStep cfg u stepT fin) st).negvisprobs (entMovie cfg (cfg.useridx u 0 + j))
      = (visReconStep cfg u stepT fin j t).negvisprobs (entMovie cfg (cfg.useridx u 0 + j)) :=
    congrArg (fun o => o.1) hfin
  have hf2 : (forLoop (cfg.UNTRAIN u + cfg.useridx u 2)
      (visReconStep cfg u stepT fin) st).nvp2 (entMovie cfg (cfg.useridx u 0 + j))
      = (visReconStep cfg u stepT fin j t).nvp2 (entMovie cfg (cfg.useridx u 0 + j)) :=
    congrArg (fun o => o.2.1) hfin
  have hr1 := rawNeg_congr cfg st t _ ht1 ht3
  have hr2 := rawNvp_congr cfg st t _ ht2 ht3
  have hs1 := rowSum_congr (rawNeg cfg t) (rawNeg cfg st) _ hr1
  have hs2 := rowSum_congr (rawNvp cfg t) (rawNvp cfg st) _ hr2
  have hneg := visReconStep_neg_row cfg u stepT fin j t
  rw [hs1] at hneg
  refine ⟨?_, ?_, ?_⟩
  · intro hsum
    rw [rowSum_congr _ _ _ hf1]
    exact hneg.1 hsum
  · intro hsum c hc
    rw [hf1, ← hr1]
    exact hneg.2 hsum c hc
  · intro h0
    subst h0
    have hnvp := visReconStep_nvp_row cfg u fin j t
    rw [hs2] at hnvp
    refine ⟨?_, ?_⟩
    · intro hsum
      rw [rowSum_congr _ _ _ hf2]
      exact hnvp.1 hsum
    · intro hsum c hc
      rw [hf2, ← hr2]
      exact hnvp.2 hsum c hc

theorem exEnv_rawNeg_pos (st : State ℚ) (m c : Nat) : 0 < rawNeg exEnv st m c := by
  unfold rawNeg
  simp only [exEnv]
  positivity

theorem exEnv_rawNvp_pos (st : State ℚ) (m c : Nat) : 0 < rawNvp exEnv st m c := by
  unfold rawNvp
  simp only [exEnv]
  positivity

/-- Witness of `reconstruction_normalised`: the first Gibbs step of the user
of `exEnv`, whose three entries name the items 0, 1 and 2; entry 1 (item 1). -/
theorem reconstruction_normalised_witness :
    rowSum (forLoop (exEnv.UNTRAIN 0 + exEnv.useridx 0 2)
        (visReconStep exEnv 0 0 true) exWeights).negvisprobs
        (entMovie exEnv (exEnv.useridx 0 0 + 1)) = 1
      ∧ rowSum (forLoop (exEnv.UNTRAIN 0 + exEnv.useridx 0 2)
        (visReconStep exEnv 0 0 true) exWeights).nvp2
        (entMovie exEnv (exEnv.useridx 0 0 + 1)) = 1 := by
  have hw := reconstruction_normalised exEnv 0 0 true exWeights 1 (by decide) (by decide)
  have h1 : rowSum (rawNeg exEnv exWeights) (entMovie exEnv (exEnv.useridx 0 0 + 1)) ≠ 0 := by
    unfold rowSum
    have := exEnv_rawNeg_pos exWeights (entMovie exEnv (exEnv.useridx 0 0 + 1))
    exact ne_of_gt (by linarith [this 0, this 1, this 2, this 3, this 4])
  have h2 : rowSum (rawNvp exEnv exWeights) (entMovie exEnv (exEnv.useridx 0 0 + 1)) ≠ 0 := by
    unfold rowSum
    have := exEnv_rawNvp_pos exWeights (entMovie exEnv (exEnv.useridx 0 0 + 1))
    exact ne_of_gt (by linarith [this 0, this 1, this 2, this 3, this 4])
  exact ⟨hw.1 h1, (hw.2.2 rfl).1 h2⟩

/-! ## Variables that the Gibbs chain leaves alone -/

theorem addWeights_chain (cfg : Env α) (m r : Nat) (st : State α) :
    chainKeep (addWeights cfg m r st) = chainKeep st := by
  unfold addWeights
  apply forLoop_keep
  intro i _ t
  rfl

theorem visAccumStep_chain (m stepT h : Nat) (st : State α) :
    chainKeep (visAccumStep m stepT h st) = chainKeep st := by
  unfold visAccumStep
  simp only
  split_ifs
  · rw [forLoop_keep chainKeep, forLoop_keep chainKeep]
    all_goals intro i _ t; rfl
  · rw [forLoop_keep chainKeep]
    intro i _ t; rfl
  · rw [forLoop_keep chainKeep]
    intro i _ t; rfl
  · rfl

theorem visReconStep_chain (cfg : Env α) (u stepT : Nat) (fin : Bool) (j : Nat)
    (st : State α) :
    chainKeep (visReconStep cfg u stepT fin j st) = chainKeep st := by
  have hacc := forLoop_keep chainKeep cfg.TOTAL_FEATURES
    (visAccumStep (entMovie cfg (cfg.useridx u 0 + j)) stepT) st
    (fun i _ t => visAccumStep_chain _ stepT i t)
  unfold visReconStep drawNext
  simp only
  split_ifs <;> exact hacc

theorem negHiddenStep_chain (cfg : Env α) (fin : Bool) (h : Nat) (st : State α) :
    chainKeep (negHiddenStep cfg fin h st) = chainKeep st := by
  unfold negHiddenStep drawNext
  simp only
  split_ifs <;> rfl

theorem errAccum_chain (cfg : Env α) (u : Nat) (st : State α) :
    chainKeep (errAccum cfg u st) = chainKeep st := by
  unfold errAccum
  simp only
  have h1 := forLoop_keep chainKeep (cfg.UNTRAIN u) (trainErrStep cfg u) st (fun i _ t => rfl)
  have h2 : ∀ t : State α, chainKeep (forLoop (cfg.useridx u 2)
      (probeErrStep cfg (cfg.useridx u 0 + cfg.useridx u 1)) t) = chainKeep t :=
    fun t => forLoop_keep chainKeep _ _ t (fun i _ t' => rfl)
  exact (h2 _).trans h1

theorem carryHidden_chain (cfg : Env α) (st : State α) :
    chainKeep (carryHidden cfg st) = chainKeep st := by
  unfold carryHidden
  exact forLoop_keep chainKeep _ _ st (fun i _ t => rfl)

theorem gibbsStep_chain (cfg : Env α) (u stepT : Nat) (st : State α) :
    chainKeep (gibbsStep cfg u stepT st) = chainKeep st := by
  have h1 : ∀ (fin : Bool) (t : State α), chainKeep (forLoop (cfg.UNTRAIN u + cfg.useridx u 2)
      (visReconStep cfg u stepT fin) t) = chainKeep t :=
    fun fin t => forLoop_keep chainKeep _ _ t
      (fun i _ t' => visReconStep_chain cfg u stepT fin i t')
  have h2 : ∀ t : State α,
      chainKeep (forLoop (cfg.UNTRAIN u) (negSumStep cfg u) t) = chainKeep t :=
    fun t => forLoop_keep chainKeep _ _ t (fun i _ t' => addWeights_chain cfg _ _ t')
  have h3 : ∀ (fin : Bool) (t : State α), chainKeep (forLoop cfg.TOTAL_FEATURES
      (negHiddenStep cfg fin) t) = chainKeep t :=
    fun fin t => forLoop_keep chainKeep _ _ t (fun i _ t' => negHiddenStep_chain cfg fin i t')
  have hcore : chainKeep (forLoop cfg.TOTAL_FEATURES
      (negHiddenStep cfg (decide (stepT + 1 ≥ st.tSteps)))
      (forLoop (cfg.UNTRAIN u) (negSumStep cfg u)
        { forLoop (cfg.UNTRAIN u + cfg.useridx u 2)
            (visReconStep cfg u stepT (decide (stepT + 1 ≥ st.tSteps))) st with
          sumW := fun _ => 0 })) = chainKeep st := by
    rw [h3, h2]
    exact h1 _ st
  unfold gibbsStep
  simp only
  split_ifs
  all_goals
    first
    | exact hcore
    | (rw [carryHidden_chain, errAccum_chain]; exact hcore)
    | (rw [errAccum_chain]; exact hcore)
    | (rw [carryHidden_chain]; exact hcore)

/-- The whole Gibbs chain of a user leaves the `chainKeep` variables alone. -/
theorem gibbsLoop_chain (cfg : Env α) (u tSteps stepT : Nat) (st : State α) :
    chainKeep (doWhile (gibbsStep cfg u) tSteps stepT st) = chainKeep st :=
  doWhile_keep chainKeep _ _ (fun i t => gibbsStep_chain cfg u i t) _ _ _ rfl

/-! ## The observation count of an item -/

theorem posAccumStep_moviecount (cfg : Env α) (u j m : Nat) (st : State α) :
    (posAccumStep cfg u j st).moviecount m
      = st.moviecount m + (if entMovie cfg (cfg.useridx u 0 + j) = m then 1 else 0) := by
  unfold posAccumStep
  simp only
  rw [show ∀ (a b : Nat) (t : State α), (addWeights cfg a b t).moviecount = t.moviecount from
    fun a b t => congrArg (fun o => o.2.2.2.2.2.2.2.1) (addWeights_chain cfg a b t)]
  by_cases hm : entMovie cfg (cfg.useridx u 0 + j) = m
  · simp [upd1, hm]
  · have hm' : ¬ m = entMovie cfg (cfg.useridx u 0 + j) := fun hx => hm hx.symm
    simp [upd1, hm, hm']

theorem posPhase_moviecount (cfg : Env α) (u m : Nat) (st : State α) :
    (posPhase cfg u st).moviecount m = st.moviecount m + trainCount cfg u m := by
  unfold posPhase trainCount
  simp only
  exact forLoop_sum (fun s : State α => s.moviecount m) (fun _ => ()) 
    (fun _ j => if entMovie cfg (cfg.useridx u 0 + j) = m then 1 else 0)
    (cfg.UNTRAIN u) (posAccumStep cfg u) _
    (fun j t => posAccumStep_moviecount cfg u j m t) (fun _ _ => rfl)

/-- Processing a user adds to `moviecount[m]` the number of the user's
training entries that name `m`. -/
theorem processUser_moviecount (cfg : Env α) (u m : Nat) (st : State α) :
    (processUser cfg u st).moviecount m = st.moviecount m + trainCount cfg u m := by
  have hcd : ∀ t : State α,
      (forLoop (cfg.UNTRAIN u) (cdAccumStep cfg u) t).moviecount = t.moviecount := by
    intro t
    apply forLoop_keep (fun s : State α => s.moviecount)
    intro j _ t'
    unfold cdAccumStep
    apply forLoop_keep (fun s : State α => s.moviecount)
    intro h _ t''
    unfold cdCell
    simp only
    split_ifs <;> rfl
  have hgibbs : ∀ (k : Nat) (t : State α),
      (doWhile (gibbsStep cfg u) k 0 t).moviecount = t.moviecount :=
    fun k t => congrArg (fun o => o.2.2.2.2.2.2.2.1) (gibbsLoop_chain cfg u k 0 t)
  have hcopy : ∀ t : State α,
      (forLoop cfg.TOTAL_FEATURES (fun h s =>
        { s with curposhidstates := upd1 s.curposhidstates h (s.poshidstates h) })
        t).moviecount = t.moviecount :=
    fun t => forLoop_keep (fun s : State α => s.moviecount) _ _ t (fun _ _ _ => rfl)
  have hhid : ∀ t : State α,
      (forLoop cfg.TOTAL_FEATURES (posHiddenStep cfg) t).moviecount = t.moviecount := by
    intro t
    apply forLoop_keep (fun s : State α => s.moviecount)
    intro h _ t'
    unfold posHiddenStep drawNext
    simp only
    split_ifs <;> rfl
  unfold processUser
  simp only
  rw [hcd, hgibbs, hcopy, hhid, posPhase_moviecount]

/-! ## C10: items not observed in the batch -/

theorem miniBatch_unobserved (cfg : Env α) (u m : Nat) (st : State α)
    (hcnt : st.moviecount m = 0) (c h : Nat) :
    (miniBatchUpdate cfg u st).vishid m c h = st.vishid m c h
      ∧ (miniBatchUpdate cfg u st).CDinc m c h = st.CDinc m c h
      ∧ (miniBatchUpdate cfg u st).visbiases m c = st.visbiases m c
      ∧ (miniBatchUpdate cfg u st).visbiasinc m c = st.visbiasinc m c := by
  obtain ⟨hi, hv⟩ := miniBatch_weight cfg u m c h st
  obtain ⟨hbi, hbv⟩ := miniBatch_vis cfg u m c st
  have h1 : (weightObs m c h st).cnt = 0 := hcnt
  have h2 : (visObs m c st).cnt = 0 := hcnt
  simp only [movieWeightNew, if_pos h1, ite_self] at hi hv
  simp only [movieVisNew, if_pos h2, ite_self] at hbi hbv
  exact ⟨hv, hi, hbv, hbi⟩

/-- An item that no training entry of the users of a window names has
`moviecount` zero throughout the window. -/
theorem window_moviecount_zero (cfg : Env α) (st : State α) (u m : Nat)
    (hu : u < cfg.NUSERS)
    (hun : ∀ u', u - u % bsize ≤ u' → u' ≤ u → trainCount cfg u' m = 0) :
    ∀ k, k ≤ u % bsize → (beforeUser cfg st (u - u % bsize + k)).moviecount m = 0 := by
  intro k
  induction k with
  | zero =>
    intro _
    have hstart : u - u % bsize = 0 ∨ (0 < u - u % bsize ∧ batchEnd cfg (u - u % bsize - 1)) := by
      unfold batchEnd bsize
      by_cases h0 : u - u % 100 = 0
      · exact Or.inl h0
      · right
        refine ⟨by omega, Or.inl ?_⟩
        omega
    exact (beforeUser_accumZero cfg st _ hstart).2.2.2.2.2.2 m
  | succ j ih =>
    intro hk
    have hj : (beforeUser cfg st (u - u % bsize + j)).moviecount m = 0 := ih (by omega)
    have hnb : ¬ batchEnd cfg (u - u % bsize + j) := by
      unfold batchEnd
      unfold bsize at hk ⊢
      intro hb
      rcases hb with hb | hb
      · omega
      · omega
    have hstep : beforeUser cfg st (u - u % bsize + (j + 1))
        = userStep cfg (u - u % bsize + j) (beforeUser cfg st (u - u % bsize + j)) := rfl
    rw [hstep]
    unfold userStep
    simp only [if_neg hnb]
    rw [processUser_moviecount, hj, hun _ (by omega) (by
      have := Nat.mod_le u bsize
      omega)]

/-- C10: a mini-batch update leaves `vishid[m][*][*]`, `CDinc[m][*][*]`,
`visbiases[m][*]` and `visbiasinc[m][*]` unchanged for every item `m` with
`moviecount[m] = 0`; and in an epoch, when the update after user `u` runs,
`moviecount[m] = 0` holds for every item `m` that no training entry of the
users `u - u % 100, .., u` of the current mini-batch names, so the update
leaves these entries of `m` unchanged. -/
theorem unobserved_item_unchanged (cfg : Env α) (u m : Nat) :
    (∀ st : State α, st.moviecount m = 0 → ∀ c h : Nat,
      (miniBatchUpdate cfg u st).vishid m c h = st.vishid m c h
      ∧ (miniBatchUpdate cfg u st).CDinc m c h = st.CDinc m c h
      ∧ (miniBatchUpdate cfg u st).visbiases m c = st.visbiases m c
      ∧ (miniBatchUpdate cfg u st).visbiasinc m c = st.visbiasinc m c)
    ∧ (∀ st : State α, u < cfg.NUSERS → batchEnd cfg u →
      (∀ u', u - u % bsize ≤ u' → u' ≤ u → ∀ j, j < cfg.UNTRAIN u' →
        entMovie cfg (cfg.useridx u' 0 + j) ≠ m) →
      beforeUser cfg st (u + 1) = miniBatchUpdate cfg u (processUser cfg u (beforeUser cfg st u))
      ∧ (processUser cfg u (beforeUser cfg st u)).moviecount m = 0
      ∧ ∀ c h : Nat,
        (beforeUser cfg st (u + 1)).vishid m c h
            = (processUser cfg u (beforeUser cfg st u)).vishid m c h
        ∧ (beforeUser cfg st (u + 1)).CDinc m c h
            = (processUser cfg u (beforeUser cfg st u)).CDinc m c h
        ∧ (beforeUser cfg st (u + 1)).visbiases m c
            = (processUser cfg u (beforeUser cfg st u)).visbiases m c
        ∧ (beforeUser cfg st (u + 1)).visbiasinc m c
            = (processUser cfg u (beforeUser cfg st u)).visbiasinc m c) := by
  refine ⟨fun st hcnt c h => miniBatch_unobserved cfg u m st hcnt c h, ?_⟩
  intro st hu hend hun
  have hcount : ∀ u', u - u % bsize ≤ u' → u' ≤ u → trainCount cfg u' m = 0 := by
    intro u' h1 h2
    unfold trainCount
    apply Finset.sum_eq_zero
    intro j hj
    rw [if_neg (hun u' h1 h2 j (Finset.mem_range.mp hj))]
  have hbefore := window_moviecount_zero cfg st u m hu hcount (u % bsize) (le_refl _)
  have hidx : u - u % bsize + u % bsize = u := Nat.sub_add_cancel (Nat.mod_le u bsize)
  rw [hidx] at hbefore
  have hzero : (processUser cfg u (beforeUser cfg st u)).moviecount m = 0 := by
    rw [processUser_moviecount, hbefore, hcount u (Nat.sub_le _ _) (le_refl u)]
  have hstep : beforeUser cfg st (u + 1)
      = miniBatchUpdate cfg u (processUser cfg u (beforeUser cfg st u)) := by
    rw [beforeUser_succ]
    unfold userStep
    simp only [if_pos hend]
  refine ⟨hstep, hzero, ?_⟩
  intro c h
  rw [hstep]
  exact miniBatch_unobserved cfg u m _ hzero c h

/-- Witness of `unobserved_item_unchanged`: item 2 of `exEnv`, which occurs
only in the probe segment of the one user, and has `moviecount = 0` in
`exBatch`. -/
theorem unobserved_item_unchanged_witness :
    ((miniBatchUpdate exEnv 0 exBatch).vishid 2 4 1 = 1 / 100
      ∧ (miniBatchUpdate exEnv 0 exBatch).CDinc 2 4 1 = 1 / 1000
      ∧ (miniBatchUpdate exEnv 0 exBatch).visbiases 2 4 = 0
      ∧ (miniBatchUpdate exEnv 0 exBatch).visbiasinc 2 4 = 1 / 100)
    ∧ (processUser exEnv 0 (beforeUser exEnv exBatch 0)).moviecount 2 = 0
    ∧ (beforeUser exEnv exBatch 1).vishid 2 4 1
        = (processUser exEnv 0 (beforeUser exEnv exBatch 0)).vishid 2 4 1 := by
  have hw := unobserved_item_unchanged exEnv 0 2
  have h1 := hw.1 exBatch (by decide) 4 1
  have h2 := hw.2 exBatch (by decide) (by decide) (by
    intro u' _ hle j hj
    have hu0 : u' = 0 := by omega
    subst hu0
    have hj2 : j < 2 := hj
    interval_cases j <;> decide)
  refine ⟨⟨?_, ?_, ?_, ?_⟩, h2.2.1, (h2.2.2 4 1).1⟩
  · rw [h1.1]; simp [exBatch]
  · rw [h1.2.1]; simp [exBatch]
  · rw [h1.2.2.1]; simp [exBatch, zeroState]
  · rw [h1.2.2.2]; simp [exBatch]

/-! ## The Gibbs chain as a counted loop -/

theorem doWhile_from (body : Nat → σ → σ) (T : Nat) :
    ∀ (n k : Nat) (s : σ), T - k = n → k < T →
      doWhile body T k (forLoop k body s) = forLoop T body s := by
  intro n
  induction n with
  | zero => intro k s h1 h2; omega
  | succ j ih =>
    intro k s h1 h2
    rw [doWhile]
    by_cases hlt : k + 1 < T
    · simp only [if_pos hlt]
      exact ih (k + 1) s (by omega) hlt
    · simp only [if_neg hlt]
      have hT : T = k + 1 := by omega
      rw [hT, forLoop_succ]

/-- The loop `do { body(stepT) } while (++stepT < tSteps)` entered with
`stepT = 0` runs the body for `stepT = 0, .., tSteps - 1` (once when
`tSteps` is 0). -/
theorem doWhile_eq_forLoop (body : Nat → σ → σ) (T : Nat) (s : σ) :
    doWhile body T 0 s = forLoop (max T 1) body s := by
  by_cases hT : 0 < T
  · have h := doWhile_from body T T 0 s (by omega) hT
    have hmax : max T 1 = T := by omega
    rw [hmax]
    exact h
  · have hT0 : T = 0 := by omega
    subst hT0
    rw [doWhile]
    simp [forLoop]

theorem prePhase_ctl (cfg : Env α) (u : Nat) (st : State α) :
    ctlObs (prePhase cfg u st) = ctlObs st := by
  unfold prePhase
  simp only
  rw [forLoop_keep ctlObs,
    forLoop_keep ctlObs _ _ _ (fun i _ t => posHiddenStep_ctl cfg i t), posPhase_ctl]
  intro i _ t; rfl

/-- The processing of a user: positive phase, then the Gibbs steps
`0, .., tSteps - 1`, then the accumulation of `CDpos` and `CDneg`. -/
theorem processUser_eq (cfg : Env α) (u : Nat) (st : State α) :
    processUser cfg u st
      = forLoop (cfg.UNTRAIN u) (cdAccumStep cfg u)
          (forLoop (max st.tSteps 1) (gibbsStep cfg u) (prePhase cfg u st)) := by
  have ht : (prePhase cfg u st).tSteps = st.tSteps :=
    congrArg Ctl.tSteps (prePhase_ctl cfg u st)
  rw [← doWhile_eq_forLoop, ← ht]
  rfl

/-! ## C11, C12, C13: the schedules of the epochs -/

theorem afterEpochs_succ (cfg : Env α) (st : State α) (e : Nat) :
    afterEpochs cfg st (e + 1) = epochBody cfg (afterEpochs cfg st e) := by
  unfold afterEpochs
  rw [Function.iterate_succ_apply']

theorem afterEpochs_loopcount (cfg : Env α) (st : State α) (e : Nat) :
    (afterEpochs cfg st e).loopcount = e := by
  unfold afterEpochs
  rw [iterate_loopcount, initParams_loopcount]
  omega

theorem decayRates_keep (cfg : Env α) (st : State α) :
    (decayRates cfg st).tSteps = st.tSteps ∧ (decayRates cfg st).Momentum = st.Momentum := by
  unfold decayRates
  simp only
  split_ifs <;> exact ⟨rfl, rfl⟩

theorem epochStart_ctl (st : State α) :
    (epochStart st).tSteps = (if st.loopcount ≥ 10 then 3 + (st.loopcount - 10) / 5
        else st.tSteps)
      ∧ (epochStart st).Momentum = (if st.loopcount + 1 > 5 then finalmomentum
        else st.Momentum)
      ∧ (epochStart st).EpsilonW = st.EpsilonW
      ∧ (epochStart st).EpsilonVB = st.EpsilonVB
      ∧ (epochStart st).EpsilonHB = st.EpsilonHB := by
  unfold epochStart setSteps setMomentum
  simp only
  split_ifs <;> exact ⟨rfl, rfl, rfl, rfl, rfl⟩

/-- Every state of the user loop of an epoch has the control variables that
the statements before the loop leave. -/
theorem beforeUser_ctl (cfg : Env α) (st : State α) (u : Nat) :
    ctlObs (beforeUser cfg st u) = ctlObs (epochStart st) :=
  userLoop_ctl cfg u (epochStart st)

theorem epochBody_steps (cfg : Env α) (st : State α) :
    (epochBody cfg st).tSteps = (epochStart st).tSteps
      ∧ (epochBody cfg st).Momentum = (epochStart st).Momentum := by
  have hctl := userLoop_ctl cfg cfg.NUSERS (epochStart st)
  have h1 := congrArg Ctl.tSteps hctl
  have h2 := congrArg Ctl.Momentum hctl
  unfold epochBody
  simp only
  rw [(decayRates_keep cfg _).1, (decayRates_keep cfg _).2]
  exact ⟨h1, h2⟩

theorem afterEpochs_tSteps (cfg : Env α) (st : State α) (e : Nat) :
    (afterEpochs cfg st e).tSteps = if e ≤ 10 then 1 else 3 + (e - 11) / 5 := by
  induction e with
  | zero => rfl
  | succ k ih =>
    rw [afterEpochs_succ, (epochBody_steps cfg _).1, (epochStart_ctl _).1,
      afterEpochs_loopcount, ih]
    split_ifs <;> first | rfl | omega

theorem afterEpochs_Momentum (cfg : Env α) (st : State α) (e : Nat) :
    (afterEpochs cfg st e).Momentum = if e ≤ 5 then momentum else finalmomentum := by
  induction e with
  | zero => rfl
  | succ k ih =>
    rw [afterEpochs_succ, (epochBody_steps cfg _).2, (epochStart_ctl _).2.1,
      afterEpochs_loopcount, ih]
    split_ifs <;> first | rfl | omega

/-- C11: in the epoch with 0-based index `e`, every user `u` is processed in
a state whose `tSteps` is 1 when `e < 10` and `3 + (e - 10) / 5` when
`e ≥ 10`, and the Gibbs chain of the user consists of exactly that many
steps, each of them run with that value of `tSteps`. -/
theorem sampling_depth_schedule (cfg : Env α) (st : State α) (e u : Nat) :
    (beforeUser cfg (afterEpochs cfg st e) u).tSteps
        = (if e < 10 then 1 else 3 + (e - 10) / 5)
      ∧ processUser cfg u (beforeUser cfg (afterEpochs cfg st e) u)
        = forLoop (cfg.UNTRAIN u) (cdAccumStep cfg u)
            (forLoop (if e < 10 then 1 else 3 + (e - 10) / 5) (gibbsStep cfg u)
              (prePhase cfg u (beforeUser cfg (afterEpochs cfg st e) u)))
      ∧ ∀ k, (forLoop k (gibbsStep cfg u)
            (prePhase cfg u (beforeUser cfg (afterEpochs cfg st e) u))).tSteps
          = (if e < 10 then 1 else 3 + (e - 10) / 5) := by
  have ht : (beforeUser cfg (afterEpochs cfg st e) u).tSteps
      = (if e < 10 then 1 else 3 + (e - 10) / 5) := by
    have h1 := congrArg Ctl.tSteps (beforeUser_ctl cfg (afterEpochs cfg st e) u)
    have h2 : (beforeUser cfg (afterEpochs cfg st e) u).tSteps
        = (epochStart (afterEpochs cfg st e)).tSteps := h1
    rw [h2, (epochStart_ctl _).1, afterEpochs_loopcount, afterEpochs_tSteps]
    split_ifs <;> first | rfl | omega
  refine ⟨ht, ?_, ?_⟩
  · rw [processUser_eq, ht]
    have hmax : max (if e < 10 then 1 else 3 + (e - 10) / 5) 1
        = (if e < 10 then 1 else 3 + (e - 10) / 5) := by
      split_ifs <;> omega
    rw [hmax]
  · intro k
    have h1 := forLoop_keep ctlObs k (gibbsStep cfg u)
      (prePhase cfg u (beforeUser cfg (afterEpochs cfg st e) u))
      (fun i _ t => gibbsStep_ctl cfg u i t)
    have h2 := congrArg Ctl.tSteps (h1.trans (prePhase_ctl cfg u _))
    exact h2.trans ht

theorem momentum_values : (momentum : α) = 8 / 10 ∧ (finalmomentum : α) = 9 / 10 := by
  unfold momentum finalmomentum
  constructor <;> norm_num

/-- C12: in the `n`-th epoch (`n = e + 1` counted from 1) the mini-batch
update after any user `u` runs in a state whose `Momentum` is `momentum`
(0.8) when `n ≤ 5` and `finalmomentum` (0.9) when `n > 5`. -/
theorem momentum_schedule (cfg : Env α) (st : State α) (e u : Nat) :
    (processUser cfg u (beforeUser cfg (afterEpochs cfg st e) u)).Momentum
        = (if e + 1 ≤ 5 then momentum else finalmomentum)
      ∧ (momentum : α) = 8 / 10 ∧ (finalmomentum : α) = 9 / 10 := by
  refine ⟨?_, momentum_values.1, momentum_values.2⟩
  have h1 := congrArg Ctl.Momentum
    ((processUser_ctl cfg u _).trans (beforeUser_ctl cfg (afterEpochs cfg st e) u))
  have h2 : (processUser cfg u (beforeUser cfg (afterEpochs cfg st e) u)).Momentum
      = (epochStart (afterEpochs cfg st e)).Momentum := h1
  rw [h2, (epochStart_ctl _).2.1, afterEpochs_loopcount, afterEpochs_Momentum]
  split_ifs <;> first | rfl | omega

theorem decayRates_rates (cfg : Env α) (st : State α) :
    (decayRates cfg st).EpsilonW
        = st.EpsilonW * (if cfg.TOTAL_FEATURES = 200 then statedFactor200 st.loopcount
            else statedFactor100 st.loopcount)
      ∧ (decayRates cfg st).EpsilonVB
        = st.EpsilonVB * (if cfg.TOTAL_FEATURES = 200 then statedFactor200 st.loopcount
            else statedFactor100 st.loopcount)
      ∧ (decayRates cfg st).EpsilonHB
        = st.EpsilonHB * (if cfg.TOTAL_FEATURES = 200 then statedFactor200 st.loopcount
            else statedFactor100 st.loopcount) := by
  unfold decayRates statedFactor200 statedFactor100
  simp only
  split_ifs <;>
    first
    | exact ⟨rfl, rfl, rfl⟩
    | exact ⟨(mul_one _).symm, (mul_one _).symm, (mul_one _).symm⟩
    | (exfalso; omega)

theorem epochBody_rates (cfg : Env α) (st : State α) :
    (epochBody cfg st).EpsilonW
        = st.EpsilonW * (if cfg.TOTAL_FEATURES = 200 then statedFactor200 (st.loopcount + 1)
            else statedFactor100 (st.loopcount + 1))
      ∧ (epochBody cfg st).EpsilonVB
        = st.EpsilonVB * (if cfg.TOTAL_FEATURES = 200 then statedFactor200 (st.loopcount + 1)
            else statedFactor100 (st.loopcount + 1))
      ∧ (epochBody cfg st).EpsilonHB
        = st.EpsilonHB * (if cfg.TOTAL_FEATURES = 200 then statedFactor200 (st.loopcount + 1)
            else statedFactor100 (st.loopcount + 1)) := by
  have hctl := userLoop_ctl cfg cfg.NUSERS (epochStart st)
  have hl : (forLoop cfg.NUSERS (userStep cfg) (epochStart st)).loopcount = st.loopcount + 1 :=
    (congrArg Ctl.loopcount hctl).trans (epochStart_loopcount st).1
  have hw : (forLoop cfg.NUSERS (userStep cfg) (epochStart st)).EpsilonW = st.EpsilonW :=
    (congrArg Ctl.EpsilonW hctl).trans (epochStart_ctl st).2.2.1
  have hvb : (forLoop cfg.NUSERS (userStep cfg) (epochStart st)).EpsilonVB = st.EpsilonVB :=
    (congrArg Ctl.EpsilonVB hctl).trans (epochStart_ctl st).2.2.2.1
  have hhb : (forLoop cfg.NUSERS (userStep cfg) (epochStart st)).EpsilonHB = st.EpsilonHB :=
    (congrArg Ctl.EpsilonHB hctl).trans (epochStart_ctl st).2.2.2.2
  have key : ∀ X : State α, X.loopcount = st.loopcount + 1 → X.EpsilonW = st.EpsilonW →
      X.EpsilonVB = st.EpsilonVB → X.EpsilonHB = st.EpsilonHB →
      (decayRates cfg X).EpsilonW
          = st.EpsilonW * (if cfg.TOTAL_FEATURES = 200 then statedFactor200 (st.loopcount + 1)
              else statedFactor100 (st.loopcount + 1))
        ∧ (decayRates cfg X).EpsilonVB
          = st.EpsilonVB * (if cfg.TOTAL_FEATURES = 200 then statedFactor200 (st.loopcount + 1)
              else statedFactor100 (st.loopcount + 1))
        ∧ (decayRates cfg X).EpsilonHB
          = st.EpsilonHB * (if cfg.TOTAL_FEATURES = 200 then statedFactor200 (st.loopcount + 1)
              else statedFactor100 (st.loopcount + 1)) := by
    intro X h1 h2 h3 h4
    have hd := decayRates_rates cfg X
    rw [h1, h2, h3, h4] at hd
    exact hd
  unfold epochBody
  exact key _ hl hw hvb hhb

theorem afterEpochs_ratio (cfg : Env α) (st : State α) (e : Nat) :
    (afterEpochs cfg st e).EpsilonVB = 8 * (afterEpochs cfg st e).EpsilonW
      ∧ (afterEpochs cfg st e).EpsilonHB = 0.6 * (afterEpochs cfg st e).EpsilonW := by
  induction e with
  | zero =>
    have h1 : (afterEpochs cfg st 0).EpsilonW = epsilonw := rfl
    have h2 : (afterEpochs cfg st 0).EpsilonVB = epsilonvb := rfl
    have h3 : (afterEpochs cfg st 0).EpsilonHB = epsilonhb := rfl
    rw [h1, h2, h3]
    unfold epsilonw epsilonvb epsilonhb
    constructor <;> norm_num
  | succ k ih =>
    rw [afterEpochs_succ, (epochBody_rates cfg _).1, (epochBody_rates cfg _).2.1,
      (epochBody_rates cfg _).2.2, ih.1, ih.2]
    constructor <;> ring

/-- C13: at the end of every epoch the three learning rates are multiplied
by one common factor, and they do not change inside an epoch; so in every
epoch `EpsilonVB = 8 * EpsilonW` and `EpsilonHB = 0.6 * EpsilonW`.  With 100
hidden units the factor after the `n`-th epoch (`n = e + 1`) is 1 for
`n ≤ 2`, 0.78 for `3 ≤ n ≤ 6`, 0.90 for `7 ≤ n ≤ 8` and 0.92 for `n ≥ 9`;
with 200 hidden units it is 1 for `n ≤ 2`, 0.70 for `3 ≤ n ≤ 5`, 0.50 for
`n = 6` and 0.90 for `n ≥ 7`. -/
theorem learning_rate_decay (cfg : Env α) (st : State α) (e : Nat) :
    ((afterEpochs cfg st e).EpsilonVB = 8 * (afterEpochs cfg st e).EpsilonW
      ∧ (afterEpochs cfg st e).EpsilonHB = 0.6 * (afterEpochs cfg st e).EpsilonW)
    ∧ (∀ u,
        (processUser cfg u (beforeUser cfg (afterEpochs cfg st e) u)).EpsilonW
          = (afterEpochs cfg st e).EpsilonW
        ∧ (processUser cfg u (beforeUser cfg (afterEpochs cfg st e) u)).EpsilonVB
          = (afterEpochs cfg st e).EpsilonVB
        ∧ (processUser cfg u (beforeUser cfg (afterEpochs cfg st e) u)).EpsilonHB
          = (afterEpochs cfg st e).EpsilonHB)
    ∧ (cfg.TOTAL_FEATURES = 100 →
        (afterEpochs cfg st (e + 1)).EpsilonW
          = (afterEpochs cfg st e).EpsilonW * statedFactor100 (e + 1)
        ∧ (afterEpochs cfg st (e + 1)).EpsilonVB
          = (afterEpochs cfg st e).EpsilonVB * statedFactor100 (e + 1)
        ∧ (afterEpochs cfg st (e + 1)).EpsilonHB
          = (afterEpochs cfg st e).EpsilonHB * statedFactor100 (e + 1))
    ∧ (cfg.TOTAL_FEATURES = 200 →
        (afterEpochs cfg st (e + 1)).EpsilonW
          = (afterEpochs cfg st e).EpsilonW * statedFactor200 (e + 1)
        ∧ (afterEpochs cfg st (e + 1)).EpsilonVB
          = (afterEpochs cfg st e).EpsilonVB * statedFactor200 (e + 1)
        ∧ (afterEpochs cfg st (e + 1)).EpsilonHB
          = (afterEpochs cfg st e).EpsilonHB * statedFactor200 (e + 1)) := by
  have hr := epochBody_rates cfg (afterEpochs cfg st e)
  rw [← afterEpochs_succ, afterEpochs_loopcount] at hr
  refine ⟨afterEpochs_ratio cfg st e, ?_, ?_, ?_⟩
  · intro u
    have hctl := (processUser_ctl cfg u _).trans (beforeUser_ctl cfg (afterEpochs cfg st e) u)
    have hs := epochStart_ctl (afterEpochs cfg st e)
    exact ⟨(congrArg Ctl.EpsilonW hctl).trans hs.2.2.1,
      (congrArg Ctl.EpsilonVB hctl).trans hs.2.2.2.1,
      (congrArg Ctl.EpsilonHB hctl).trans hs.2.2.2.2⟩
  · intro h100
    have hne : ¬ cfg.TOTAL_FEATURES = 200 := by omega
    simp only [if_neg hne] at hr
    exact hr
  · intro h200
    simp only [if_pos h200] at hr
    exact hr

/-- Witness of `learning_rate_decay`: the factor after the third epoch with
100 hidden units and after the sixth epoch with 200 hidden units. -/
theorem learning_rate_decay_witness :
    (afterEpochs exEnv100 zeroState 3).EpsilonW
        = (afterEpochs exEnv100 zeroState 2).EpsilonW * (78 / 100)
      ∧ (afterEpochs exEnv200 zeroState 6).EpsilonW
        = (afterEpochs exEnv200 zeroState 5).EpsilonW * (50 / 100) := by
  have h1 := ((learning_rate_decay exEnv100 zeroState 2).2.2.1 rfl).1
  have h2 := ((learning_rate_decay exEnv200 zeroState 5).2.2.2 rfl).1
  have f1 : (statedFactor100 (2 + 1) : ℚ) = 78 / 100 := by
    unfold statedFactor100
    norm_num
  have f2 : (statedFactor200 (5 + 1) : ℚ) = 50 / 100 := by
    unfold statedFactor200
    norm_num
  rw [f1] at h1
  rw [f2] at h2
  exact ⟨h1, h2⟩

/-! ## C18: sampling a category -/

theorem sampleCategory_le (p : Nat → α) (d : α) : sampleCategory p d ≤ 4 := by
  unfold sampleCategory
  simp only
  split_ifs <;> omega

theorem sampleCategory_spec (p : Nat → α) (d : α)
    (hsum : p 0 + p 1 + p 2 + p 3 + p 4 = 1) (hd : d ≤ 1) :
    d ≤ cumProb p (sampleCategory p d)
      ∧ ∀ c, c < sampleCategory p d → cumProb p c < d := by
  unfold sampleCategory
  simp only
  split_ifs with h0 h1 h2 h3
  · refine ⟨?_, fun c hc => absurd hc (Nat.not_lt_zero c)⟩
    simp only [cumProb, Finset.sum_range_succ, Finset.sum_range_zero]
    linarith
  · refine ⟨?_, ?_⟩
    · simp only [cumProb, Finset.sum_range_succ, Finset.sum_range_zero]
      linarith
    · intro c hc
      interval_cases c
      simp only [cumProb, Finset.sum_range_succ, Finset.sum_range_zero]
      linarith
  · refine ⟨?_, ?_⟩
    · simp only [cumProb, Finset.sum_range_succ, Finset.sum_range_zero]
      linarith
    · intro c hc
      interval_cases c <;>
        simp only [cumProb, Finset.sum_range_succ, Finset.sum_range_zero] <;> linarith
  · refine ⟨?_, ?_⟩
    · simp only [cumProb, Finset.sum_range_succ, Finset.sum_range_zero]
      linarith
    · intro c hc
      interval_cases c <;>
        simp only [cumProb, Finset.sum_range_succ, Finset.sum_range_zero] <;> linarith
  · refine ⟨?_, ?_⟩
    · simp only [cumProb, Finset.sum_range_succ, Finset.sum_range_zero]
      linarith
    · intro c hc
      interval_cases c <;>
        simp only [cumProb, Finset.sum_range_succ, Finset.sum_range_zero] <;> linarith

theorem visAccumLoop_nrand (m stepT n : Nat) (t : State α) :
    (forLoop n (visAccumStep m stepT) t).nrand = t.nrand := by
  apply forLoop_keep (fun s : State α => s.nrand)
  intro h _ s
  unfold visAccumStep
  simp only
  split_ifs
  · rw [forLoop_keep (fun s : State α => s.nrand), forLoop_keep (fun s : State α => s.nrand)]
    all_goals intro i _ t'; rfl
  · rw [forLoop_keep (fun s : State α => s.nrand)]
    intro i _ t'; rfl
  · rw [forLoop_keep (fun s : State α => s.nrand)]
    intro i _ t'; rfl
  · rfl

/-- The category that a reconstruction step stores for its item is
`sampleCategory` of the row of probabilities it has just computed and of the
next draw; the step makes exactly one draw. -/
theorem visReconStep_sample (cfg : Env α) (u stepT : Nat) (fin : Bool) (j : Nat)
    (t : State α) :
    (visReconStep cfg u stepT fin j t).negvissoftmax (entMovie cfg (cfg.useridx u 0 + j))
        = sampleCategory
            ((visReconStep cfg u stepT fin j t).negvisprobs
              (entMovie cfg (cfg.useridx u 0 + j)))
            (cfg.rand t.nrand)
      ∧ (visReconStep cfg u stepT fin j t).nrand = t.nrand + 1 := by
  have hn := visAccumLoop_nrand (entMovie cfg (cfg.useridx u 0 + j)) stepT
    cfg.TOTAL_FEATURES t
  rw [← hn]
  unfold visReconStep drawNext drawVal
  simp only
  split_ifs <;> simp [upd1]

/-- C18: for probabilities `p 0, .., p 4` that sum to 1 and a draw `d ≤ 1`
(in particular a draw in `[0,1]`), the category chosen by lines 399-409 is in `0..4` and is the first
category whose cumulative probability `p 0 + .. + p c` meets or exceeds `d`;
and this is the category that a reconstruction step stores in
`negvissoftmax[m]` for the row `p` it has computed for `m` and its draw `d`. -/
theorem sampled_category_first_cumulative (p : Nat → α) (d : α)
    (hsum : p 0 + p 1 + p 2 + p 3 + p 4 = 1) (hd1 : d ≤ 1) :
    (sampleCategory p d < SOFTMAX
      ∧ d ≤ cumProb p (sampleCategory p d)
      ∧ ∀ c, c < sampleCategory p d → cumProb p c < d)
    ∧ ∀ (cfg : Env α) (u stepT : Nat) (fin : Bool) (j : Nat) (t : State α),
        (visReconStep cfg u stepT fin j t).negvisprobs
            (entMovie cfg (cfg.useridx u 0 + j)) = p →
        cfg.rand t.nrand = d →
        (visReconStep cfg u stepT fin j t).negvissoftmax
            (entMovie cfg (cfg.useridx u 0 + j)) = sampleCategory p d := by
  refine ⟨⟨?_, sampleCategory_spec p d hsum hd1⟩, ?_⟩
  · have := sampleCategory_le p d
    unfold SOFTMAX
    omega
  · intro cfg u stepT fin j t hp hr
    rw [(visReconStep_sample cfg u stepT fin j t).1, hp, hr]

/-- Witness of `sampled_category_first_cumulative`: the probabilities
`1/10, 2/10, 3/10, 4/10, 0` and the draw `1/2`. -/
theorem sampled_category_first_cumulative_witness :
    sampleCategory exProbs (1 / 2) < SOFTMAX
      ∧ (1 / 2 : ℚ) ≤ cumProb exProbs (sampleCategory exProbs (1 / 2))
      ∧ ∀ c, c < sampleCategory exProbs (1 / 2) → cumProb exProbs c < 1 / 2 :=
  (sampled_category_first_cumulative exProbs (1 / 2)
    (by simp [exProbs]; norm_num) (by norm_num)).1

/-! ## C17: hidden probabilities lie in the unit interval -/

/-- A property that iteration `k` establishes and the other iterations keep
holds after a loop that runs iteration `k`. -/
theorem forLoop_establish (P : σ → Prop) (k n : Nat) (body : Nat → σ → σ) (s : σ)
    (hkn : k < n) (hk : ∀ t, P (body k t))
    (hne : ∀ i, i ≠ k → ∀ t, P t → P (body i t)) :
    P (forLoop n body s) := by
  induction n with
  | zero => omega
  | succ j ih =>
    rw [forLoop_succ]
    by_cases hjk : j = k
    · subst hjk
      exact hk _
    · exact hne j hjk _ (ih (by omega))

theorem logistic_bounds (e : α) (he : 0 ≤ e) : 0 ≤ 1 / (1 + e) ∧ 1 / (1 + e) ≤ 1 := by
  have hpos : (0 : α) < 1 + e := by linarith
  refine ⟨le_of_lt (div_pos one_pos hpos), ?_⟩
  rw [div_le_one hpos]
  linarith

theorem posHiddenStep_probs (cfg : Env α) (h : Nat) (t : State α) :
    (posHiddenStep cfg h t).poshidprobs
      = upd1 t.poshidprobs h (1 / (1 + cfg.exp (-t.sumW h - t.hidbiases h))) := by
  unfold posHiddenStep drawNext
  simp only
  split_ifs <;> rfl

theorem negHiddenStep_probs (cfg : Env α) (fin : Bool) (h : Nat) (t : State α) :
    (negHiddenStep cfg fin h t).neghidprobs
      = upd1 t.neghidprobs h (1 / (1 + cfg.exp (-t.sumW h - t.hidbiases h))) := by
  unfold negHiddenStep drawNext
  simp only
  split_ifs <;> rfl

theorem posHiddenLoop_bounds (cfg : Env α) (hexp : ∀ x, 0 ≤ cfg.exp x) (h : Nat)
    (hh : h < cfg.TOTAL_FEATURES) (t : State α) :
    0 ≤ (forLoop cfg.TOTAL_FEATURES (posHiddenStep cfg) t).poshidprobs h
      ∧ (forLoop cfg.TOTAL_FEATURES (posHiddenStep cfg) t).poshidprobs h ≤ 1 := by
  apply forLoop_establish (fun s : State α => 0 ≤ s.poshidprobs h ∧ s.poshidprobs h ≤ 1) h
    cfg.TOTAL_FEATURES (posHiddenStep cfg) t hh
  · intro s
    simp only [posHiddenStep_probs, upd1, if_pos]
    exact logistic_bounds _ (hexp _)
  · intro i hi s hs
    have hne : ¬ h = i := fun hx => hi hx.symm
    simp only [posHiddenStep_probs, upd1, if_neg hne]
    exact hs

theorem negHiddenLoop_bounds (cfg : Env α) (hexp : ∀ x, 0 ≤ cfg.exp x) (fin : Bool) (h : Nat)
    (hh : h < cfg.TOTAL_FEATURES) (t : State α) :
    0 ≤ (forLoop cfg.TOTAL_FEATURES (negHiddenStep cfg fin) t).neghidprobs h
      ∧ (forLoop cfg.TOTAL_FEATURES (negHiddenStep cfg fin) t).neghidprobs h ≤ 1 := by
  apply forLoop_establish (fun s : State α => 0 ≤ s.neghidprobs h ∧ s.neghidprobs h ≤ 1) h
    cfg.TOTAL_FEATURES (negHiddenStep cfg fin) t hh
  · intro s
    simp only [negHiddenStep_probs, upd1, if_pos]
    exact logistic_bounds _ (hexp _)
  · intro i hi s hs
    have hne : ¬ h = i := fun hx => hi hx.symm
    simp only [negHiddenStep_probs, upd1, if_neg hne]
    exact hs

theorem reHiddenLoop_bounds (cfg : Env α) (hexp : ∀ x, 0 ≤ cfg.exp x) (h : Nat)
    (hh : h < cfg.TOTAL_FEATURES) (t : State α) :
    0 ≤ (forLoop cfg.TOTAL_FEATURES (reHiddenStep cfg) t).poshidprobs h
      ∧ (forLoop cfg.TOTAL_FEATURES (reHiddenStep cfg) t).poshidprobs h ≤ 1 := by
  apply forLoop_establish (fun s : State α => 0 ≤ s.poshidprobs h ∧ s.poshidprobs h ≤ 1) h
    cfg.TOTAL_FEATURES (reHiddenStep cfg) t hh
  · intro s
    simp only [reHiddenStep, upd1, if_pos]
    exact logistic_bounds _ (hexp _)
  · intro i hi s hs
    have hne : ¬ h = i := fun hx => hi hx.symm
    simp only [reHiddenStep, upd1, if_neg hne]
    exact hs

/-- The accumulation of lines 486-501 writes `CDpos` and `CDneg` only. -/
theorem cdLoop_drop (cfg : Env α) (u n : Nat) (t : State α) :
    dropCD (forLoop n (cdAccumStep cfg u) t) = dropCD t := by
  apply forLoop_keep dropCD
  intro j _ s
  unfold cdAccumStep
  apply forLoop_keep dropCD
  intro h _ s'
  unfold cdCell dropCD
  simp only
  split_ifs <;> rfl

theorem errAccum_hidden (cfg : Env α) (u : Nat) (t : State α) :
    (errAccum cfg u t).neghidprobs = t.neghidprobs
      ∧ (errAccum cfg u t).neghidstates = t.neghidstates
      ∧ (errAccum cfg u t).negvissoftmax = t.negvissoftmax
      ∧ (errAccum cfg u t).nvp2 = t.nvp2
      ∧ (errAccum cfg u t).negvisact = t.negvisact
      ∧ (errAccum cfg u t).nrand = t.nrand := by
  have key : (fun s : State α => (s.neghidprobs, s.neghidstates, s.negvissoftmax, s.nvp2,
      s.negvisact, s.nrand)) (errAccum cfg u t)
      = (t.neghidprobs, t.neghidstates, t.negvissoftmax, t.nvp2, t.negvisact, t.nrand) := by
    unfold errAccum
    simp only
    rw [forLoop_keep (fun s : State α => (s.neghidprobs, s.neghidstates, s.negvissoftmax,
      s.nvp2, s.negvisact, s.nrand)) _ (probeErrStep cfg _) _ (fun _ _ _ => rfl)]
    exact forLoop_keep (fun s : State α => (s.neghidprobs, s.neghidstates, s.negvissoftmax,
      s.nvp2, s.negvisact, s.nrand)) _ (trainErrStep cfg u) t (fun _ _ _ => rfl)
  simp only [Prod.mk.injEq] at key
  exact key

theorem carryHidden_hidden (cfg : Env α) (t : State α) :
    (carryHidden cfg t).neghidprobs = t.neghidprobs
      ∧ (carryHidden cfg t).neghidstates = t.neghidstates
      ∧ (carryHidden cfg t).negvissoftmax = t.negvissoftmax
      ∧ (carryHidden cfg t).nvp2 = t.nvp2
      ∧ (carryHidden cfg t).negvisact = t.negvisact
      ∧ (carryHidden cfg t).nrand = t.nrand
      ∧ (carryHidden cfg t).nrmse = t.nrmse
      ∧ (carryHidden cfg t).s = t.s
      ∧ (carryHidden cfg t).n = t.n
      ∧ (carryHidden cfg t).ntrain = t.ntrain := by
  have key : (fun s : State α => (s.neghidprobs, s.neghidstates, s.negvissoftmax, s.nvp2,
      s.negvisact, s.nrand, s.nrmse, s.s, s.n, s.ntrain)) (carryHidden cfg t)
      = (t.neghidprobs, t.neghidstates, t.negvissoftmax, t.nvp2, t.negvisact, t.nrand,
        t.nrmse, t.s, t.n, t.ntrain) := by
    unfold carryHidden
    exact forLoop_keep (fun s : State α => (s.neghidprobs, s.neghidstates, s.negvissoftmax,
      s.nvp2, s.negvisact, s.nrand, s.nrmse, s.s, s.n, s.ntrain)) _ _ t (fun _ _ _ => rfl)
  simp only [Prod.mk.injEq] at key
  exact key

/-- A Gibbs step is its negative phase followed by the error sums (at step
0) and the hand-over of the hidden states (when it is not the final step). -/
theorem gibbsStep_eq (cfg : Env α) (u stepT : Nat) (st : State α) :
    gibbsStep cfg u stepT st
      = if decide (stepT + 1 ≥ st.tSteps) = false then
          carryHidden cfg
            (if stepT = 0 then errAccum cfg u (negPhase cfg u stepT st)
              else negPhase cfg u stepT st)
        else
          (if stepT = 0 then errAccum cfg u (negPhase cfg u stepT st)
            else negPhase cfg u stepT st) := rfl

/-- What the negative phase of a Gibbs step computes is still there when the
step ends. -/
theorem gibbsStep_hidden (cfg : Env α) (u stepT : Nat) (st : State α) :
    (gibbsStep cfg u stepT st).neghidprobs = (negPhase cfg u stepT st).neghidprobs
      ∧ (gibbsStep cfg u stepT st).neghidstates = (negPhase cfg u stepT st).neghidstates
      ∧ (gibbsStep cfg u stepT st).negvissoftmax = (negPhase cfg u stepT st).negvissoftmax
      ∧ (gibbsStep cfg u stepT st).nvp2 = (negPhase cfg u stepT st).nvp2
      ∧ (gibbsStep cfg u stepT st).negvisact = (negPhase cfg u stepT st).negvisact
      ∧ (gibbsStep cfg u stepT st).nrand = (negPhase cfg u stepT st).nrand := by
  rw [gibbsStep_eq]
  have he := errAccum_hidden cfg u (negPhase cfg u stepT st)
  split_ifs
  · have hc := carryHidden_hidden cfg (errAccum cfg u (negPhase cfg u stepT st))
    exact ⟨hc.1.trans he.1, hc.2.1.trans he.2.1, hc.2.2.1.trans he.2.2.1,
      hc.2.2.2.1.trans he.2.2.2.1, hc.2.2.2.2.1.trans he.2.2.2.2.1,
      hc.2.2.2.2.2.1.trans he.2.2.2.2.2⟩
  · have hc := carryHidden_hidden cfg (negPhase cfg u stepT st)
    exact ⟨hc.1, hc.2.1, hc.2.2.1, hc.2.2.2.1, hc.2.2.2.2.1, hc.2.2.2.2.2.1⟩
  · exact he
  · exact ⟨rfl, rfl, rfl, rfl, rfl, rfl⟩

theorem chain_poshid {β : Type} (s t : State β) (h : chainKeep s = chainKeep t) :
    s.poshidprobs = t.poshidprobs ∧ s.poshidstates = t.poshidstates
      ∧ s.poshidact = t.poshidact ∧ s.posvisact = t.posvisact
      ∧ s.CDpos = t.CDpos ∧ s.CDneg = t.CDneg ∧ s.moviecount = t.moviecount := by
  unfold chainKeep at h
  simp only [Prod.mk.injEq] at h
  exact ⟨h.2.2.2.2.2.2.2.2.2.2.1, h.2.2.2.2.2.2.2.2.2.1, h.2.2.2.2.2.2.2.2.2.2.2.1,
    h.2.2.2.2.2.2.2.2.1, h.2.2.2.2.2.2.2.2.2.2.2.2.1, h.2.2.2.2.2.2.2.2.2.2.2.2.2,
    h.2.2.2.2.2.2.2.1⟩

theorem chain_params {β : Type} (s t : State β) (h : chainKeep s = chainKeep t) :
    s.vishid = t.vishid ∧ s.visbiases = t.visbiases ∧ s.hidbiases = t.hidbiases := by
  unfold chainKeep at h
  simp only [Prod.mk.injEq] at h
  exact ⟨h.2.1, h.2.2.1, h.2.2.2.1⟩

/-- C17: when the library `exp` is non-negative, for every user `u` and
every hidden unit `h`: the positive-phase probability `poshidprobs[h]` that
`doAllFeatures` computes, the probability `neghidprobs[h]` left by every
Gibbs step (begun in any state), and the `poshidprobs[h]` computed by
`recordErrors` lie in `[0,1]`, whatever the weights and biases are. -/
theorem hidden_probs_unit_interval (cfg : Env α) (hexp : ∀ x, 0 ≤ cfg.exp x) (u h : Nat)
    (hh : h < cfg.TOTAL_FEATURES) (st : State α) :
    (0 ≤ (prePhase cfg u st).poshidprobs h ∧ (prePhase cfg u st).poshidprobs h ≤ 1)
    ∧ (0 ≤ (processUser cfg u st).poshidprobs h ∧ (processUser cfg u st).poshidprobs h ≤ 1)
    ∧ (∀ (stepT : Nat) (t : State α),
        0 ≤ (gibbsStep cfg u stepT t).neghidprobs h
          ∧ (gibbsStep cfg u stepT t).neghidprobs h ≤ 1)
    ∧ (0 ≤ (processUser cfg u st).neghidprobs h ∧ (processUser cfg u st).neghidprobs h ≤ 1)
    ∧ (0 ≤ (reUser cfg u st).poshidprobs h ∧ (reUser cfg u st).poshidprobs h ≤ 1) := by
  have hpre : 0 ≤ (prePhase cfg u st).poshidprobs h ∧ (prePhase cfg u st).poshidprobs h ≤ 1 := by
    have hcopy : (prePhase cfg u st).poshidprobs
        = (forLoop cfg.TOTAL_FEATURES (posHiddenStep cfg) (posPhase cfg u st)).poshidprobs := by
      unfold prePhase
      exact forLoop_keep (fun s : State α => s.poshidprobs) _ _ _ (fun _ _ _ => rfl)
    rw [hcopy]
    exact posHiddenLoop_bounds cfg hexp h hh _
  have hstep : ∀ (stepT : Nat) (t : State α),
      0 ≤ (gibbsStep cfg u stepT t).neghidprobs h
        ∧ (gibbsStep cfg u stepT t).neghidprobs h ≤ 1 := by
    intro stepT t
    rw [(gibbsStep_hidden cfg u stepT t).1]
    unfold negPhase
    exact negHiddenLoop_bounds cfg hexp _ h hh _
  have hcd : ∀ t : State α, (forLoop (cfg.UNTRAIN u) (cdAccumStep cfg u) t).poshidprobs
        = t.poshidprobs
      ∧ (forLoop (cfg.UNTRAIN u) (cdAccumStep cfg u) t).neghidprobs = t.neghidprobs :=
    fun t => ⟨(congrArg State.poshidprobs (cdLoop_drop cfg u (cfg.UNTRAIN u) t) :
        (dropCD _).poshidprobs = (dropCD t).poshidprobs),
      (congrArg State.neghidprobs (cdLoop_drop cfg u (cfg.UNTRAIN u) t) :
        (dropCD _).neghidprobs = (dropCD t).neghidprobs)⟩
  refine ⟨hpre, ?_, hstep, ?_, ?_⟩
  · rw [processUser_eq, (hcd _).1]
    have hchain := forLoop_keep chainKeep (max st.tSteps 1) (gibbsStep cfg u)
      (prePhase cfg u st) (fun i _ t => gibbsStep_chain cfg u i t)
    rw [(chain_poshid _ _ hchain).1]
    exact hpre
  · rw [processUser_eq, (hcd _).2]
    have hmax : max st.tSteps 1 = (max st.tSteps 1 - 1) + 1 := by omega
    rw [hmax, forLoop_succ]
    exact hstep _ _
  · have hrest : (reUser cfg u st).poshidprobs
        = (forLoop cfg.TOTAL_FEATURES (reHiddenStep cfg)
            (forLoop (cfg.UNTRAIN u) (reSumStep cfg u)
              { { st with negvisprobs := fun _ _ => 0 } with sumW := fun _ => 0 })).poshidprobs := by
      unfold reUser
      simp only
      rw [forLoop_keep (fun s : State α => s.poshidprobs) _ (reErrStep cfg u) _
        (fun _ _ _ => rfl)]
      apply forLoop_keep (fun s : State α => s.poshidprobs)
      intro j _ t
      unfold reVisStep
      simp only
      apply forLoop_keep (fun s : State α => s.poshidprobs)
      intro h' _ t'
      exact forLoop_keep (fun s : State α => s.poshidprobs) _ _ t' (fun _ _ _ => rfl)
    rw [hrest]
    exact reHiddenLoop_bounds cfg hexp h hh _

/-- Witness of `hidden_probs_unit_interval`: the stand-in `exp x = 1 + x^2`
of `exEnv` is non-negative; hidden unit 1 of its user. -/
theorem hidden_probs_unit_interval_witness :
    (0 ≤ (processUser exEnv 0 exWeights).poshidprobs 1
      ∧ (processUser exEnv 0 exWeights).poshidprobs 1 ≤ 1)
    ∧ (0 ≤ (processUser exEnv 0 exWeights).neghidprobs 1
      ∧ (processUser exEnv 0 exWeights).neghidprobs 1 ≤ 1)
    ∧ (0 ≤ (reUser exEnv 0 exWeights).poshidprobs 1
      ∧ (reUser exEnv 0 exWeights).poshidprobs 1 ≤ 1) := by
  have hw := hidden_probs_unit_interval exEnv
    (by intro x; simp only [exEnv]; positivity) 0 1 (by decide) exWeights
  exact ⟨hw.2.1, hw.2.2.2.1, hw.2.2.2.2⟩

/-! ## What the positive phase leaves alone -/

theorem addWeights_dropPre (cfg : Env α) (m r : Nat) (t : State α) :
    dropPre (addWeights cfg m r t) = dropPre t := by
  unfold addWeights
  exact forLoop_keep dropPre _ _ t (fun _ _ _ => rfl)

theorem prePhase_drop (cfg : Env α) (u : Nat) (st : State α) :
    dropPre (prePhase cfg u st) = dropPre st := by
  have hpos : dropPre (posPhase cfg u st) = dropPre st := by
    unfold posPhase
    simp only
    rw [forLoop_keep dropPre]
    · rfl
    · intro j _ t
      unfold posAccumStep
      simp only
      rw [addWeights_dropPre]
      rfl
  have hhid : ∀ t : State α,
      dropPre (forLoop cfg.TOTAL_FEATURES (posHiddenStep cfg) t) = dropPre t := by
    intro t
    apply forLoop_keep dropPre
    intro h _ t'
    unfold posHiddenStep drawNext
    simp only
    split_ifs <;> rfl
  unfold prePhase
  simp only
  rw [forLoop_keep dropPre, hhid, hpos]
  intro h _ t
  rfl

theorem processUser_afterChain (cfg : Env α) (u : Nat) (st : State α) :
    processUser cfg u st = forLoop (cfg.UNTRAIN u) (cdAccumStep cfg u) (afterChain cfg u st) :=
  processUser_eq cfg u st

theorem afterChain_chain (cfg : Env α) (u : Nat) (st : State α) :
    chainKeep (afterChain cfg u st) = chainKeep (prePhase cfg u st) :=
  forLoop_keep chainKeep _ _ _ (fun i _ t => gibbsStep_chain cfg u i t)

/-- The chain ends with the Gibbs step `max tSteps 1 - 1`, which is the one
that sees itself as final. -/
theorem afterChain_last (cfg : Env α) (u : Nat) (st : State α) :
    afterChain cfg u st
        = gibbsStep cfg u (max st.tSteps 1 - 1)
            (forLoop (max st.tSteps 1 - 1) (gibbsStep cfg u) (prePhase cfg u st))
      ∧ (forLoop (max st.tSteps 1 - 1) (gibbsStep cfg u) (prePhase cfg u st)).tSteps
          = st.tSteps := by
  constructor
  · unfold afterChain
    have hmax : max st.tSteps 1 = (max st.tSteps 1 - 1) + 1 := by omega
    conv_lhs => rw [hmax]
    rfl
  · have h1 := forLoop_keep ctlObs (max st.tSteps 1 - 1) (gibbsStep cfg u)
      (prePhase cfg u st) (fun i _ t => gibbsStep_ctl cfg u i t)
    exact congrArg Ctl.tSteps (h1.trans (prePhase_ctl cfg u st))

/-! ## The contrastive-divergence accumulation, lines 486-501 -/

theorem sum_range_single {M : Type} [AddCommMonoid M] (n k : Nat) (f : Nat → M) :
    (∑ h in Finset.range n, if k = h then f h else 0) = if k < n then f k else 0 := by
  simp [Finset.sum_ite_eq, Finset.mem_range]

theorem cdCell_drop (m r h : Nat) (t : State α) : dropCD (cdCell m r h t) = dropCD t := by
  unfold cdCell dropCD
  simp only
  split_ifs <;> rfl

theorem cdCell_pos (m r h m' r' h' : Nat) (t : State α) :
    (cdCell m r h t).CDpos m' r' h'
      = t.CDpos m' r' h'
        + (if h' = h then
            (if m = m' ∧ r = r' then (if (dropCD t).poshidstates h = 1 then 1 else 0) else 0)
          else 0) := by
  have hp : (dropCD t).poshidstates = t.poshidstates := rfl
  rw [hp]
  unfold cdCell
  simp only
  by_cases hs : t.poshidstates h = 1
  · simp only [if_pos hs, upd3]
    by_cases hh : h' = h
    · by_cases hm : m = m' ∧ r = r'
      · obtain ⟨hm1, hm2⟩ := hm
        subst hh hm1 hm2
        simp
      · have hm' : ¬ (m' = m ∧ r' = r ∧ h' = h) := fun hx => hm ⟨hx.1.symm, hx.2.1.symm⟩
        simp [hm, hm']
    · have hm' : ¬ (m' = m ∧ r' = r ∧ h' = h) := fun hx => hh hx.2.2
      simp [hh, hm']
  · simp [hs]

theorem cdCell_neg (m r h m' c' h' : Nat) (t : State α) :
    (cdCell m r h t).CDneg m' c' h'
      = t.CDneg m' c' h'
        + (if h' = h then
            (if m = m' ∧ (dropCD t).negvissoftmax m = c' then ((dropCD t).neghidstates h : α)
              else 0)
          else 0) := by
  have hp : (dropCD t).negvissoftmax = t.negvissoftmax := rfl
  have hq : (dropCD t).neghidstates = t.neghidstates := rfl
  rw [hp, hq]
  have hcell : (cdCell m r h t).CDneg
      = upd3 t.CDneg m (t.negvissoftmax m) h
          (t.CDneg m (t.negvissoftmax m) h + (t.neghidstates h : α)) := by
    unfold cdCell
    simp only
    split_ifs <;> rfl
  rw [hcell]
  simp only [upd3]
  by_cases hh : h' = h
  · by_cases hm : m = m' ∧ t.negvissoftmax m = c'
    · obtain ⟨hm1, hm2⟩ := hm
      subst hh hm1 hm2
      simp
    · have hm' : ¬ (m' = m ∧ c' = t.negvissoftmax m ∧ h' = h) :=
        fun hx => hm ⟨hx.1.symm, hx.2.1.symm⟩
      simp [hm, hm']
  · have hm' : ¬ (m' = m ∧ c' = t.negvissoftmax m ∧ h' = h) := fun hx => hh hx.2.2
    simp [hh, hm']

theorem cdAccumStep_drop (cfg : Env α) (u j : Nat) (t : State α) :
    dropCD (cdAccumStep cfg u j t) = dropCD t := by
  unfold cdAccumStep
  exact forLoop_keep dropCD _ _ t (fun h _ s => cdCell_drop _ _ h s)

theorem cdAccumStep_pos (cfg : Env α) (u j m r h : Nat) (t : State α) :
    (cdAccumStep cfg u j t).CDpos m r h
      = t.CDpos m r h
        + (if h < cfg.TOTAL_FEATURES then
            (if itemOf cfg u j = m ∧ catOf cfg u j = r then
              (if (dropCD t).poshidstates h = 1 then 1 else 0) else 0)
          else 0) := by
  have key := forLoop_sum (fun s : State α => s.CDpos m r h) dropCD
    (fun ro k => if h = k then
      (if itemOf cfg u j = m ∧ catOf cfg u j = r then (if ro.poshidstates k = 1 then 1 else 0)
        else 0) else 0)
    cfg.TOTAL_FEATURES (cdCell (itemOf cfg u j) (catOf cfg u j)) t
    (fun k s => cdCell_pos _ _ k m r h s) (fun k s => cdCell_drop _ _ k s)
  rw [sum_range_single] at key
  exact key

theorem cdAccumStep_neg (cfg : Env α) (u j m c h : Nat) (t : State α) :
    (cdAccumStep cfg u j t).CDneg m c h
      = t.CDneg m c h
        + (if h < cfg.TOTAL_FEATURES then
            (if itemOf cfg u j = m ∧ (dropCD t).negvissoftmax (itemOf cfg u j) = c then
              ((dropCD t).neghidstates h : α) else 0)
          else 0) := by
  have key := forLoop_sum (fun s : State α => s.CDneg m c h) dropCD
    (fun ro k => if h = k then
      (if itemOf cfg u j = m ∧ ro.negvissoftmax (itemOf cfg u j) = c then
        (ro.neghidstates k : α) else 0) else 0)
    cfg.TOTAL_FEATURES (cdCell (itemOf cfg u j) (catOf cfg u j)) t
    (fun k s => cdCell_neg _ _ k m c h s) (fun k s => cdCell_drop _ _ k s)
  rw [sum_range_single] at key
  exact key

/-- Lines 486-501 over the training entries of user `u`, begun in state `t`:
what is added to one cell of `CDpos` and of `CDneg`. -/
theorem cdLoop_sums (cfg : Env α) (u m r h : Nat) (hh : h < cfg.TOTAL_FEATURES) (t : State α) :
    (forLoop (cfg.UNTRAIN u) (cdAccumStep cfg u) t).CDpos m r h
        = t.CDpos m r h
          + ∑ j in Finset.range (cfg.UNTRAIN u),
              (if itemOf cfg u j = m ∧ catOf cfg u j = r then
                (if t.poshidstates h = 1 then 1 else 0) else 0)
      ∧ (forLoop (cfg.UNTRAIN u) (cdAccumStep cfg u) t).CDneg m r h
        = t.CDneg m r h
          + ∑ j in Finset.range (cfg.UNTRAIN u),
              (if itemOf cfg u j = m ∧ t.negvissoftmax (itemOf cfg u j) = r then
                (t.neghidstates h : α) else 0) := by
  constructor
  · exact forLoop_sum (fun s : State α => s.CDpos m r h) dropCD
      (fun ro j => if itemOf cfg u j = m ∧ catOf cfg u j = r then
          (if ro.poshidstates h = 1 then 1 else 0) else 0)
      (cfg.UNTRAIN u) (cdAccumStep cfg u) t
      (fun j s => by
        have e := cdAccumStep_pos cfg u j m r h s
        rw [if_pos hh] at e
        exact e)
      (fun j s => cdAccumStep_drop cfg u j s)
  · exact forLoop_sum (fun s : State α => s.CDneg m r h) dropCD
      (fun ro j => if itemOf cfg u j = m ∧ ro.negvissoftmax (itemOf cfg u j) = r then
          (ro.neghidstates h : α) else 0)
      (cfg.UNTRAIN u) (cdAccumStep cfg u) t
      (fun j s => by
        have e := cdAccumStep_neg cfg u j m r h s
        rw [if_pos hh] at e
        exact e)
      (fun j s => cdAccumStep_drop cfg u j s)

theorem posHiddenLoop_states (cfg : Env α) (h : Nat) (hh : h < cfg.TOTAL_FEATURES)
    (t : State α) :
    (forLoop cfg.TOTAL_FEATURES (posHiddenStep cfg) t).poshidstates h = 0
      ∨ (forLoop cfg.TOTAL_FEATURES (posHiddenStep cfg) t).poshidstates h = 1 := by
  apply forLoop_establish (fun s : State α => s.poshidstates h = 0 ∨ s.poshidstates h = 1) h
    cfg.TOTAL_FEATURES (posHiddenStep cfg) t hh
  · intro s
    unfold posHiddenStep drawNext
    simp only
    split_ifs
    · right; simp [upd1]
    · left; simp [upd1]
  · intro i hi s hs
    have hne : ¬ h = i := fun hx => hi hx.symm
    unfold posHiddenStep drawNext
    simp only
    split_ifs <;> simpa [upd1, hne] using hs

theorem negHiddenLoop_states (cfg : Env α) (fin : Bool) (h : Nat)
    (hh : h < cfg.TOTAL_FEATURES) (t : State α) :
    (forLoop cfg.TOTAL_FEATURES (negHiddenStep cfg fin) t).neghidstates h = 0
      ∨ (forLoop cfg.TOTAL_FEATURES (negHiddenStep cfg fin) t).neghidstates h = 1 := by
  apply forLoop_establish (fun s : State α => s.neghidstates h = 0 ∨ s.neghidstates h = 1) h
    cfg.TOTAL_FEATURES (negHiddenStep cfg fin) t hh
  · intro s
    unfold negHiddenStep drawNext
    simp only
    split_ifs
    · right; simp [upd1]
    · right; simp [upd1]
    · left; simp [upd1]
  · intro i hi s hs
    have hne : ¬ h = i := fun hx => hi hx.symm
    unfold negHiddenStep drawNext
    simp only
    split_ifs <;> simpa [upd1, hne] using hs

theorem prePhase_states (cfg : Env α) (u h : Nat) (hh : h < cfg.TOTAL_FEATURES)
    (st : State α) :
    (prePhase cfg u st).poshidstates h = 0 ∨ (prePhase cfg u st).poshidstates h = 1 := by
  have hcopy : (prePhase cfg u st).poshidstates
      = (forLoop cfg.TOTAL_FEATURES (posHiddenStep cfg) (posPhase cfg u st)).poshidstates := by
    unfold prePhase
    exact forLoop_keep (fun s : State α => s.poshidstates) _ _ _ (fun _ _ _ => rfl)
  rw [hcopy]
  exact posHiddenLoop_states cfg h hh _

theorem afterChain_neg (cfg : Env α) (u : Nat) (st : State α) :
    (afterChain cfg u st).neghidstates = (lastNeg cfg u st).neghidstates
      ∧ (afterChain cfg u st).negvissoftmax = (lastNeg cfg u st).negvissoftmax
      ∧ (afterChain cfg u st).neghidprobs = (lastNeg cfg u st).neghidprobs := by
  rw [(afterChain_last cfg u st).1]
  have hg := gibbsStep_hidden cfg u (max st.tSteps 1 - 1) (lastStart cfg u st)
  exact ⟨hg.2.1, hg.2.2.1, hg.1⟩

/-- C19: processing user `u` (lines 275-501) adds to `CDpos[m][r][h]`, for
each training entry of the user with item `m` and observed category `r`,
exactly 1 if the hidden state `poshidstates[h]` sampled before the Gibbs
chain is 1 and 0 otherwise, and adds to `CDneg[m][c][h]`, for each training
entry with item `m` for which the last Gibbs step sampled category `c`, the
hidden state `neghidstates[h]` of that last step.  Both states are 0 or 1,
the chain does not modify `poshidstates`, and the last step is the one that
sees itself as final.  This holds for every sampling depth. -/
theorem cd_accumulation (cfg : Env α) (u m r c h : Nat) (hh : h < cfg.TOTAL_FEATURES)
    (st : State α) :
    (processUser cfg u st).CDpos m r h
        = st.CDpos m r h
          + ∑ j in Finset.range (cfg.UNTRAIN u),
              (if itemOf cfg u j = m ∧ catOf cfg u j = r then
                (if (prePhase cfg u st).poshidstates h = 1 then 1 else 0) else 0)
    ∧ (processUser cfg u st).CDneg m c h
        = st.CDneg m c h
          + ∑ j in Finset.range (cfg.UNTRAIN u),
              (if itemOf cfg u j = m ∧ (lastNeg cfg u st).negvissoftmax (itemOf cfg u j) = c then
                ((lastNeg cfg u st).neghidstates h : α) else 0)
    ∧ ((prePhase cfg u st).poshidstates h = 0 ∨ (prePhase cfg u st).poshidstates h = 1)
    ∧ (afterChain cfg u st).poshidstates = (prePhase cfg u st).poshidstates
    ∧ ((lastNeg cfg u st).neghidstates h = 0 ∨ (lastNeg cfg u st).neghidstates h = 1)
    ∧ processUser cfg u st
        = forLoop (cfg.UNTRAIN u) (cdAccumStep cfg u)
            (gibbsStep cfg u (max st.tSteps 1 - 1) (lastStart cfg u st))
    ∧ (max st.tSteps 1 - 1) + 1 ≥ (lastStart cfg u st).tSteps
    ∧ (1 ≤ st.tSteps → max st.tSteps 1 = st.tSteps) := by
  have hsum := cdLoop_sums cfg u m r h hh (afterChain cfg u st)
  have hsum2 := cdLoop_sums cfg u m c h hh (afterChain cfg u st)
  have hch := chain_poshid _ _ (afterChain_chain cfg u st)
  have hpre := prePhase_drop cfg u st
  have hpos0 : (prePhase cfg u st).CDpos = st.CDpos :=
    (congrArg State.CDpos hpre : (dropPre _).CDpos = (dropPre st).CDpos)
  have hneg0 : (prePhase cfg u st).CDneg = st.CDneg :=
    (congrArg State.CDneg hpre : (dropPre _).CDneg = (dropPre st).CDneg)
  have hlast := afterChain_last cfg u st
  have hn := afterChain_neg cfg u st
  refine ⟨?_, ?_, prePhase_states cfg u h hh st, hch.2.1, ?_, ?_, ?_, ?_⟩
  · rw [processUser_afterChain, hsum.1, hch.2.2.2.2.1, hpos0, hch.2.1]
  · rw [processUser_afterChain, hsum2.2, hch.2.2.2.2.2.1, hneg0, hn.1, hn.2.1]
  · unfold lastNeg negPhase
    exact negHiddenLoop_states cfg _ h hh _
  · rw [processUser_afterChain, hlast.1]
    rfl
  · have ht : (lastStart cfg u st).tSteps = st.tSteps := hlast.2
    rw [ht]
    omega
  · intro h1
    omega

/-- Witness of `cd_accumulation`: hidden unit 0 of the user of `exEnv`, whose
first training entry is (item 0, category 2). -/
theorem cd_accumulation_witness :
    0 < exEnv.TOTAL_FEATURES
    ∧ (processUser exEnv 0 exWeights).CDpos 0 2 0
        = exWeights.CDpos 0 2 0
          + ∑ j in Finset.range (exEnv.UNTRAIN 0),
              (if itemOf exEnv 0 j = 0 ∧ catOf exEnv 0 j = 2 then
                (if (prePhase exEnv 0 exWeights).poshidstates 0 = 1 then 1 else 0) else 0)
    ∧ ((lastNeg exEnv 0 exWeights).neghidstates 0 = 0
        ∨ (lastNeg exEnv 0 exWeights).neghidstates 0 = 1) :=
  have hw := cd_accumulation exEnv 0 0 2 3 0 (by decide) exWeights
  ⟨by decide, hw.1, hw.2.2.2.2.1⟩

/-! ## The negative phase reads the training entries only; the frame of a user -/

theorem negSumLoop_sumW (cfg : Env α) (u h : Nat) (hh : h < cfg.TOTAL_FEATURES) (n : Nat)
    (t : State α) :
    (forLoop n (negSumStep cfg u) t).sumW h
      = t.sumW h
        + ∑ j in Finset.range n, t.vishid (itemOf cfg u j) (t.negvissoftmax (itemOf cfg u j)) h :=
  forLoop_sum (fun s : State α => s.sumW h) (fun s : State α => (s.vishid, s.negvissoftmax))
    (fun ro j => ro.1 (itemOf cfg u j) (ro.2 (itemOf cfg u j)) h) n (negSumStep cfg u) t
    (fun j s => by
      have e := addWeights_sumW cfg (itemOf cfg u j) (s.negvissoftmax (itemOf cfg u j)) h s
      rw [if_pos hh] at e
      exact e)
    (fun j s => by
      unfold negSumStep addWeights
      exact forLoop_keep (fun s : State α => (s.vishid, s.negvissoftmax)) _ _ s
        (fun _ _ _ => rfl))

theorem negSumLoop_keep (cfg : Env α) (u n : Nat) (t : State α) :
    (forLoop n (negSumStep cfg u) t).hidbiases = t.hidbiases
      ∧ (forLoop n (negSumStep cfg u) t).nrand = t.nrand
      ∧ (forLoop n (negSumStep cfg u) t).negvissoftmax = t.negvissoftmax
      ∧ (forLoop n (negSumStep cfg u) t).negvisact = t.negvisact := by
  have key := forLoop_keep
    (fun s : State α => (s.hidbiases, s.nrand, s.negvissoftmax, s.negvisact)) n
    (negSumStep cfg u) t (fun j _ s => by
      unfold negSumStep addWeights
      exact forLoop_keep
        (fun s : State α => (s.hidbiases, s.nrand, s.negvissoftmax, s.negvisact)) _ _ s
        (fun _ _ _ => rfl))
  simp only [Prod.mk.injEq] at key
  exact key

theorem negHiddenStep_run (cfg : Env α) (fin : Bool) (h : Nat) (t : State α) :
    (negHiddenStep cfg fin h t).sumW = t.sumW
      ∧ (negHiddenStep cfg fin h t).hidbiases = t.hidbiases
      ∧ (negHiddenStep cfg fin h t).nrand = t.nrand + 1
      ∧ (negHiddenStep cfg fin h t).negvissoftmax = t.negvissoftmax
      ∧ (negHiddenStep cfg fin h t).negvisact = t.negvisact
      ∧ (negHiddenStep cfg fin h t).neghidstates
          = upd1 t.neghidstates h
              (if 1 / (1 + cfg.exp (-t.sumW h - t.hidbiases h)) > cfg.rand t.nrand then 1
                else 0) := by
  unfold negHiddenStep drawNext drawVal
  simp only
  by_cases hp : upd1 t.neghidprobs h (1 / (1 + cfg.exp (-t.sumW h - t.hidbiases h))) h
      > cfg.rand t.nrand
  · have hp' : 1 / (1 + cfg.exp (-t.sumW h - t.hidbiases h)) > cfg.rand t.nrand := by
      simpa [upd1] using hp
    rw [if_pos hp, if_pos hp']
    split_ifs <;> exact ⟨rfl, rfl, rfl, rfl, rfl, rfl⟩
  · have hp' : ¬ 1 / (1 + cfg.exp (-t.sumW h - t.hidbiases h)) > cfg.rand t.nrand := by
      simpa [upd1] using hp
    rw [if_neg hp, if_neg hp']
    exact ⟨rfl, rfl, rfl, rfl, rfl, rfl⟩

/-- Lines 429-441 over the first `n` hidden units: unit `h < n` gets the
logistic of its weighted sum and is switched on when that exceeds the
`h`-th draw made by the loop. -/
theorem negHiddenLoop_run (cfg : Env α) (fin : Bool) (n : Nat) (t : State α) :
    (forLoop n (negHiddenStep cfg fin) t).sumW = t.sumW
      ∧ (forLoop n (negHiddenStep cfg fin) t).hidbiases = t.hidbiases
      ∧ (forLoop n (negHiddenStep cfg fin) t).nrand = t.nrand + n
      ∧ (forLoop n (negHiddenStep cfg fin) t).negvissoftmax = t.negvissoftmax
      ∧ (forLoop n (negHiddenStep cfg fin) t).negvisact = t.negvisact
      ∧ ∀ h, h < n →
          (forLoop n (negHiddenStep cfg fin) t).neghidprobs h
              = 1 / (1 + cfg.exp (-t.sumW h - t.hidbiases h))
            ∧ (forLoop n (negHiddenStep cfg fin) t).neghidstates h
              = (if 1 / (1 + cfg.exp (-t.sumW h - t.hidbiases h)) > cfg.rand (t.nrand + h)
                  then 1 else 0) := by
  induction n with
  | zero => exact ⟨rfl, rfl, rfl, rfl, rfl, fun h hh => absurd hh (Nat.not_lt_zero h)⟩
  | succ k ih =>
    obtain ⟨i1, i2, i3, i4, i5, i6⟩ := ih
    have hs := negHiddenStep_run cfg fin k (forLoop k (negHiddenStep cfg fin) t)
    obtain ⟨s1, s2, s3, s4, s5, s6⟩ := hs
    rw [forLoop_succ]
    refine ⟨s1.trans i1, s2.trans i2, ?_, s4.trans i4, s5.trans i5, ?_⟩
    · rw [s3, i3, Nat.add_assoc]
    · intro h hh
      rw [negHiddenStep_probs, s6, i1, i2, i3]
      by_cases hk : h = k
      · subst hk
        simp [upd1]
      · have hlt : h < k := by omega
        simp only [upd1, if_neg hk]
        exact i6 h hlt

theorem reconLoop_params (cfg : Env α) (u stepT : Nat) (t : State α) :
    (reconLoop cfg u stepT t).vishid = t.vishid
      ∧ (reconLoop cfg u stepT t).visbiases = t.visbiases
      ∧ (reconLoop cfg u stepT t).hidbiases = t.hidbiases := by
  apply chain_params
  unfold reconLoop
  exact forLoop_keep chainKeep _ _ t (fun i _ s => visReconStep_chain cfg u stepT _ i s)

/-- Lines 420-441 of a Gibbs step: the hidden probabilities and states are
computed from the weights of the training entries only, at the categories
sampled by the reconstruction. -/
theorem negPhase_hidden (cfg : Env α) (u stepT h : Nat) (hh : h < cfg.TOTAL_FEATURES)
    (t : State α) :
    (negPhase cfg u stepT t).neghidprobs h
        = 1 / (1 + cfg.exp
            (-(trainSum cfg u t.vishid (reconLoop cfg u stepT t).negvissoftmax h)
              - t.hidbiases h))
      ∧ (negPhase cfg u stepT t).neghidstates h
        = (if 1 / (1 + cfg.exp
              (-(trainSum cfg u t.vishid (reconLoop cfg u stepT t).negvissoftmax h)
                - t.hidbiases h))
            > cfg.rand ((reconLoop cfg u stepT t).nrand + h) then 1 else 0)
      ∧ (negPhase cfg u stepT t).negvissoftmax = (reconLoop cfg u stepT t).negvissoftmax := by
  have hp := reconLoop_params cfg u stepT t
  have hsum := negSumLoop_sumW cfg u h hh (cfg.UNTRAIN u)
    { reconLoop cfg u stepT t with sumW := fun _ => 0 }
  have hkeep := negSumLoop_keep cfg u (cfg.UNTRAIN u)
    { reconLoop cfg u stepT t with sumW := fun _ => 0 }
  have hrun := negHiddenLoop_run cfg (decide (stepT + 1 ≥ t.tSteps)) cfg.TOTAL_FEATURES
    (forLoop (cfg.UNTRAIN u) (negSumStep cfg u)
      { reconLoop cfg u stepT t with sumW := fun _ => 0 })
  have hS : (forLoop (cfg.UNTRAIN u) (negSumStep cfg u)
      { reconLoop cfg u stepT t with sumW := fun _ => 0 }).sumW h
      = trainSum cfg u t.vishid (reconLoop cfg u stepT t).negvissoftmax h := by
    rw [hsum]
    simp only [hp.1, zero_add]
    rfl
  have hB : (forLoop (cfg.UNTRAIN u) (negSumStep cfg u)
      { reconLoop cfg u stepT t with sumW := fun _ => 0 }).hidbiases = t.hidbiases :=
    hkeep.1.trans hp.2.2
  have hN : (forLoop (cfg.UNTRAIN u) (negSumStep cfg u)
      { reconLoop cfg u stepT t with sumW := fun _ => 0 }).nrand
      = (reconLoop cfg u stepT t).nrand := hkeep.2.1
  have hh6 := hrun.2.2.2.2.2 h hh
  rw [hS, hB, hN] at hh6
  exact ⟨hh6.1, hh6.2, hrun.2.2.2.1.trans hkeep.2.2.1⟩

theorem visAccumLoop_negvisact (m stepT n : Nat) (t : State α) :
    (forLoop n (visAccumStep m stepT) t).negvisact = t.negvisact := by
  apply forLoop_keep (fun s : State α => s.negvisact)
  intro h _ s
  unfold visAccumStep
  simp only
  split_ifs
  · rw [forLoop_keep (fun s : State α => s.negvisact),
      forLoop_keep (fun s : State α => s.negvisact)]
    all_goals intro i _ t'; rfl
  · rw [forLoop_keep (fun s : State α => s.negvisact)]
    intro i _ t'; rfl
  · rw [forLoop_keep (fun s : State α => s.negvisact)]
    intro i _ t'; rfl
  · rfl

theorem visReconStep_negvisact (cfg : Env α) (u stepT : Nat) (fin : Bool) (j m : Nat)
    (hm : j < cfg.UNTRAIN u → itemOf cfg u j ≠ m) (t : State α) :
    (visReconStep cfg u stepT fin j t).negvisact m = t.negvisact m := by
  have hn := visAccumLoop_negvisact (entMovie cfg (cfg.useridx u 0 + j)) stepT
    cfg.TOTAL_FEATURES t
  rw [← hn]
  unfold visReconStep drawNext
  simp only
  by_cases hj : j < cfg.UNTRAIN u ∧ fin = true
  · have hne : ¬ m = entMovie cfg (cfg.useridx u 0 + j) := fun hx => hm hj.1 hx.symm
    rw [if_pos hj]
    funext c
    split_ifs <;> simp [upd2, hne]
  · rw [if_neg hj]
    split_ifs <;> rfl

theorem gibbsStep_negvisact (cfg : Env α) (u stepT m : Nat)
    (hm : ∀ j, j < cfg.UNTRAIN u → itemOf cfg u j ≠ m) (t : State α) :
    (gibbsStep cfg u stepT t).negvisact m = t.negvisact m := by
  rw [(gibbsStep_hidden cfg u stepT t).2.2.2.2.1]
  have hrun := negHiddenLoop_run cfg (decide (stepT + 1 ≥ t.tSteps)) cfg.TOTAL_FEATURES
    (forLoop (cfg.UNTRAIN u) (negSumStep cfg u)
      { reconLoop cfg u stepT t with sumW := fun _ => 0 })
  have hkeep := negSumLoop_keep cfg u (cfg.UNTRAIN u)
    { reconLoop cfg u stepT t with sumW := fun _ => 0 }
  have hrec : (reconLoop cfg u stepT t).negvisact m = t.negvisact m := by
    unfold reconLoop
    exact forLoop_keep (fun s : State α => s.negvisact m) _ _ t
      (fun j _ s => visReconStep_negvisact cfg u stepT _ j m (hm j) s)
  have hall : (negPhase cfg u stepT t).negvisact = (reconLoop cfg u stepT t).negvisact :=
    hrun.2.2.2.2.1.trans hkeep.2.2.2
  rw [hall, hrec]

theorem prePhase_posvisact (cfg : Env α) (u m : Nat)
    (hm : ∀ j, j < cfg.UNTRAIN u → itemOf cfg u j ≠ m) (st : State α) :
    (prePhase cfg u st).posvisact m = st.posvisact m := by
  have hpos : (posPhase cfg u st).posvisact m = st.posvisact m := by
    unfold posPhase
    simp only
    rw [forLoop_keep (fun s : State α => s.posvisact m)]
    intro j hj t
    have hne : ¬ m = entMovie cfg (cfg.useridx u 0 + j) := fun hx => hm j hj hx.symm
    unfold posAccumStep addWeights
    simp only
    rw [forLoop_keep (fun s : State α => s.posvisact m)]
    · funext c
      simp [upd2, hne]
    · intro _ _ _
      rfl
  have hhid : ∀ t : State α,
      (forLoop cfg.TOTAL_FEATURES (posHiddenStep cfg) t).posvisact = t.posvisact := by
    intro t
    apply forLoop_keep (fun s : State α => s.posvisact)
    intro h _ t'
    unfold posHiddenStep drawNext
    simp only
    split_ifs <;> rfl
  have hcopy : (prePhase cfg u st).posvisact
      = (forLoop cfg.TOTAL_FEATURES (posHiddenStep cfg) (posPhase cfg u st)).posvisact := by
    unfold prePhase
    exact forLoop_keep (fun s : State α => s.posvisact) _ _ _ (fun _ _ _ => rfl)
  rw [hcopy, hhid, hpos]

theorem cdLoop_frame (cfg : Env α) (u m : Nat)
    (hm : ∀ j, j < cfg.UNTRAIN u → itemOf cfg u j ≠ m) (t : State α) :
    (forLoop (cfg.UNTRAIN u) (cdAccumStep cfg u) t).CDpos m = t.CDpos m
      ∧ (forLoop (cfg.UNTRAIN u) (cdAccumStep cfg u) t).CDneg m = t.CDneg m := by
  have key := forLoop_keep (fun s : State α => (s.CDpos m, s.CDneg m)) (cfg.UNTRAIN u)
    (cdAccumStep cfg u) t (fun j hj s => by
      have hne : ¬ m = entMovie cfg (cfg.useridx u 0 + j) := fun hx => hm j hj hx.symm
      unfold cdAccumStep
      apply forLoop_keep (fun s : State α => (s.CDpos m, s.CDneg m))
      intro h _ s'
      unfold cdCell
      simp only
      split_ifs
      · simp only [Prod.mk.injEq]
        constructor
        · funext r k
          simp [upd3, hne]
        · funext r k
          simp [upd3, hne]
      · refine Prod.ext rfl ?_
        funext r k
        simp [upd3, hne])
  simp only [Prod.mk.injEq] at key
  exact key

/-- C20: processing user `u` (lines 275-501, before any mini-batch update)
leaves `CDpos[m]`, `CDneg[m]`, `posvisact[m]`, `negvisact[m]` and
`moviecount[m]` unchanged for every item `m` that no training entry of the
user names (an item named only by probe entries is such an item); and in
every Gibbs step the hidden probability and state of unit `h` are computed
from the weighted sum over the training entries only, at the categories the
reconstruction of that step sampled. -/
theorem accumulators_touch_training_items_only (cfg : Env α) (u m : Nat) (st : State α) :
    ((∀ j, j < cfg.UNTRAIN u → itemOf cfg u j ≠ m) →
      (processUser cfg u st).CDpos m = st.CDpos m
        ∧ (processUser cfg u st).CDneg m = st.CDneg m
        ∧ (processUser cfg u st).posvisact m = st.posvisact m
        ∧ (processUser cfg u st).negvisact m = st.negvisact m
        ∧ (processUser cfg u st).moviecount m = st.moviecount m)
    ∧ (∀ (stepT h : Nat) (t : State α), h < cfg.TOTAL_FEATURES →
        (gibbsStep cfg u stepT t).neghidprobs h
            = 1 / (1 + cfg.exp
                (-(trainSum cfg u t.vishid (reconLoop cfg u stepT t).negvissoftmax h)
                  - t.hidbiases h))
          ∧ (gibbsStep cfg u stepT t).neghidstates h
            = (if 1 / (1 + cfg.exp
                  (-(trainSum cfg u t.vishid (reconLoop cfg u stepT t).negvissoftmax h)
                    - t.hidbiases h))
                > cfg.rand ((reconLoop cfg u stepT t).nrand + h) then 1 else 0)) := by
  constructor
  · intro hm
    have hcd := cdLoop_frame cfg u m hm (afterChain cfg u st)
    have hdrop := cdLoop_drop cfg u (cfg.UNTRAIN u) (afterChain cfg u st)
    have hch := chain_poshid _ _ (afterChain_chain cfg u st)
    have hpre := prePhase_drop cfg u st
    have hpos0 : (prePhase cfg u st).CDpos = st.CDpos :=
      (congrArg State.CDpos hpre : (dropPre _).CDpos = (dropPre st).CDpos)
    have hneg0 : (prePhase cfg u st).CDneg = st.CDneg :=
      (congrArg State.CDneg hpre : (dropPre _).CDneg = (dropPre st).CDneg)
    have hnva0 : (prePhase cfg u st).negvisact = st.negvisact :=
      (congrArg State.negvisact hpre : (dropPre _).negvisact = (dropPre st).negvisact)
    have hpva : (forLoop (cfg.UNTRAIN u) (cdAccumStep cfg u) (afterChain cfg u st)).posvisact
        = (afterChain cfg u st).posvisact :=
      (congrArg State.posvisact hdrop : (dropCD _).posvisact = (dropCD _).posvisact)
    have hnva : (forLoop (cfg.UNTRAIN u) (cdAccumStep cfg u) (afterChain cfg u st)).negvisact
        = (afterChain cfg u st).negvisact :=
      (congrArg State.negvisact hdrop : (dropCD _).negvisact = (dropCD _).negvisact)
    have hchain : (afterChain cfg u st).negvisact m = (prePhase cfg u st).negvisact m := by
      unfold afterChain
      exact forLoop_keep (fun s : State α => s.negvisact m) _ _ _
        (fun i _ t => gibbsStep_negvisact cfg u i m hm t)
    have hcount : trainCount cfg u m = 0 := by
      unfold trainCount
      apply Finset.sum_eq_zero
      intro j hj
      have hne : ¬ entMovie cfg (cfg.useridx u 0 + j) = m := hm j (Finset.mem_range.mp hj)
      rw [if_neg hne]
    refine ⟨?_, ?_, ?_, ?_, ?_⟩
    · rw [processUser_afterChain, hcd.1, hch.2.2.2.2.1, hpos0]
    · rw [processUser_afterChain, hcd.2, hch.2.2.2.2.2.1, hneg0]
    · rw [processUser_afterChain, hpva, hch.2.2.2.1, prePhase_posvisact cfg u m hm]
    · rw [processUser_afterChain, hnva, hchain, hnva0]
    · rw [processUser_moviecount, hcount, Nat.add_zero]
  · intro stepT h t hh
    have hg := gibbsStep_hidden cfg u stepT t
    have hn := negPhase_hidden cfg u stepT h hh t
    rw [hg.1, hg.2.1]
    exact ⟨hn.1, hn.2.1⟩

/-- Witness of `accumulators_touch_training_items_only`: item 2 of `exEnv`
is named by the probe entry of user 0 and by none of the two training
entries. -/
theorem accumulators_touch_training_items_only_witness :
    (∀ j, j < exEnv.UNTRAIN 0 → itemOf exEnv 0 j ≠ 2)
    ∧ itemOf exEnv 0 2 = 2
    ∧ (processUser exEnv 0 exWeights).CDpos 2 = exWeights.CDpos 2
    ∧ (processUser exEnv 0 exWeights).CDneg 2 = exWeights.CDneg 2
    ∧ (processUser exEnv 0 exWeights).posvisact 2 = exWeights.posvisact 2
    ∧ (processUser exEnv 0 exWeights).negvisact 2 = exWeights.negvisact 2
    ∧ (processUser exEnv 0 exWeights).moviecount 2 = exWeights.moviecount 2 :=
  ⟨by decide, by decide,
    (accumulators_touch_training_items_only exEnv 0 2 exWeights).1 (by decide)⟩

/-! ## The error sums, lines 444-471 -/

/-- An observation that only iteration 0 changes is, after a loop of at least
one iteration, the one made right after iteration 0. -/
theorem forLoop_first {β : Type} (obs : σ → β) (n : Nat) (body : Nat → σ → σ) (s : σ)
    (hne : ∀ i, i ≠ 0 → ∀ t, obs (body i t) = obs t) :
    obs (forLoop (n + 1) body s) = obs (body 0 s) := by
  induction n with
  | zero => rfl
  | succ k ih =>
    rw [forLoop_succ, hne (k + 1) (Nat.succ_ne_zero k), ih]

theorem trainErrLoop_sums (cfg : Env α) (u n : Nat) (t : State α) :
    (forLoop n (trainErrStep cfg u) t).nrmse
        = t.nrmse + ∑ j in Finset.range n, sqResidual cfg t.nvp2 (cfg.useridx u 0 + j)
      ∧ (forLoop n (trainErrStep cfg u) t).s = t.s
      ∧ (forLoop n (trainErrStep cfg u) t).n = t.n
      ∧ (forLoop n (trainErrStep cfg u) t).ntrain = t.ntrain
      ∧ (forLoop n (trainErrStep cfg u) t).nvp2 = t.nvp2 := by
  have hsum := forLoop_sum (fun s : State α => s.nrmse) (fun s : State α => s.nvp2)
    (fun ro j => sqResidual cfg ro (cfg.useridx u 0 + j)) n (trainErrStep cfg u) t
    (fun _ _ => rfl) (fun _ _ => rfl)
  have hkeep := forLoop_keep (fun s : State α => (s.s, s.n, s.ntrain, s.nvp2)) n
    (trainErrStep cfg u) t (fun _ _ _ => rfl)
  simp only [Prod.mk.injEq] at hkeep
  exact ⟨hsum, hkeep⟩

theorem probeErrLoop_sums (cfg : Env α) (base n : Nat) (t : State α) :
    (forLoop n (probeErrStep cfg base) t).s
        = t.s + ∑ i in Finset.range n, sqResidual cfg t.nvp2 (base + i)
      ∧ (forLoop n (probeErrStep cfg base) t).nrmse = t.nrmse
      ∧ (forLoop n (probeErrStep cfg base) t).n = t.n
      ∧ (forLoop n (probeErrStep cfg base) t).ntrain = t.ntrain
      ∧ (forLoop n (probeErrStep cfg base) t).nvp2 = t.nvp2 := by
  have hsum := forLoop_sum (fun s : State α => s.s) (fun s : State α => s.nvp2)
    (fun ro i => sqResidual cfg ro (base + i)) n (probeErrStep cfg base) t
    (fun _ _ => rfl) (fun _ _ => rfl)
  have hkeep := forLoop_keep (fun s : State α => (s.nrmse, s.n, s.ntrain, s.nvp2)) n
    (probeErrStep cfg base) t (fun _ _ _ => rfl)
  simp only [Prod.mk.injEq] at hkeep
  exact ⟨hsum, hkeep⟩

/-- Lines 444-471: the block run in Gibbs step 0 adds the squared residual of
every training entry to `nrmse` and of every probe entry to `s`, and the
numbers of these entries to `ntrain` and `n`. -/
theorem errAccum_sums (cfg : Env α) (u : Nat) (t : State α) :
    (errAccum cfg u t).nrmse = t.nrmse + trainSq cfg u t.nvp2
      ∧ (errAccum cfg u t).s = t.s + probeSq cfg u t.nvp2
      ∧ (errAccum cfg u t).ntrain = t.ntrain + cfg.UNTRAIN u
      ∧ (errAccum cfg u t).n = t.n + cfg.useridx u 2 := by
  have h1 := trainErrLoop_sums cfg u (cfg.UNTRAIN u) t
  have h2 := probeErrLoop_sums cfg (cfg.useridx u 0 + cfg.useridx u 1) (cfg.useridx u 2)
    { forLoop (cfg.UNTRAIN u) (trainErrStep cfg u) t with
      ntrain := (forLoop (cfg.UNTRAIN u) (trainErrStep cfg u) t).ntrain + cfg.UNTRAIN u }
  obtain ⟨a1, a2, a3, a4, a5⟩ := h1
  obtain ⟨b1, b2, b3, b4, b5⟩ := h2
  simp only at b1 b2 b3 b4 b5
  unfold errAccum
  simp only
  refine ⟨?_, ?_, ?_, ?_⟩
  · rw [b2, a1]
    rfl
  · rw [b1, a2, a5]
    rfl
  · rw [b4, a4]
  · rw [b3, a3]

theorem visReconStep_errSums (cfg : Env α) (u stepT : Nat) (fin : Bool) (j : Nat)
    (t : State α) :
    errSums (visReconStep cfg u stepT fin j t) = errSums t := by
  have hstep : ∀ (h : Nat) (s : State α),
      errSums (visAccumStep (entMovie cfg (cfg.useridx u 0 + j)) stepT h s) = errSums s := by
    intro h s
    unfold visAccumStep
    simp only
    split_ifs
    · rw [forLoop_keep errSums, forLoop_keep errSums]
      all_goals intro i _ t'; rfl
    · rw [forLoop_keep errSums]
      intro i _ t'; rfl
    · rw [forLoop_keep errSums]
      intro i _ t'; rfl
    · rfl
  have hacc := forLoop_keep errSums cfg.TOTAL_FEATURES
    (visAccumStep (entMovie cfg (cfg.useridx u 0 + j)) stepT) t (fun i _ s => hstep i s)
  unfold visReconStep drawNext
  simp only
  split_ifs <;> exact hacc

theorem visReconStep_nvp_later (cfg : Env α) (u stepT : Nat) (hs : stepT ≠ 0) (fin : Bool)
    (j : Nat) (t : State α) :
    (visReconStep cfg u stepT fin j t).nvp2 = t.nvp2 := by
  rw [visReconStep_nvp, if_neg hs]
  funext m c
  rw [visAccumLoop_nvp]
  simp [hs]

/-- Lines 420-441 leave the error sums and the reconstruction `nvp2` alone. -/
theorem negTail_keep (cfg : Env α) (u : Nat) (fin : Bool) (t : State α) :
    errSums (forLoop cfg.TOTAL_FEATURES (negHiddenStep cfg fin)
        (forLoop (cfg.UNTRAIN u) (negSumStep cfg u) { t with sumW := fun _ => 0 }))
        = errSums t
      ∧ (forLoop cfg.TOTAL_FEATURES (negHiddenStep cfg fin)
        (forLoop (cfg.UNTRAIN u) (negSumStep cfg u) { t with sumW := fun _ => 0 })).nvp2
        = t.nvp2 := by
  have h1 := forLoop_keep (fun s : State α => (errSums s, s.nvp2)) (cfg.UNTRAIN u)
    (negSumStep cfg u) { t with sumW := fun _ => 0 } (fun j _ s => by
      unfold negSumStep addWeights
      exact forLoop_keep (fun s : State α => (errSums s, s.nvp2)) _ _ s (fun _ _ _ => rfl))
  have h2 := forLoop_keep (fun s : State α => (errSums s, s.nvp2)) cfg.TOTAL_FEATURES
    (negHiddenStep cfg fin)
    (forLoop (cfg.UNTRAIN u) (negSumStep cfg u) { t with sumW := fun _ => 0 })
    (fun h _ s => by
      unfold negHiddenStep drawNext
      simp only
      split_ifs <;> rfl)
  have h3 := h2.trans h1
  simp only [Prod.mk.injEq] at h3
  exact h3

theorem negPhase_errSums (cfg : Env α) (u stepT : Nat) (t : State α) :
    errSums (negPhase cfg u stepT t) = errSums t
      ∧ (stepT ≠ 0 → (negPhase cfg u stepT t).nvp2 = t.nvp2) := by
  have htail := negTail_keep cfg u (decide (stepT + 1 ≥ t.tSteps)) (reconLoop cfg u stepT t)
  have hrec : errSums (reconLoop cfg u stepT t) = errSums t := by
    unfold reconLoop
    exact forLoop_keep errSums _ _ t (fun j _ s => visReconStep_errSums cfg u stepT _ j s)
  refine ⟨htail.1.trans hrec, ?_⟩
  intro hs
  have hn : (reconLoop cfg u stepT t).nvp2 = t.nvp2 := by
    unfold reconLoop
    exact forLoop_keep (fun s : State α => s.nvp2) _ _ t
      (fun j _ s => visReconStep_nvp_later cfg u stepT hs _ j s)
  exact htail.2.trans hn

/-- A Gibbs step other than step 0 leaves the error sums and `nvp2` alone;
step 0 adds the squared residuals for the `nvp2` it has just computed. -/
theorem gibbsStep_errSums (cfg : Env α) (u stepT : Nat) (t : State α) :
    (stepT ≠ 0 →
      errSums (gibbsStep cfg u stepT t) = errSums t ∧ (gibbsStep cfg u stepT t).nvp2 = t.nvp2)
    ∧ (stepT = 0 →
      errSums (gibbsStep cfg u stepT t)
        = (t.nrmse + trainSq cfg u (negPhase cfg u 0 t).nvp2,
            t.s + probeSq cfg u (negPhase cfg u 0 t).nvp2,
            t.n + cfg.useridx u 2, t.ntrain + cfg.UNTRAIN u)
      ∧ (gibbsStep cfg u stepT t).nvp2 = (negPhase cfg u 0 t).nvp2) := by
  have hnvp := (gibbsStep_hidden cfg u stepT t).2.2.2.1
  have hneg := negPhase_errSums cfg u stepT t
  have hc : ∀ x : State α, errSums (carryHidden cfg x) = errSums x := by
    intro x
    have hx := carryHidden_hidden cfg x
    unfold errSums
    rw [hx.2.2.2.2.2.2.1, hx.2.2.2.2.2.2.2.1, hx.2.2.2.2.2.2.2.2.1, hx.2.2.2.2.2.2.2.2.2]
  constructor
  · intro hs
    refine ⟨?_, hnvp.trans (hneg.2 hs)⟩
    rw [gibbsStep_eq]
    simp only [if_neg hs]
    split_ifs
    · rw [hc]
      exact hneg.1
    · exact hneg.1
  · intro hs
    subst hs
    refine ⟨?_, hnvp⟩
    have he := errAccum_sums cfg u (negPhase cfg u 0 t)
    have hn : errSums (negPhase cfg u 0 t) = errSums t := hneg.1
    unfold errSums at hn
    simp only [Prod.mk.injEq] at hn
    have hfin : errSums (errAccum cfg u (negPhase cfg u 0 t))
        = (t.nrmse + trainSq cfg u (negPhase cfg u 0 t).nvp2,
            t.s + probeSq cfg u (negPhase cfg u 0 t).nvp2,
            t.n + cfg.useridx u 2, t.ntrain + cfg.UNTRAIN u) := by
      unfold errSums
      rw [he.1, he.2.1, he.2.2.1, he.2.2.2, hn.1, hn.2.1, hn.2.2.1, hn.2.2.2]
    rw [gibbsStep_eq]
    simp only [if_true]
    split_ifs
    · rw [hc]
      exact hfin
    · exact hfin

/-- The error sums after user `u` has been processed from state `st`: the
squared residuals for the reconstruction of Gibbs step 0 are added once,
whatever the sampling depth. -/
theorem processUser_errSums (cfg : Env α) (u : Nat) (st : State α) :
    errSums (processUser cfg u st)
        = (st.nrmse + trainSq cfg u (stepZeroNvp cfg u st),
            st.s + probeSq cfg u (stepZeroNvp cfg u st),
            st.n + cfg.useridx u 2, st.ntrain + cfg.UNTRAIN u)
      ∧ (processUser cfg u st).nvp2 = stepZeroNvp cfg u st := by
  have hdrop := cdLoop_drop cfg u (cfg.UNTRAIN u) (afterChain cfg u st)
  have hcd : (fun s : State α => (errSums s, s.nvp2))
      (forLoop (cfg.UNTRAIN u) (cdAccumStep cfg u) (afterChain cfg u st))
      = (fun s : State α => (errSums s, s.nvp2)) (afterChain cfg u st) :=
    (congrArg (fun s : State α => (errSums s, s.nvp2)) hdrop :
      (fun s : State α => (errSums s, s.nvp2)) (dropCD _)
        = (fun s : State α => (errSums s, s.nvp2)) (dropCD _))
  have hmax : max st.tSteps 1 = (max st.tSteps 1 - 1) + 1 := by omega
  have hfirst := forLoop_first (fun s : State α => (errSums s, s.nvp2)) (max st.tSteps 1 - 1)
    (gibbsStep cfg u) (prePhase cfg u st) (fun i hi t => by
      have hg := (gibbsStep_errSums cfg u i t).1 hi
      exact Prod.ext hg.1 hg.2)
  have hchain : (fun s : State α => (errSums s, s.nvp2)) (afterChain cfg u st)
      = (fun s : State α => (errSums s, s.nvp2)) (gibbsStep cfg u 0 (prePhase cfg u st)) := by
    unfold afterChain
    rw [hmax]
    exact hfirst
  have hzero := (gibbsStep_errSums cfg u 0 (prePhase cfg u st)).2 rfl
  have hpre : errSums (prePhase cfg u st) = errSums st :=
    (congrArg errSums (prePhase_drop cfg u st) :
      errSums (dropPre _) = errSums (dropPre st))
  unfold errSums at hpre
  simp only [Prod.mk.injEq] at hpre
  have hall := hcd.trans hchain
  simp only [Prod.mk.injEq] at hall
  rw [processUser_afterChain]
  refine ⟨?_, hall.2.trans hzero.2⟩
  rw [hall.1, hzero.1, hpre.1, hpre.2.1, hpre.2.2.1, hpre.2.2.2]
  rfl

theorem miniBatchUpdate_errSums (cfg : Env α) (u : Nat) (st : State α) :
    errSums (miniBatchUpdate cfg u st) = errSums st := by
  have hmovie : ∀ (m : Nat) (t : State α), errSums (updateMovie cfg m t) = errSums t := by
    intro m t
    unfold updateMovie
    simp only
    split_ifs
    · rfl
    · rw [forLoop_keep errSums]
      · apply forLoop_keep errSums
        intro i _ t'
        apply forLoop_keep errSums
        intro r _ t''
        unfold weightCell
        simp only
        split_ifs <;> rfl
      · intro i _ t'
        unfold visBiasCell
        simp only
        split_ifs <;> rfl
  have h1 := forLoop_keep errSums cfg.NMOVIES (updateMovie cfg) st
    (fun i _ t => hmovie i t)
  have h2 := forLoop_keep errSums cfg.TOTAL_FEATURES (hidBiasCell (u % bsize + 1))
    (forLoop cfg.NMOVIES (updateMovie cfg) st) (fun i _ t => by
      unfold hidBiasCell
      simp only
      split_ifs <;> rfl)
  exact h2.trans h1

theorem userStep_errSums (cfg : Env α) (u : Nat) (st : State α) :
    errSums (userStep cfg u st) = errSums (processUser cfg u st) := by
  unfold userStep
  simp only
  split_ifs
  · exact miniBatchUpdate_errSums cfg u _
  · rfl

/-- The error sums after the first `k` users of an epoch begun in state `st`. -/
theorem beforeUser_errSums (cfg : Env α) (st : State α) (k : Nat) :
    errSums (beforeUser cfg st k)
      = (∑ u in Finset.range k, trainSq cfg u (stepZeroNvp cfg u (beforeUser cfg st u)),
          ∑ u in Finset.range k, probeSq cfg u (stepZeroNvp cfg u (beforeUser cfg st u)),
          ∑ u in Finset.range k, cfg.useridx u 2,
          ∑ u in Finset.range k, cfg.UNTRAIN u) := by
  induction k with
  | zero =>
    simp only [Finset.range_zero, Finset.sum_empty]
    show errSums (epochStart st) = _
    unfold epochStart setMomentum zeroAccumulators errSums
    simp only
    split_ifs <;> rfl
  | succ k ih =>
    rw [beforeUser_succ, userStep_errSums, (processUser_errSums cfg k _).1]
    unfold errSums at ih
    simp only [Prod.mk.injEq] at ih
    rw [ih.1, ih.2.1, ih.2.2.1, ih.2.2.2]
    simp only [Finset.sum_range_succ]

theorem decayRates_errors (cfg : Env α) (x : State α) :
    (decayRates cfg x).nrmse = x.nrmse ∧ (decayRates cfg x).prmse = x.prmse
      ∧ (decayRates cfg x).n = x.n ∧ (decayRates cfg x).ntrain = x.ntrain := by
  unfold decayRates
  simp only
  split_ifs <;> exact ⟨rfl, rfl, rfl, rfl⟩

/-- C14: processing one user adds to `nrmse` the squared residual
`(r - (nvp2[m][1] + 2 nvp2[m][2] + 3 nvp2[m][3] + 4 nvp2[m][4]))^2` of each of
the user's training entries once, and to `s` that of each of the entries of
the probe segment (which lines 459-462 start at `useridx[u][0] +
useridx[u][1]`) once, `nvp2` being the reconstruction of Gibbs step 0, which
is also the `nvp2` left when the user is done; this holds for every sampling
depth.  `ntrain` and `n` grow by the numbers of these entries.  Over the
users of an epoch the sums start at zero, so that before line 573 they are
the sums over all users, `ntrain` and `n` at the end of the epoch are the
total numbers of training and probe entries, and the epoch reports the
square roots of the two means.  When the training entries of a user end
where the probe segment starts (`UNTRAIN(u) ≤ useridx[u][1]`), no entry is
in both sums. -/
theorem error_sums_once (cfg : Env α) (st : State α) :
    (∀ (u : Nat) (s : State α),
      (processUser cfg u s).nrmse = s.nrmse + trainSq cfg u (stepZeroNvp cfg u s)
        ∧ (processUser cfg u s).s = s.s + probeSq cfg u (stepZeroNvp cfg u s)
        ∧ (processUser cfg u s).ntrain = s.ntrain + cfg.UNTRAIN u
        ∧ (processUser cfg u s).n = s.n + cfg.useridx u 2
        ∧ (processUser cfg u s).nvp2 = stepZeroNvp cfg u s)
    ∧ ((beforeUser cfg st cfg.NUSERS).nrmse
          = ∑ u in Finset.range cfg.NUSERS,
              trainSq cfg u (stepZeroNvp cfg u (beforeUser cfg st u))
        ∧ (beforeUser cfg st cfg.NUSERS).s
          = ∑ u in Finset.range cfg.NUSERS,
              probeSq cfg u (stepZeroNvp cfg u (beforeUser cfg st u)))
    ∧ ((epochBody cfg st).ntrain = ∑ u in Finset.range cfg.NUSERS, cfg.UNTRAIN u
        ∧ (epochBody cfg st).n = ∑ u in Finset.range cfg.NUSERS, cfg.useridx u 2
        ∧ (epochBody cfg st).nrmse
          = cfg.sqrt ((beforeUser cfg st cfg.NUSERS).nrmse
              / ((∑ u in Finset.range cfg.NUSERS, cfg.UNTRAIN u : Nat) : α))
        ∧ (epochBody cfg st).prmse
          = cfg.sqrt ((beforeUser cfg st cfg.NUSERS).s
              / ((∑ u in Finset.range cfg.NUSERS, cfg.useridx u 2 : Nat) : α)))
    ∧ (∀ u, cfg.UNTRAIN u ≤ cfg.useridx u 1 →
        ∀ j, j < cfg.UNTRAIN u → ∀ i, i < cfg.useridx u 2 →
          cfg.useridx u 0 + j ≠ cfg.useridx u 0 + cfg.useridx u 1 + i) := by
  have hep := beforeUser_errSums cfg st cfg.NUSERS
  unfold errSums at hep
  simp only [Prod.mk.injEq] at hep
  refine ⟨?_, ⟨hep.1, hep.2.1⟩, ?_, ?_⟩
  · intro u s
    have hu := processUser_errSums cfg u s
    have h1 := hu.1
    unfold errSums at h1
    simp only [Prod.mk.injEq] at h1
    exact ⟨h1.1, h1.2.1, h1.2.2.2, h1.2.2.1, hu.2⟩
  · have hd := decayRates_errors cfg
      { ({ beforeUser cfg st cfg.NUSERS with
            nrmse := cfg.sqrt ((beforeUser cfg st cfg.NUSERS).nrmse
              / ((beforeUser cfg st cfg.NUSERS).ntrain : α)) } : State α) with
        prmse := cfg.sqrt ((beforeUser cfg st cfg.NUSERS).s
          / ((beforeUser cfg st cfg.NUSERS).n : α)) }
    have he : epochBody cfg st = decayRates cfg
      { ({ beforeUser cfg st cfg.NUSERS with
            nrmse := cfg.sqrt ((beforeUser cfg st cfg.NUSERS).nrmse
              / ((beforeUser cfg st cfg.NUSERS).ntrain : α)) } : State α) with
        prmse := cfg.sqrt ((beforeUser cfg st cfg.NUSERS).s
          / ((beforeUser cfg st cfg.NUSERS).n : α)) } := rfl
    rw [he, hd.1, hd.2.1, hd.2.2.1, hd.2.2.2]
    simp only
    rw [hep.2.2.1, hep.2.2.2]
    exact ⟨rfl, rfl, rfl, rfl⟩
  · intro u hle j hj i _
    omega

/-- Witness of `error_sums_once`: the user of `exEnv` has two training
entries and its probe segment starts at entry 2. -/
theorem error_sums_once_witness :
    exEnv.UNTRAIN 0 ≤ exEnv.useridx 0 1
    ∧ (∀ j, j < exEnv.UNTRAIN 0 → ∀ i, i < exEnv.useridx 0 2 →
        exEnv.useridx 0 0 + j ≠ exEnv.useridx 0 0 + exEnv.useridx 0 1 + i)
    ∧ (processUser exEnv 0 exWeights).ntrain = exWeights.ntrain + exEnv.UNTRAIN 0
    ∧ (epochBody exEnv exWeights).ntrain = ∑ u in Finset.range exEnv.NUSERS, exEnv.UNTRAIN u :=
  have hw := error_sums_once exEnv exWeights
  ⟨by decide, hw.2.2.2 0 (by decide), (hw.1 0 exWeights).2.2.1, hw.2.2.1.1⟩

/-! ## score_setup: the training counts -/

theorem clearLoop_zero {β : Type} (n m c : Nat) (hm : m < n) (hc : c < SOFTMAX)
    (t : State β) :
    (forLoop n clearCounts t).moviercount (m * SOFTMAX + c) = 0 := by
  have hc5 : c < 5 := hc
  apply forLoop_establish (fun s : State β => s.moviercount (m * SOFTMAX + c) = 0) m n
    clearCounts t hm
  · intro s
    unfold clearCounts SOFTMAX
    simp only [upd1]
    have hcases : c = 0 ∨ c = 1 ∨ c = 2 ∨ c = 3 ∨ c = 4 := by omega
    rcases hcases with h | h | h | h | h <;> subst h <;> simp
  · intro i hi s hs
    unfold clearCounts SOFTMAX
    unfold SOFTMAX at hs
    simp only [upd1]
    have e0 : ¬ m * 5 + c = i * 5 + 0 := by omega
    have e1 : ¬ m * 5 + c = i * 5 + 1 := by omega
    have e2 : ¬ m * 5 + c = i * 5 + 2 := by omega
    have e3 : ¬ m * 5 + c = i * 5 + 3 := by omega
    have e4 : ¬ m * 5 + c = i * 5 + 4 := by omega
    rw [if_neg e4, if_neg e3, if_neg e2, if_neg e1, if_neg e0]
    exact hs

theorem countRating_cell {β : Type} (cfg : Env β) (u j k : Nat) (t : State β) :
    (countRating cfg u j t).moviercount k
      = t.moviercount k
        + (if k = itemOf cfg u j * SOFTMAX + catOf cfg u j then 1 else 0) := by
  unfold countRating itemOf catOf
  simp only [upd1]
  split_ifs with h
  · rw [h]
  · rfl

/-- Lines 97-106: the cell `moviercount[k]` grows by the number of training
entries counted in it. -/
theorem countLoop_cell {β : Type} (cfg : Env β) (k n : Nat) (t : State β) :
    (forLoop n (fun u s => forLoop (cfg.UNTRAIN u) (countRating cfg u) s) t).moviercount k
      = t.moviercount k
        + ∑ u in Finset.range n, ∑ j in Finset.range (cfg.UNTRAIN u),
            if k = itemOf cfg u j * SOFTMAX + catOf cfg u j then 1 else 0 :=
  forLoop_sum (fun s : State β => s.moviercount k) (fun _ : State β => ())
    (fun _ u => ∑ j in Finset.range (cfg.UNTRAIN u),
      if k = itemOf cfg u j * SOFTMAX + catOf cfg u j then 1 else 0)
    n (fun u s => forLoop (cfg.UNTRAIN u) (countRating cfg u) s) t
    (fun u s =>
      forLoop_sum (fun s : State β => s.moviercount k) (fun _ : State β => ())
        (fun _ j => if k = itemOf cfg u j * SOFTMAX + catOf cfg u j then 1 else 0)
        (cfg.UNTRAIN u) (countRating cfg u) s
        (fun j s' => countRating_cell cfg u j k s') (fun _ _ => rfl))
    (fun _ _ => rfl)

theorem score_setup_cell {β : Type} (cfg : Env β) (m c : Nat) (hm : m < cfg.NMOVIES)
    (hc : c < SOFTMAX) (st : State β) :
    (score_setup cfg st).moviercount (m * SOFTMAX + c) = cellCount cfg (m * SOFTMAX + c) := by
  unfold score_setup
  simp only
  rw [countLoop_cell, clearLoop_zero cfg.NMOVIES m c hm hc, Nat.zero_add]
  rfl

theorem cellCount_valid {β : Type} (cfg : Env β)
    (hvalid : ∀ u, u < cfg.NUSERS → ∀ j, j < cfg.UNTRAIN u → catOf cfg u j < SOFTMAX)
    (m c : Nat) (hc : c < SOFTMAX) :
    cellCount cfg (m * SOFTMAX + c) = catCount cfg m c := by
  unfold cellCount catCount
  apply Finset.sum_congr rfl
  intro u hu
  apply Finset.sum_congr rfl
  intro j hj
  have hr := hvalid u (Finset.mem_range.mp hu) j (Finset.mem_range.mp hj)
  unfold SOFTMAX at hr hc
  apply if_congr _ rfl rfl
  unfold SOFTMAX
  constructor
  · intro h
    constructor <;> omega
  · rintro ⟨h1, h2⟩
    rw [h1, h2]

theorem catCount_total {β : Type} (cfg : Env β)
    (hvalid : ∀ u, u < cfg.NUSERS → ∀ j, j < cfg.UNTRAIN u → catOf cfg u j < SOFTMAX)
    (m : Nat) :
    catCount cfg m 0 + catCount cfg m 1 + catCount cfg m 2 + catCount cfg m 3
      + catCount cfg m 4 = itemCount cfg m := by
  unfold catCount itemCount
  simp only [← Finset.sum_add_distrib]
  apply Finset.sum_congr rfl
  intro u hu
  apply Finset.sum_congr rfl
  intro j hj
  have hr := hvalid u (Finset.mem_range.mp hu) j (Finset.mem_range.mp hj)
  unfold SOFTMAX at hr
  have hcases : catOf cfg u j = 0 ∨ catOf cfg u j = 1 ∨ catOf cfg u j = 2
      ∨ catOf cfg u j = 3 ∨ catOf cfg u j = 4 := by omega
  by_cases hm : itemOf cfg u j = m
  · rcases hcases with h | h | h | h | h <;> simp [hm, h]
  · simp [hm]

/-- After `score_setup` on valid data the counts are those of the training
entries. -/
theorem score_setup_counts {β : Type} (cfg : Env β)
    (hvalid : ∀ u, u < cfg.NUSERS → ∀ j, j < cfg.UNTRAIN u → catOf cfg u j < SOFTMAX)
    (m : Nat) (hm : m < cfg.NMOVIES) (st : State β) :
    (∀ c, c < SOFTMAX → (score_setup cfg st).moviercount (m * SOFTMAX + c) = catCount cfg m c)
      ∧ totalCount (score_setup cfg st).moviercount m = itemCount cfg m := by
  have hcell : ∀ c, c < SOFTMAX →
      (score_setup cfg st).moviercount (m * SOFTMAX + c) = catCount cfg m c := by
    intro c hc
    rw [score_setup_cell cfg m c hm hc, cellCount_valid cfg hvalid m c hc]
  refine ⟨hcell, ?_⟩
  unfold totalCount
  rw [hcell 0 (by decide), hcell 1 (by decide), hcell 2 (by decide), hcell 3 (by decide),
    hcell 4 (by decide)]
  exact catCount_total cfg hvalid m

/-- C15: on data whose training entries all carry a category in `0..4`, and
in which every item has a positive training count in every category, after
`score_setup` and the bias initialization of `doAllFeatures` (lines 222-227)
`visbiases[m][c] = log(n(m,c) / n(m))` for every item `m` and category `c`,
`n(m,c)` being the number of training entries (entries `j < UNTRAIN(u)` of
the users `u`) with item `m` and category `c`, and `n(m)` the number of
training entries with item `m`; the ratio is positive.  Entries beyond the
training segment of a user are not counted. -/
theorem visbias_init_log_ratio (cfg : Env α) (st : State α)
    (hvalid : ∀ u, u < cfg.NUSERS → ∀ j, j < cfg.UNTRAIN u → catOf cfg u j < SOFTMAX)
    (hpos : ∀ m, m < cfg.NMOVIES → ∀ c, c < SOFTMAX → 0 < catCount cfg m c)
    (m c : Nat) (hm : m < cfg.NMOVIES) (hc : c < SOFTMAX) :
    (score_setup cfg st).moviercount (m * SOFTMAX + c) = catCount cfg m c
      ∧ totalCount (score_setup cfg st).moviercount m = itemCount cfg m
      ∧ (initParams cfg (score_setup cfg st)).visbiases m c
          = cfg.log ((catCount cfg m c : α) / (itemCount cfg m : α))
      ∧ 0 < (catCount cfg m c : α) / (itemCount cfg m : α) := by
  have hcnt := score_setup_counts cfg hvalid m hm st
  have hp := hpos m hm c hc
  have htot := catCount_total cfg hvalid m
  have hle : catCount cfg m c ≤ itemCount cfg m := by
    unfold SOFTMAX at hc
    have hcases : c = 0 ∨ c = 1 ∨ c = 2 ∨ c = 3 ∨ c = 4 := by omega
    rcases hcases with h | h | h | h | h <;> subst h <;> omega
  have hip : 0 < itemCount cfg m := Nat.lt_of_lt_of_le hp hle
  refine ⟨hcnt.1 c hc, hcnt.2, ?_, ?_⟩
  · rw [initParams_visbiases, if_pos ⟨hm, hc⟩, hcnt.1 c hc, hcnt.2]
  · exact div_pos (Nat.cast_pos.mpr hp) (Nat.cast_pos.mpr hip)

theorem exFive_counts : catCount exFive 0 3 = 1 ∧ itemCount exFive 0 = 5 := by
  decide

/-- Witness of `visbias_init_log_ratio`: item 0 of `exFive` has one training
entry in each category; its bias for category 3 is `log(1/5)`. -/
theorem visbias_init_log_ratio_witness :
    (initParams exFive (score_setup exFive zeroState)).visbiases 0 3
        = exFive.log ((1 : ℚ) / 5)
      ∧ (score_setup exFive zeroState).moviercount (0 * SOFTMAX + 3) = 1 := by
  have hw := visbias_init_log_ratio exFive zeroState (by decide) (by decide) 0 3
    (by decide) (by decide)
  rw [exFive_counts.1, exFive_counts.2] at hw
  exact ⟨by simpa using hw.2.2.1, hw.1⟩

/-! ## recordErrors against the training loop -/

theorem normalizeRow_congr (a b : Nat → Nat → α) (m : Nat)
    (h : ∀ c, c < SOFTMAX → a m c = b m c) (c : Nat) (hc : c < SOFTMAX) :
    normalizeRow a m m c = normalizeRow b m m c := by
  have h0 := h 0 (by decide)
  have h1 := h 1 (by decide)
  have h2 := h 2 (by decide)
  have h3 := h 3 (by decide)
  have h4 := h 4 (by decide)
  unfold SOFTMAX at hc
  unfold normalizeRow
  simp only [h0, h1, h2, h3, h4]
  have hcases : c = 0 ∨ c = 1 ∨ c = 2 ∨ c = 3 ∨ c = 4 := by omega
  split_ifs
  · rcases hcases with e | e | e | e | e <;> subst e <;> simp [upd2, h0, h1, h2, h3, h4]
  · rcases hcases with e | e | e | e | e <;> subst e <;> assumption

/-- The positive phase of the training loop leaves `hiddenProb` in
`poshidprobs[h]`, clears `nvp2` and keeps the parameters. -/
theorem prePhase_poshidprobs (cfg : Env α) (u h : Nat) (hh : h < cfg.TOTAL_FEATURES)
    (st : State α) :
    (prePhase cfg u st).poshidprobs h = hiddenProb cfg st.vishid st.hidbiases u h
      ∧ (prePhase cfg u st).nvp2 = (fun _ _ => 0) := by
  have hsum : (posPhase cfg u st).sumW h
      = ∑ j in Finset.range (cfg.UNTRAIN u),
          st.vishid (entMovie cfg (cfg.useridx u 0 + j))
            (entRating cfg (cfg.useridx u 0 + j)) h := by
    unfold posPhase
    simp only
    rw [(posAccumLoop_sumW cfg u h hh _ _).1]
    simp
  have hhb : (posPhase cfg u st).hidbiases = st.hidbiases := by
    unfold posPhase
    simp only
    rw [forLoop_keep (fun s : State α => s.hidbiases)]
    intro j _ t
    unfold posAccumStep addWeights
    exact forLoop_keep (fun s : State α => s.hidbiases) _ _ _ (fun _ _ _ => rfl)
  have hn0 : (posPhase cfg u st).nvp2 = (fun _ _ => 0) := by
    unfold posPhase
    simp only
    rw [forLoop_keep (fun s : State α => s.nvp2)]
    intro j _ t
    unfold posAccumStep addWeights
    exact forLoop_keep (fun s : State α => s.nvp2) _ _ _ (fun _ _ _ => rfl)
  have hstep : ∀ (i : Nat) (t : State α),
      (posHiddenStep cfg i t).sumW = t.sumW ∧ (posHiddenStep cfg i t).hidbiases = t.hidbiases
        ∧ (posHiddenStep cfg i t).nvp2 = t.nvp2 := by
    intro i t
    unfold posHiddenStep drawNext
    simp only
    split_ifs <;> exact ⟨rfl, rfl, rfl⟩
  have key := forLoop_at
    (fun s : State α => (s.poshidprobs h, s.sumW h, s.hidbiases h))
    (fun o => (1 / (1 + cfg.exp (-o.2.1 - o.2.2)), o.2.1, o.2.2)) h cfg.TOTAL_FEATURES
    (posHiddenStep cfg) (posPhase cfg u st)
    (by
      intro i hi t
      have hne : ¬ h = i := fun hx => hi hx.symm
      simp only [posHiddenStep_probs, (hstep i t).1, (hstep i t).2.1, upd1, if_neg hne])
    (by
      intro t
      simp only [posHiddenStep_probs, (hstep h t).1, (hstep h t).2.1, upd1, if_pos])
  rw [if_pos hh] at key
  have key1 := congrArg Prod.fst key
  simp only at key1
  have hcopy : (fun s : State α => (s.poshidprobs, s.nvp2)) (prePhase cfg u st)
      = (fun s : State α => (s.poshidprobs, s.nvp2))
          (forLoop cfg.TOTAL_FEATURES (posHiddenStep cfg) (posPhase cfg u st)) := by
    unfold prePhase
    exact forLoop_keep (fun s : State α => (s.poshidprobs, s.nvp2)) _ _ _ (fun _ _ _ => rfl)
  simp only [Prod.mk.injEq] at hcopy
  have hn1 : (forLoop cfg.TOTAL_FEATURES (posHiddenStep cfg) (posPhase cfg u st)).nvp2
      = (posPhase cfg u st).nvp2 :=
    forLoop_keep (fun s : State α => s.nvp2) _ _ _ (fun i _ t => (hstep i t).2.2)
  refine ⟨?_, hcopy.2.trans (hn1.trans hn0)⟩
  rw [hcopy.1, key1, hsum, hhb]
  rfl

/-- The reconstruction loop of Gibbs step 0, begun in state `t`, leaves in
the row `nvp2[m]` of a touched item `m` that no other touched entry names
the normalised values `rawNvp`. -/
theorem reconLoop_nvp_row (cfg : Env α) (u : Nat) (t : State α) (j : Nat)
    (hj : j < cfg.UNTRAIN u + cfg.useridx u 2)
    (hdist : ∀ i, i < cfg.UNTRAIN u + cfg.useridx u 2 → i ≠ j →
      itemOf cfg u i ≠ itemOf cfg u j)
    (c : Nat) (hc : c < SOFTMAX) :
    (reconLoop cfg u 0 t).nvp2 (itemOf cfg u j) c
      = normalizeRow (rawNvp cfg t) (itemOf cfg u j) (itemOf cfg u j) c := by
  obtain ⟨t', ht', hfin⟩ := forLoop_at_exists
    (fun s : State α => (s.nvp2 (itemOf cfg u j), reconInputs s)) j
    (cfg.UNTRAIN u + cfg.useridx u 2)
    (visReconStep cfg u 0 (decide (0 + 1 ≥ t.tSteps))) t hj
    (fun i hi hij s => Prod.ext
      (visReconStep_other_row cfg u 0 _ i (itemOf cfg u j) (hdist i hi hij) s).2
      (visReconStep_inputs cfg u 0 _ i s))
  simp only [Prod.mk.injEq] at ht' hfin
  have hrow : (reconLoop cfg u 0 t).nvp2 (itemOf cfg u j)
      = (visReconStep cfg u 0 (decide (0 + 1 ≥ t.tSteps)) j t').nvp2 (itemOf cfg u j) :=
    hfin.1
  rw [hrow, visReconStep_nvp, if_pos rfl]
  have hraw : rawNvp cfg t' (itemOf cfg u j) = rawNvp cfg t (itemOf cfg u j) :=
    rawNvp_congr cfg t t' (itemOf cfg u j) ht'.1 ht'.2
  apply normalizeRow_congr _ _ _ _ c hc
  intro c' hc'
  have hgoal : sigmoidRow cfg t'.visbiases
      (forLoop cfg.TOTAL_FEATURES (visAccumStep (itemOf cfg u j) 0) t').nvp2
      (itemOf cfg u j) (itemOf cfg u j) c' = rawNvp cfg t' (itemOf cfg u j) c' := by
    rw [sigmoidRow_apply, visAccumLoop_nvp]
    simp [hc', rawNvp]
  rw [hraw] at hgoal
  exact hgoal

/-- The reconstruction `nvp2` of Gibbs step 0 for a touched item that no
other touched entry of the user names. -/
theorem stepZeroNvp_row (cfg : Env α) (u : Nat) (st : State α) (j : Nat)
    (hj : j < cfg.UNTRAIN u + cfg.useridx u 2)
    (hdist : ∀ i, i < cfg.UNTRAIN u + cfg.useridx u 2 → i ≠ j →
      itemOf cfg u i ≠ itemOf cfg u j)
    (c : Nat) (hc : c < SOFTMAX) :
    stepZeroNvp cfg u st (itemOf cfg u j) c
      = normalizeRow (rawNvp cfg (prePhase cfg u st)) (itemOf cfg u j) (itemOf cfg u j) c := by
  have htail := negTail_keep cfg u (decide (0 + 1 ≥ (prePhase cfg u st).tSteps))
    (reconLoop cfg u 0 (prePhase cfg u st))
  have hn : stepZeroNvp cfg u st = (reconLoop cfg u 0 (prePhase cfg u st)).nvp2 := htail.2
  rw [hn]
  exact reconLoop_nvp_row cfg u _ j hj hdist c hc

theorem reAddLoop_neg (m h m' c : Nat) (t : State α) :
    (forLoop SOFTMAX (reAddCell m h) t).negvisprobs m' c
      = if m' = m ∧ c < SOFTMAX then t.negvisprobs m c + t.poshidprobs h * t.vishid m c h
        else t.negvisprobs m' c := by
  by_cases hm : m' = m
  · subst hm
    have key := forLoop_at
      (fun s : State α => (s.negvisprobs m' c, s.poshidprobs h * s.vishid m' c h))
      (fun o => (o.1 + o.2, o.2)) c SOFTMAX (reAddCell m' h) t
      (by
        intro i hi s
        have : ¬ c = i := fun hx => hi hx.symm
        simp [reAddCell, upd2, this])
      (by
        intro s
        simp [reAddCell, upd2])
    have key1 : (forLoop SOFTMAX (reAddCell m' h) t).negvisprobs m' c
        = (if c < SOFTMAX then
            (t.negvisprobs m' c + t.poshidprobs h * t.vishid m' c h,
              t.poshidprobs h * t.vishid m' c h)
          else (t.negvisprobs m' c, t.poshidprobs h * t.vishid m' c h)).1 :=
      congrArg Prod.fst key
    rw [key1]
    by_cases hc : c < SOFTMAX <;> simp [hc]
  · rw [forLoop_keep (fun s : State α => s.negvisprobs m' c) SOFTMAX (reAddCell m h) t
      (by
        intro i _ s
        simp [reAddCell, upd2, hm])]
    simp [hm]

theorem reAddLoop_keep (m h : Nat) (t : State α) :
    reInputs (forLoop SOFTMAX (reAddCell m h) t) = reInputs t
      ∧ (forLoop SOFTMAX (reAddCell m h) t).err = t.err :=
  ⟨forLoop_keep reInputs _ _ t (fun _ _ _ => rfl),
    forLoop_keep (fun s : State α => s.err) _ _ t (fun _ _ _ => rfl)⟩

theorem reAccLoop_keep (cfg : Env α) (m : Nat) (t : State α) :
    reInputs (reAccLoop cfg m t) = reInputs t ∧ (reAccLoop cfg m t).err = t.err :=
  ⟨forLoop_keep reInputs _ _ t (fun h _ s => (reAddLoop_keep m h s).1),
    forLoop_keep (fun s : State α => s.err) _ _ t (fun h _ s => (reAddLoop_keep m h s).2)⟩

theorem reAccLoop_neg (cfg : Env α) (m m' c : Nat) (t : State α) :
    (reAccLoop cfg m t).negvisprobs m' c
      = t.negvisprobs m' c
        + ∑ h in Finset.range cfg.TOTAL_FEATURES,
            (if m' = m ∧ c < SOFTMAX then t.poshidprobs h * t.vishid m c h else 0) :=
  forLoop_sum (fun s : State α => s.negvisprobs m' c) reInputs
    (fun ro h => if m' = m ∧ c < SOFTMAX then ro.2.2 h * ro.1 m c h else 0)
    cfg.TOTAL_FEATURES (fun h s => forLoop SOFTMAX (reAddCell m h) s) t
    (fun h s => by
      show (forLoop SOFTMAX (reAddCell m h) s).negvisprobs m' c = _
      rw [reAddLoop_neg]
      by_cases hmc : m' = m ∧ c < SOFTMAX
      · simp only [if_pos hmc]
        rw [hmc.1]
        rfl
      · simp only [if_neg hmc, add_zero])
    (fun h s => (reAddLoop_keep m h s).1)

theorem reVisStep_eq (cfg : Env α) (u j : Nat) (t : State α) :
    (reVisStep cfg u j t).negvisprobs
        = normalizeRow (sigmoidRow cfg t.visbiases
            (reAccLoop cfg (itemOf cfg u j) t).negvisprobs (itemOf cfg u j)) (itemOf cfg u j)
      ∧ reInputs (reVisStep cfg u j t) = reInputs t
      ∧ (reVisStep cfg u j t).err = t.err := by
  have hk := reAccLoop_keep cfg (itemOf cfg u j) t
  have hvb : (reAccLoop cfg (itemOf cfg u j) t).visbiases = t.visbiases :=
    congrArg (fun o => o.2.1) hk.1
  have hdef : reVisStep cfg u j t
      = { reAccLoop cfg (itemOf cfg u j) t with
          negvisprobs := normalizeRow (sigmoidRow cfg
            (reAccLoop cfg (itemOf cfg u j) t).visbiases
            (reAccLoop cfg (itemOf cfg u j) t).negvisprobs (itemOf cfg u j))
            (itemOf cfg u j) } := rfl
  rw [hdef]
  refine ⟨?_, ?_, ?_⟩
  · simp only
    rw [hvb]
  · exact hk.1
  · exact hk.2

theorem reVisStep_other_row (cfg : Env α) (u j m : Nat) (hm : itemOf cfg u j ≠ m)
    (t : State α) :
    (reVisStep cfg u j t).negvisprobs m = t.negvisprobs m := by
  have hm' : m ≠ itemOf cfg u j := fun hx => hm hx.symm
  have hm'' : ¬ m = itemOf cfg u j := hm'
  funext c
  rw [(reVisStep_eq cfg u j t).1, normalizeRow_other _ _ _ _ hm', sigmoidRow_apply]
  simp [hm'', reAccLoop_neg]

theorem reVisStep_row (cfg : Env α) (u j : Nat) (t : State α) (c : Nat) (hc : c < SOFTMAX) :
    (reVisStep cfg u j t).negvisprobs (itemOf cfg u j) c
      = normalizeRow (rawRe cfg t) (itemOf cfg u j) (itemOf cfg u j) c := by
  rw [(reVisStep_eq cfg u j t).1]
  apply normalizeRow_congr _ _ _ _ c hc
  intro c' hc'
  rw [sigmoidRow_apply, reAccLoop_neg]
  simp [hc', rawRe]

theorem rawRe_congr (cfg : Env α) (s t : State α) (m : Nat)
    (hneg : t.negvisprobs m = s.negvisprobs m) (hin : reInputs t = reInputs s) :
    rawRe cfg t m = rawRe cfg s m := by
  have h1 : t.vishid = s.vishid := congrArg (fun o => o.1) hin
  have h2 : t.visbiases = s.visbiases := congrArg (fun o => o.2.1) hin
  have h4 : t.poshidprobs = s.poshidprobs := congrArg (fun o => o.2.2) hin
  funext c
  unfold rawRe
  rw [hneg, h1, h2, h4]

/-- The reconstruction loop of `recordErrors` (lines 153-181), begun in
state `t`, leaves in the row `negvisprobs[m]` of an item `m` that no other
entry of the user names the normalised values `rawRe`. -/
theorem reVisLoop_row (cfg : Env α) (u n : Nat) (t : State α) (j : Nat) (hj : j < n)
    (hdist : ∀ i, i < n → i ≠ j → itemOf cfg u i ≠ itemOf cfg u j)
    (c : Nat) (hc : c < SOFTMAX) :
    (forLoop n (reVisStep cfg u) t).negvisprobs (itemOf cfg u j) c
      = normalizeRow (rawRe cfg t) (itemOf cfg u j) (itemOf cfg u j) c := by
  obtain ⟨t', ht', hfin⟩ := forLoop_at_exists
    (fun s : State α => (s.negvisprobs (itemOf cfg u j), reInputs s)) j n
    (reVisStep cfg u) t hj
    (fun i hi hij s => Prod.ext
      (reVisStep_other_row cfg u i (itemOf cfg u j) (hdist i hi hij) s)
      (reVisStep_eq cfg u i s).2.1)
  simp only [Prod.mk.injEq] at ht' hfin
  rw [hfin.1, reVisStep_row cfg u j t' c hc]
  apply normalizeRow_congr _ _ _ _ c hc
  intro c' _
  rw [rawRe_congr cfg t t' (itemOf cfg u j) ht'.1 ht'.2]

/-- Lines 184-190 of `recordErrors`: the residual stored for entry `i`. -/
theorem reErrLoop_err (cfg : Env α) (u n i : Nat) (hi : i < n) (t : State α) :
    (forLoop n (reErrStep cfg u) t).err (cfg.useridx u 0 + i)
        = (catOf cfg u i : α) - expectedV t.negvisprobs (itemOf cfg u i)
      ∧ (forLoop n (reErrStep cfg u) t).negvisprobs = t.negvisprobs := by
  have key := forLoop_at
    (fun s : State α => (s.err (cfg.useridx u 0 + i), s.negvisprobs))
    (fun o => ((catOf cfg u i : α) - expectedV o.2 (itemOf cfg u i), o.2)) i n
    (reErrStep cfg u) t
    (by
      intro k hk s
      have hne : ¬ cfg.useridx u 0 + i = cfg.useridx u 0 + k := by omega
      simp [reErrStep, upd1, hne])
    (by
      intro s
      simp [reErrStep, upd1, itemOf, catOf])
  rw [if_pos hi] at key
  simp only [Prod.mk.injEq] at key
  exact key

theorem reUser_eq (cfg : Env α) (u : Nat) (st : State α) :
    reUser cfg u st
      = forLoop (cfg.UNALL u) (reErrStep cfg u)
          (forLoop (cfg.UNALL u) (reVisStep cfg u) (reHidden cfg u st)) := rfl

/-- Lines 118-147 of `recordErrors` leave `hiddenProb` in `poshidprobs[h]`,
clear `negvisprobs` and keep the parameters. -/
theorem reHidden_facts (cfg : Env α) (u : Nat) (st : State α) :
    (∀ h, h < cfg.TOTAL_FEATURES →
        (reHidden cfg u st).poshidprobs h = hiddenProb cfg st.vishid st.hidbiases u h)
      ∧ (reHidden cfg u st).negvisprobs = (fun _ _ => 0)
      ∧ (reHidden cfg u st).vishid = st.vishid
      ∧ (reHidden cfg u st).visbiases = st.visbiases
      ∧ (reHidden cfg u st).hidbiases = st.hidbiases := by
  have hsumkeep : ∀ t : State α,
      (fun s : State α => (s.negvisprobs, s.vishid, s.visbiases, s.hidbiases))
        (forLoop (cfg.UNTRAIN u) (reSumStep cfg u) t)
        = (fun s : State α => (s.negvisprobs, s.vishid, s.visbiases, s.hidbiases)) t := by
    intro t
    apply forLoop_keep (fun s : State α => (s.negvisprobs, s.vishid, s.visbiases, s.hidbiases))
    intro j _ s
    unfold reSumStep addWeights
    exact forLoop_keep
      (fun s : State α => (s.negvisprobs, s.vishid, s.visbiases, s.hidbiases)) _ _ s
      (fun _ _ _ => rfl)
  have hhidkeep : ∀ t : State α,
      (fun s : State α => (s.negvisprobs, s.vishid, s.visbiases, s.hidbiases))
        (forLoop cfg.TOTAL_FEATURES (reHiddenStep cfg) t)
        = (fun s : State α => (s.negvisprobs, s.vishid, s.visbiases, s.hidbiases)) t := by
    intro t
    exact forLoop_keep
      (fun s : State α => (s.negvisprobs, s.vishid, s.visbiases, s.hidbiases)) _ _ t
      (fun _ _ _ => rfl)
  have hkeep := (hhidkeep _).trans
    (hsumkeep { ({ st with negvisprobs := fun _ _ => 0 } : State α) with sumW := fun _ => 0 })
  simp only [Prod.mk.injEq] at hkeep
  have hk1 := hsumkeep
    { ({ st with negvisprobs := fun _ _ => 0 } : State α) with sumW := fun _ => 0 }
  simp only [Prod.mk.injEq] at hk1
  refine ⟨?_, hkeep.1, hkeep.2.1, hkeep.2.2.1, hkeep.2.2.2⟩
  intro h hh
  have hsum := forLoop_sum (fun s : State α => s.sumW h) (fun s : State α => s.vishid)
    (fun ro j => ro (itemOf cfg u j) (catOf cfg u j) h) (cfg.UNTRAIN u) (reSumStep cfg u)
    { ({ st with negvisprobs := fun _ _ => 0 } : State α) with sumW := fun _ => 0 }
    (fun j s => by
      have e := addWeights_sumW cfg (itemOf cfg u j) (catOf cfg u j) h s
      rw [if_pos hh] at e
      exact e)
    (fun j s => addWeights_vishid cfg _ _ s)
  simp only [zero_add] at hsum
  have key := forLoop_at
    (fun s : State α => (s.poshidprobs h, s.sumW h, s.hidbiases h))
    (fun o => (1 / (1 + cfg.exp (-o.2.1 - o.2.2)), o.2.1, o.2.2)) h cfg.TOTAL_FEATURES
    (reHiddenStep cfg)
    (forLoop (cfg.UNTRAIN u) (reSumStep cfg u)
      { ({ st with negvisprobs := fun _ _ => 0 } : State α) with sumW := fun _ => 0 })
    (by
      intro i hi t
      have hne : ¬ h = i := fun hx => hi hx.symm
      simp [reHiddenStep, upd1, hne])
    (by
      intro t
      simp [reHiddenStep, upd1])
  rw [if_pos hh] at key
  have key1 := congrArg Prod.fst key
  simp only at key1
  have hgoal : (reHidden cfg u st).poshidprobs h
      = 1 / (1 + cfg.exp (-(forLoop (cfg.UNTRAIN u) (reSumStep cfg u)
          { ({ st with negvisprobs := fun _ _ => 0 } : State α) with sumW := fun _ => 0 }).sumW h
        - (forLoop (cfg.UNTRAIN u) (reSumStep cfg u)
          { ({ st with negvisprobs := fun _ _ => 0 } : State α) with
            sumW := fun _ => 0 }).hidbiases h)) := key1
  rw [hgoal, hsum, hk1.2.2.2]
  rfl

theorem prePhase_params (cfg : Env α) (u : Nat) (st : State α) :
    (prePhase cfg u st).vishid = st.vishid ∧ (prePhase cfg u st).visbiases = st.visbiases
      ∧ (prePhase cfg u st).hidbiases = st.hidbiases := by
  have hpre := prePhase_drop cfg u st
  exact ⟨(congrArg State.vishid hpre : (dropPre _).vishid = (dropPre st).vishid),
    (congrArg State.visbiases hpre : (dropPre _).visbiases = (dropPre st).visbiases),
    (congrArg State.hidbiases hpre : (dropPre _).hidbiases = (dropPre st).hidbiases)⟩

theorem prePhase_nvp2 (cfg : Env α) (u : Nat) (st : State α) :
    (prePhase cfg u st).nvp2 = (fun _ _ => 0) := by
  have hn0 : (posPhase cfg u st).nvp2 = (fun _ _ => 0) := by
    unfold posPhase
    simp only
    rw [forLoop_keep (fun s : State α => s.nvp2)]
    intro j _ t
    unfold posAccumStep addWeights
    exact forLoop_keep (fun s : State α => s.nvp2) _ _ _ (fun _ _ _ => rfl)
  have hn1 : (forLoop cfg.TOTAL_FEATURES (posHiddenStep cfg) (posPhase cfg u st)).nvp2
      = (posPhase cfg u st).nvp2 := by
    apply forLoop_keep (fun s : State α => s.nvp2)
    intro i _ t
    unfold posHiddenStep drawNext
    simp only
    split_ifs <;> rfl
  have hcopy : (prePhase cfg u st).nvp2
      = (forLoop cfg.TOTAL_FEATURES (posHiddenStep cfg) (posPhase cfg u st)).nvp2 := by
    unfold prePhase
    exact forLoop_keep (fun s : State α => s.nvp2) _ _ _ (fun _ _ _ => rfl)
  exact hcopy.trans (hn1.trans hn0)

/-- With equal parameters, the values that `recordErrors` and Gibbs step 0 of
the training loop put through the normalisation are the same. -/
theorem rawRe_eq_rawNvp (cfg : Env α) (u : Nat) (s1 s2 : State α)
    (hw : s1.vishid = s2.vishid) (hvb : s1.visbiases = s2.visbiases)
    (hhb : s1.hidbiases = s2.hidbiases) (m c : Nat) :
    rawRe cfg (reHidden cfg u s1) m c = rawNvp cfg (prePhase cfg u s2) m c := by
  have hre := reHidden_facts cfg u s1
  have hpp := prePhase_params cfg u s2
  have hsum : (∑ h in Finset.range cfg.TOTAL_FEATURES,
        (reHidden cfg u s1).poshidprobs h * (reHidden cfg u s1).vishid m c h)
      = ∑ h in Finset.range cfg.TOTAL_FEATURES,
        (prePhase cfg u s2).poshidprobs h * (prePhase cfg u s2).vishid m c h := by
    apply Finset.sum_congr rfl
    intro h hh
    have hh' := Finset.mem_range.mp hh
    rw [hre.1 h hh', (prePhase_poshidprobs cfg u h hh' s2).1, hre.2.2.1, hpp.1, hw, hhb]
  unfold rawRe rawNvp
  rw [hsum, hre.2.1, prePhase_nvp2, hre.2.2.2.1, hpp.2.1, hvb]

theorem reUser_params (cfg : Env α) (u : Nat) (st : State α) :
    (reUser cfg u st).vishid = st.vishid ∧ (reUser cfg u st).visbiases = st.visbiases
      ∧ (reUser cfg u st).hidbiases = st.hidbiases := by
  have hre := reHidden_facts cfg u st
  have hvis : ∀ (j : Nat) (t : State α),
      (fun s : State α => (s.vishid, s.visbiases, s.hidbiases)) (reVisStep cfg u j t)
        = (fun s : State α => (s.vishid, s.visbiases, s.hidbiases)) t := by
    intro j t
    have hacc : (fun s : State α => (s.vishid, s.visbiases, s.hidbiases))
        (reAccLoop cfg (itemOf cfg u j) t)
        = (fun s : State α => (s.vishid, s.visbiases, s.hidbiases)) t := by
      unfold reAccLoop
      apply forLoop_keep (fun s : State α => (s.vishid, s.visbiases, s.hidbiases))
      intro h _ s
      exact forLoop_keep (fun s : State α => (s.vishid, s.visbiases, s.hidbiases)) _ _ s
        (fun _ _ _ => rfl)
    have hdef : reVisStep cfg u j t
        = { reAccLoop cfg (itemOf cfg u j) t with
            negvisprobs := normalizeRow (sigmoidRow cfg
              (reAccLoop cfg (itemOf cfg u j) t).visbiases
              (reAccLoop cfg (itemOf cfg u j) t).negvisprobs (itemOf cfg u j))
              (itemOf cfg u j) } := rfl
    rw [hdef]
    exact hacc
  have h1 := forLoop_keep (fun s : State α => (s.vishid, s.visbiases, s.hidbiases))
    (cfg.UNALL u) (reVisStep cfg u) (reHidden cfg u st) (fun j _ t => hvis j t)
  have h2 := forLoop_keep (fun s : State α => (s.vishid, s.visbiases, s.hidbiases))
    (cfg.UNALL u) (reErrStep cfg u)
    (forLoop (cfg.UNALL u) (reVisStep cfg u) (reHidden cfg u st)) (fun _ _ _ => rfl)
  have h3 := h2.trans h1
  simp only [Prod.mk.injEq] at h3
  rw [reUser_eq]
  exact ⟨h3.1.trans hre.2.2.1, h3.2.1.trans hre.2.2.2.1, h3.2.2.trans hre.2.2.2.2⟩

/-- C16: let `recordErrors` process user `u` from a state `s1` and the
training loop of `doAllFeatures` process the same user from a state `s2`
with the same `vishid`, `visbiases` and `hidbiases`, the entries of the user
naming pairwise distinct items and the training and probe entries being
among the entries `recordErrors` visits.  Then for every training or probe
entry `i` with item `m`, `negvisprobs[m][c]` of `recordErrors` equals the
step-0 reconstruction `nvp2[m][c]` of the training loop for every category
`c`, and the residual `err[base0+i]` that `recordErrors` stores is the
observed category minus the expected rating computed from that `nvp2`.
`recordErrors` does not change the parameters, so every user is processed
with the same ones. -/
theorem record_errors_match_training (cfg : Env α) (u : Nat) (s1 s2 : State α)
    (hw : s1.vishid = s2.vishid) (hvb : s1.visbiases = s2.visbiases)
    (hhb : s1.hidbiases = s2.hidbiases)
    (hall : cfg.UNTRAIN u + cfg.useridx u 2 ≤ cfg.UNALL u)
    (hdist : ∀ i, i < cfg.UNALL u → ∀ j, j < cfg.UNALL u → i ≠ j →
      itemOf cfg u i ≠ itemOf cfg u j)
    (i : Nat) (hi : i < cfg.UNTRAIN u + cfg.useridx u 2) :
    (∀ c, c < SOFTMAX →
        (reUser cfg u s1).negvisprobs (itemOf cfg u i) c
          = (processUser cfg u s2).nvp2 (itemOf cfg u i) c)
      ∧ (reUser cfg u s1).err (cfg.useridx u 0 + i)
          = (catOf cfg u i : α) - expectedV (processUser cfg u s2).nvp2 (itemOf cfg u i)
      ∧ (processUser cfg u s2).nvp2 = stepZeroNvp cfg u s2
      ∧ ((reUser cfg u s1).vishid = s1.vishid ∧ (reUser cfg u s1).visbiases = s1.visbiases
          ∧ (reUser cfg u s1).hidbiases = s1.hidbiases) := by
  have hiall : i < cfg.UNALL u := Nat.lt_of_lt_of_le hi hall
  have herr := reErrLoop_err cfg u (cfg.UNALL u) i hiall
    (forLoop (cfg.UNALL u) (reVisStep cfg u) (reHidden cfg u s1))
  have hnvp := (processUser_errSums cfg u s2).2
  have hrow : ∀ c, c < SOFTMAX →
      (reUser cfg u s1).negvisprobs (itemOf cfg u i) c
        = (processUser cfg u s2).nvp2 (itemOf cfg u i) c := by
    intro c hc
    rw [reUser_eq, herr.2, hnvp,
      reVisLoop_row cfg u (cfg.UNALL u) _ i hiall (fun k hk hki => hdist k hk i hiall hki) c hc,
      stepZeroNvp_row cfg u s2 i hi
        (fun k hk hki => hdist k (Nat.lt_of_lt_of_le hk hall) i hiall hki) c hc]
    apply normalizeRow_congr _ _ _ _ c hc
    intro c' _
    exact rawRe_eq_rawNvp cfg u s1 s2 hw hvb hhb _ c'
  refine ⟨hrow, ?_, hnvp, reUser_params cfg u s1⟩
  have hrow' : ∀ c, c < SOFTMAX →
      (forLoop (cfg.UNALL u) (reVisStep cfg u) (reHidden cfg u s1)).negvisprobs
          (itemOf cfg u i) c
        = (processUser cfg u s2).nvp2 (itemOf cfg u i) c := by
    intro c hc
    have h := hrow c hc
    rw [reUser_eq, herr.2] at h
    exact h
  rw [reUser_eq, herr.1]
  unfold expectedV
  rw [hrow' 1 (by decide), hrow' 2 (by decide), hrow' 3 (by decide), hrow' 4 (by decide)]

/-- Witness of `record_errors_match_training`: the probe entry (entry 2, item
2, category 4) of the user of `exEnv`, whose three entries name the items
0, 1 and 2. -/
theorem record_errors_match_training_witness :
    exEnv.UNTRAIN 0 + exEnv.useridx 0 2 ≤ exEnv.UNALL 0
    ∧ (∀ i, i < exEnv.UNALL 0 → ∀ j, j < exEnv.UNALL 0 → i ≠ j →
        itemOf exEnv 0 i ≠ itemOf exEnv 0 j)
    ∧ (∀ c, c < SOFTMAX →
        (reUser exEnv 0 exWeights).negvisprobs (itemOf exEnv 0 2) c
          = (processUser exEnv 0 exWeights).nvp2 (itemOf exEnv 0 2) c)
    ∧ (reUser exEnv 0 exWeights).err (exEnv.useridx 0 0 + 2)
        = (catOf exEnv 0 2 : ℚ)
          - expectedV (processUser exEnv 0 exWeights).nvp2 (itemOf exEnv 0 2) :=
  have hw := record_errors_match_training exEnv 0 exWeights exWeights rfl rfl rfl
    (by decide) (by decide) 2 (by decide)
  ⟨by decide, by decide, hw.1, hw.2.1⟩

/-! ## The draws from the random source -/

theorem posHiddenStep_run (cfg : Env α) (h : Nat) (t : State α) :
    (posHiddenStep cfg h t).sumW = t.sumW
      ∧ (posHiddenStep cfg h t).hidbiases = t.hidbiases
      ∧ (posHiddenStep cfg h t).nrand = t.nrand + 1
      ∧ (posHiddenStep cfg h t).poshidstates
          = upd1 t.poshidstates h
              (if 1 / (1 + cfg.exp (-t.sumW h - t.hidbiases h)) > cfg.rand t.nrand then 1
                else 0) := by
  unfold posHiddenStep drawNext drawVal
  simp only
  by_cases hp : upd1 t.poshidprobs h (1 / (1 + cfg.exp (-t.sumW h - t.hidbiases h))) h
      > cfg.rand t.nrand
  · have hp' : 1 / (1 + cfg.exp (-t.sumW h - t.hidbiases h)) > cfg.rand t.nrand := by
      simpa [upd1] using hp
    rw [if_pos hp, if_pos hp']
    exact ⟨rfl, rfl, rfl, rfl⟩
  · have hp' : ¬ 1 / (1 + cfg.exp (-t.sumW h - t.hidbiases h)) > cfg.rand t.nrand := by
      simpa [upd1] using hp
    rw [if_neg hp, if_neg hp']
    exact ⟨rfl, rfl, rfl, rfl⟩

/-- Lines 306-320 over the first `n` hidden units: one draw per unit, in
ascending order; unit `h < n` is switched on when its probability exceeds the
`h`-th of these draws. -/
theorem posHiddenLoop_run (cfg : Env α) (n : Nat) (t : State α) :
    (forLoop n (posHiddenStep cfg) t).sumW = t.sumW
      ∧ (forLoop n (posHiddenStep cfg) t).hidbiases = t.hidbiases
      ∧ (forLoop n (posHiddenStep cfg) t).nrand = t.nrand + n
      ∧ ∀ h, h < n →
          (forLoop n (posHiddenStep cfg) t).poshidprobs h
              = 1 / (1 + cfg.exp (-t.sumW h - t.hidbiases h))
            ∧ (forLoop n (posHiddenStep cfg) t).poshidstates h
              = (if 1 / (1 + cfg.exp (-t.sumW h - t.hidbiases h)) > cfg.rand (t.nrand + h)
                  then 1 else 0) := by
  induction n with
  | zero => exact ⟨rfl, rfl, rfl, fun h hh => absurd hh (Nat.not_lt_zero h)⟩
  | succ k ih =>
    obtain ⟨i1, i2, i3, i6⟩ := ih
    obtain ⟨s1, s2, s3, s6⟩ := posHiddenStep_run cfg k (forLoop k (posHiddenStep cfg) t)
    rw [forLoop_succ]
    refine ⟨s1.trans i1, s2.trans i2, ?_, ?_⟩
    · rw [s3, i3, Nat.add_assoc]
    · intro h hh
      rw [posHiddenStep_probs, s6, i1, i2, i3]
      by_cases hk : h = k
      · subst hk
        simp [upd1]
      · have hlt : h < k := by omega
        simp only [upd1, if_neg hk]
        exact i6 h hlt

theorem prePhase_draws (cfg : Env α) (u : Nat) (st : State α) :
    (prePhase cfg u st).nrand = st.nrand + cfg.TOTAL_FEATURES
      ∧ ∀ h, h < cfg.TOTAL_FEATURES →
          (prePhase cfg u st).poshidstates h
            = (if (prePhase cfg u st).poshidprobs h > cfg.rand (st.nrand + h) then 1 else 0) := by
  have hpos : (posPhase cfg u st).nrand = st.nrand := by
    unfold posPhase
    simp only
    rw [forLoop_keep (fun s : State α => s.nrand)]
    intro j _ t
    unfold posAccumStep addWeights
    exact forLoop_keep (fun s : State α => s.nrand) _ _ _ (fun _ _ _ => rfl)
  have hrun := posHiddenLoop_run cfg cfg.TOTAL_FEATURES (posPhase cfg u st)
  have hcopy : (fun s : State α => (s.nrand, s.poshidstates, s.poshidprobs)) (prePhase cfg u st)
      = (fun s : State α => (s.nrand, s.poshidstates, s.poshidprobs))
          (forLoop cfg.TOTAL_FEATURES (posHiddenStep cfg) (posPhase cfg u st)) := by
    unfold prePhase
    exact forLoop_keep (fun s : State α => (s.nrand, s.poshidstates, s.poshidprobs)) _ _ _
      (fun _ _ _ => rfl)
  simp only [Prod.mk.injEq] at hcopy
  refine ⟨?_, ?_⟩
  · rw [hcopy.1, hrun.2.2.1, hpos]
  · intro h hh
    have hh6 := hrun.2.2.2 h hh
    rw [hcopy.2.1, hcopy.2.2, hh6.1, hh6.2, hpos]

/-- The reconstruction loop makes one draw per entry, in entry order: the
entry `j` is reached after `j` draws and its category is sampled with the
next one. -/
theorem reconPrefix_draws (cfg : Env α) (u stepT : Nat) (fin : Bool) (j : Nat) (t : State α) :
    (forLoop j (visReconStep cfg u stepT fin) t).nrand = t.nrand + j
      ∧ (forLoop (j + 1) (visReconStep cfg u stepT fin) t).negvissoftmax (itemOf cfg u j)
          = sampleCategory
              ((forLoop (j + 1) (visReconStep cfg u stepT fin) t).negvisprobs (itemOf cfg u j))
              (cfg.rand (t.nrand + j)) := by
  have hn : ∀ k, (forLoop k (visReconStep cfg u stepT fin) t).nrand = t.nrand + k := by
    intro k
    induction k with
    | zero => rfl
    | succ k ih =>
      rw [forLoop_succ, (visReconStep_sample cfg u stepT fin k _).2, ih, Nat.add_assoc]
  refine ⟨hn j, ?_⟩
  rw [forLoop_succ, ← hn j]
  exact (visReconStep_sample cfg u stepT fin j _).1

theorem negPhase_draws (cfg : Env α) (u stepT : Nat) (t : State α) :
    (reconLoop cfg u stepT t).nrand = t.nrand + (cfg.UNTRAIN u + cfg.useridx u 2)
      ∧ (negPhase cfg u stepT t).nrand = t.nrand + stepDraws cfg u
      ∧ ∀ h, h < cfg.TOTAL_FEATURES →
          (negPhase cfg u stepT t).neghidstates h
            = (if (negPhase cfg u stepT t).neghidprobs h
                  > cfg.rand (t.nrand + (cfg.UNTRAIN u + cfg.useridx u 2) + h) then 1 else 0) := by
  have hrec : (reconLoop cfg u stepT t).nrand = t.nrand + (cfg.UNTRAIN u + cfg.useridx u 2) := by
    unfold reconLoop
    exact (reconPrefix_draws cfg u stepT _ _ t).1
  have hkeep := negSumLoop_keep cfg u (cfg.UNTRAIN u)
    { reconLoop cfg u stepT t with sumW := fun _ => 0 }
  have hrun := negHiddenLoop_run cfg (decide (stepT + 1 ≥ t.tSteps)) cfg.TOTAL_FEATURES
    (forLoop (cfg.UNTRAIN u) (negSumStep cfg u)
      { reconLoop cfg u stepT t with sumW := fun _ => 0 })
  have hN : (forLoop (cfg.UNTRAIN u) (negSumStep cfg u)
      { reconLoop cfg u stepT t with sumW := fun _ => 0 }).nrand
      = t.nrand + (cfg.UNTRAIN u + cfg.useridx u 2) := hkeep.2.1.trans hrec
  refine ⟨hrec, ?_, ?_⟩
  · have h3 := hrun.2.2.1
    rw [hN] at h3
    unfold stepDraws
    rw [← Nat.add_assoc]
    exact h3
  · intro h hh
    have hh6 := hrun.2.2.2.2.2 h hh
    rw [hN] at hh6
    have hp : (negPhase cfg u stepT t).neghidprobs h
        = 1 / (1 + cfg.exp
            (-(forLoop (cfg.UNTRAIN u) (negSumStep cfg u)
                { reconLoop cfg u stepT t with sumW := fun _ => 0 }).sumW h
              - (forLoop (cfg.UNTRAIN u) (negSumStep cfg u)
                { reconLoop cfg u stepT t with sumW := fun _ => 0 }).hidbiases h)) := hh6.1
    rw [hp]
    exact hh6.2

theorem gibbsStep_draws (cfg : Env α) (u stepT : Nat) (t : State α) :
    (gibbsStep cfg u stepT t).nrand = t.nrand + stepDraws cfg u := by
  rw [(gibbsStep_hidden cfg u stepT t).2.2.2.2.2]
  exact (negPhase_draws cfg u stepT t).2.1

theorem gibbsLoop_draws (cfg : Env α) (u k : Nat) (t : State α) :
    (forLoop k (gibbsStep cfg u) t).nrand = t.nrand + k * stepDraws cfg u := by
  induction k with
  | zero => simp [forLoop]
  | succ k ih =>
    rw [forLoop_succ, gibbsStep_draws, ih, Nat.succ_mul, Nat.add_assoc]

/-- C21: with `H = TOTAL_FEATURES` hidden units, processing user `u` (with
`d0 = UNTRAIN(u)` training and `dp = useridx[u][2]` probe entries) at
sampling depth `T = tSteps` makes exactly `H + max(T,1) * (d0 + dp + H)`
draws, that is `H + T * (d0 + dp + H)` for `T ≥ 1`.  The first `H` draws
decide the positive-phase hidden states in ascending `h`; the Gibbs step
with index `k` starts after `H + k * (d0 + dp + H)` draws; within a Gibbs
step the entry `j` samples its category with the `j`-th draw of the step, in
entry order, and hidden unit `h` is decided by draw number `d0 + dp + h` of
the step, in ascending `h`. -/
theorem random_draw_count (cfg : Env α) (u : Nat) (st : State α) :
    (processUser cfg u st).nrand
        = st.nrand + (cfg.TOTAL_FEATURES
            + max st.tSteps 1 * (cfg.UNTRAIN u + cfg.useridx u 2 + cfg.TOTAL_FEATURES))
    ∧ (1 ≤ st.tSteps →
        (processUser cfg u st).nrand
          = st.nrand + (cfg.TOTAL_FEATURES
              + st.tSteps * (cfg.UNTRAIN u + cfg.useridx u 2 + cfg.TOTAL_FEATURES)))
    ∧ (∀ h, h < cfg.TOTAL_FEATURES →
        (prePhase cfg u st).poshidstates h
          = (if (prePhase cfg u st).poshidprobs h > cfg.rand (st.nrand + h) then 1 else 0))
    ∧ (∀ k, (forLoop k (gibbsStep cfg u) (prePhase cfg u st)).nrand
        = st.nrand + cfg.TOTAL_FEATURES
            + k * (cfg.UNTRAIN u + cfg.useridx u 2 + cfg.TOTAL_FEATURES))
    ∧ (∀ (stepT : Nat) (fin : Bool) (j : Nat) (t : State α),
        (forLoop j (visReconStep cfg u stepT fin) t).nrand = t.nrand + j
          ∧ (forLoop (j + 1) (visReconStep cfg u stepT fin) t).negvissoftmax (itemOf cfg u j)
              = sampleCategory
                  ((forLoop (j + 1) (visReconStep cfg u stepT fin) t).negvisprobs
                    (itemOf cfg u j))
                  (cfg.rand (t.nrand + j)))
    ∧ (∀ (stepT h : Nat) (t : State α), h < cfg.TOTAL_FEATURES →
        (gibbsStep cfg u stepT t).neghidstates h
          = (if (gibbsStep cfg u stepT t).neghidprobs h
                > cfg.rand (t.nrand + (cfg.UNTRAIN u + cfg.useridx u 2) + h) then 1 else 0)) := by
  have hpre := prePhase_draws cfg u st
  have hcd : (processUser cfg u st).nrand = (afterChain cfg u st).nrand := by
    rw [processUser_afterChain]
    exact (congrArg State.nrand (cdLoop_drop cfg u (cfg.UNTRAIN u) (afterChain cfg u st)) :
      (dropCD _).nrand = (dropCD _).nrand)
  have hloop : ∀ k, (forLoop k (gibbsStep cfg u) (prePhase cfg u st)).nrand
      = st.nrand + cfg.TOTAL_FEATURES
          + k * (cfg.UNTRAIN u + cfg.useridx u 2 + cfg.TOTAL_FEATURES) := by
    intro k
    rw [gibbsLoop_draws, hpre.1]
    rfl
  have hall : (processUser cfg u st).nrand
      = st.nrand + (cfg.TOTAL_FEATURES
          + max st.tSteps 1 * (cfg.UNTRAIN u + cfg.useridx u 2 + cfg.TOTAL_FEATURES)) := by
    rw [hcd]
    unfold afterChain
    rw [hloop, Nat.add_assoc]
  refine ⟨hall, ?_, hpre.2, hloop, ?_, ?_⟩
  · intro hT
    have hmax : max st.tSteps 1 = st.tSteps := by omega
    rw [hall, hmax]
  · intro stepT fin j t
    exact reconPrefix_draws cfg u stepT fin j t
  · intro stepT h t hh
    have hg := gibbsStep_hidden cfg u stepT t
    rw [hg.1, hg.2.1]
    exact (negPhase_draws cfg u stepT t).2.2 h hh

/-- Witness of `random_draw_count`: the user of `exEnv` (two training
entries, one probe entry, three hidden units) at depth 1 makes
`3 + 1 * (2 + 1 + 3) = 9` draws. -/
theorem random_draw_count_witness :
    1 ≤ exWeights.tSteps
    ∧ (processUser exEnv 0 exWeights).nrand = exWeights.nrand + 9
    ∧ 1 < exEnv.TOTAL_FEATURES
    ∧ (prePhase exEnv 0 exWeights).poshidstates 1
        = (if (prePhase exEnv 0 exWeights).poshidprobs 1 > exEnv.rand (exWeights.nrand + 1)
            then 1 else 0) :=
  have hw := random_draw_count exEnv 0 exWeights
  ⟨by decide, hw.2.1 (by decide), by decide, hw.2.2.1 1 (by decide)⟩

/-! ## The mini-batch schedule -/

theorem batchEnd_iff {β : Type} (cfg : Env β) (u : Nat) :
    batchEnd cfg u ↔ ((u + 1) % 100 = 0 ∨ u + 1 = cfg.NUSERS) := Iff.rfl

/-- Before the last user of the epoch, the updates are the full batches. -/
theorem batch_prefix {β : Type} (cfg : Env β) (k : Nat) (hk : k < cfg.NUSERS) :
    updatesBefore cfg k = k / 100 ∧ casesBefore cfg k = 100 * (k / 100) := by
  induction k with
  | zero => simp [updatesBefore, casesBefore]
  | succ j ih =>
    obtain ⟨ih1, ih2⟩ := ih (by omega)
    unfold updatesBefore at ih1 ⊢
    unfold casesBefore at ih2 ⊢
    rw [Finset.sum_range_succ, Finset.sum_range_succ, ih1, ih2]
    unfold bsize
    by_cases hb : batchEnd cfg j
    · have hb' : (j + 1) % 100 = 0 := by
        rcases (batchEnd_iff cfg j).mp hb with h | h
        · exact h
        · omega
      rw [if_pos hb, if_pos hb]
      constructor <;> omega
    · have hb' : ¬ (j + 1) % 100 = 0 := fun h => hb ((batchEnd_iff cfg j).mpr (Or.inl h))
      rw [if_neg hb, if_neg hb]
      constructor <;> omega

theorem batch_totals {β : Type} (cfg : Env β) (hN : 1 ≤ cfg.NUSERS) :
    updatesBefore cfg cfg.NUSERS = (cfg.NUSERS + 99) / 100
      ∧ casesBefore cfg cfg.NUSERS = cfg.NUSERS := by
  obtain ⟨k, hk⟩ : ∃ k, cfg.NUSERS = k + 1 := ⟨cfg.NUSERS - 1, by omega⟩
  obtain ⟨h1, h2⟩ := batch_prefix cfg k (by omega)
  have hb : batchEnd cfg k := (batchEnd_iff cfg k).mpr (Or.inr hk.symm)
  unfold updatesBefore at h1 ⊢
  unfold casesBefore at h2 ⊢
  rw [hk, Finset.sum_range_succ, Finset.sum_range_succ, h1, h2, if_pos hb, if_pos hb]
  unfold bsize
  constructor <;> omega

/-- C22: in the user loop of an epoch the mini-batch update (lines 507-569)
runs after user `u` exactly when `(u+1) % 100 = 0` or `u+1 = NUSERS`, with
the divisor `numcases = u % 100 + 1`.  For `NUSERS ≥ 1` this happens
`ceil(NUSERS/100)` times in an epoch and the divisors sum to `NUSERS`.  At an
update after user `u`, `numcases` is the number of users processed since the
previous update: none of the users `u - u % 100, .., u - 1` is followed by an
update, and user `u - u % 100` is the first of the epoch or comes right after
an update; it is 100 for a full batch and `NUSERS % 100` for a final partial
batch. -/
theorem mini_batch_schedule (cfg : Env α) :
    (∀ (u : Nat) (st : State α),
        userStep cfg u st
          = if (u + 1) % 100 = 0 ∨ u + 1 = cfg.NUSERS then
              miniBatchUpdate cfg u (processUser cfg u st)
            else processUser cfg u st)
    ∧ (∀ (u : Nat) (st : State α),
        miniBatchUpdate cfg u st
          = zeroAccumulators
              (forLoop cfg.TOTAL_FEATURES (hidBiasCell (u % 100 + 1))
                (forLoop cfg.NMOVIES (updateMovie cfg) st)))
    ∧ (1 ≤ cfg.NUSERS →
        updatesBefore cfg cfg.NUSERS = (cfg.NUSERS + 99) / 100
          ∧ casesBefore cfg cfg.NUSERS = cfg.NUSERS)
    ∧ (∀ u, u < cfg.NUSERS → batchEnd cfg u →
        (∀ v, u - u % 100 ≤ v → v < u → ¬ batchEnd cfg v)
          ∧ (u - u % 100 = 0 ∨ batchEnd cfg (u - u % 100 - 1))
          ∧ ((u + 1) % 100 = 0 → u % 100 + 1 = 100)
          ∧ (¬ (u + 1) % 100 = 0 → u % 100 + 1 = cfg.NUSERS % 100)) := by
  refine ⟨?_, ?_, batch_totals cfg, ?_⟩
  · intro u st
    by_cases hb : (u + 1) % 100 = 0 ∨ u + 1 = cfg.NUSERS
    · have hb' : batchEnd cfg u := (batchEnd_iff cfg u).mpr hb
      rw [if_pos hb]
      unfold userStep
      simp only
      rw [if_pos hb']
    · have hb' : ¬ batchEnd cfg u := fun h => hb ((batchEnd_iff cfg u).mp h)
      rw [if_neg hb]
      unfold userStep
      simp only
      rw [if_neg hb']
  · intro u st
    rfl
  · intro u hu hb
    have hb' := (batchEnd_iff cfg u).mp hb
    refine ⟨?_, ?_, ?_, ?_⟩
    · intro v hv1 hv2 hbv
      rcases (batchEnd_iff cfg v).mp hbv with h | h <;> omega
    · by_cases h0 : u - u % 100 = 0
      · exact Or.inl h0
      · right
        apply (batchEnd_iff cfg _).mpr
        left
        omega
    · intro h
      omega
    · intro h
      rcases hb' with h' | h'
      · exact absurd h' h
      · omega

/-- Witness of `mini_batch_schedule`: the one user of `exEnv` is followed by
the only update of the epoch, with divisor 1. -/
theorem mini_batch_schedule_witness :
    1 ≤ exEnv.NUSERS
    ∧ updatesBefore exEnv exEnv.NUSERS = 1
    ∧ casesBefore exEnv exEnv.NUSERS = 1
    ∧ batchEnd exEnv 0
    ∧ 0 % 100 + 1 = exEnv.NUSERS % 100 :=
  have hw := mini_batch_schedule exEnv
  ⟨by decide, (hw.2.2.1 (by decide)).1, (hw.2.2.1 (by decide)).2, by decide,
    (hw.2.2.2 0 (by decide) (by decide)).2.2.2 (by decide)⟩

/-! ## The visible activation counts of a mini-batch window -/

theorem rowSum_bump (a : Nat → Nat → α) (m' c m : Nat) (hc : c < SOFTMAX) :
    rowSum (upd2 a m' c (a m' c + 1)) m = rowSum a m + (if m' = m then 1 else 0) := by
  unfold SOFTMAX at hc
  have hcases : c = 0 ∨ c = 1 ∨ c = 2 ∨ c = 3 ∨ c = 4 := by omega
  unfold rowSum upd2
  by_cases hm : m' = m
  · subst hm
    rcases hcases with h | h | h | h | h <;> subst h <;> simp <;> ring
  · have hm' : ¬ m = m' := fun h => hm h.symm
    simp [hm, hm']

/-- Like `forLoop_sum`, with the step equation needed only for the iterations
the loop runs. -/
theorem forLoop_sum_lt {β M : Type} [AddCommMonoid M] (val : σ → M) (ro : σ → β)
    (inc : β → Nat → M) (n : Nat) (body : Nat → σ → σ) (s : σ)
    (hval : ∀ i, i < n → ∀ t, val (body i t) = val t + inc (ro t) i)
    (hro : ∀ i t, ro (body i t) = ro t) :
    val (forLoop n body s) = val s + ∑ i in Finset.range n, inc (ro s) i := by
  induction n with
  | zero => simp [forLoop]
  | succ k ih =>
    rw [forLoop_succ, hval k (Nat.lt_succ_self k),
      ih (fun i hi t => hval i (Nat.lt_succ_of_lt hi) t),
      forLoop_keep ro k body s (fun i _ t => hro i t), Finset.sum_range_succ, add_assoc]

/-- Lines 287-303: with categories in `0..4`, the positive phase adds to the
row sum of `posvisact[m]` the number of training entries that name `m`. -/
theorem prePhase_posvisact_row (cfg : Env α) (u m : Nat)
    (hvalid : ∀ j, j < cfg.UNTRAIN u → catOf cfg u j < SOFTMAX) (st : State α) :
    rowSum (prePhase cfg u st).posvisact m
      = rowSum st.posvisact m + (trainCount cfg u m : α) := by
  have hpos : rowSum (posPhase cfg u st).posvisact m
      = rowSum st.posvisact m + (trainCount cfg u m : α) := by
    have key := forLoop_sum_lt (fun s : State α => rowSum s.posvisact m)
      (fun _ : State α => ())
      (fun _ j => if itemOf cfg u j = m then (1 : α) else 0) (cfg.UNTRAIN u)
      (posAccumStep cfg u)
      { ({ ({ st with negvisprobs := fun _ _ => 0 } : State α) with
            nvp2 := fun _ _ => 0 } : State α) with sumW := fun _ => 0 }
      (fun j hj t => by
        have hadd : (posAccumStep cfg u j t).posvisact
            = upd2 t.posvisact (itemOf cfg u j) (catOf cfg u j)
                (t.posvisact (itemOf cfg u j) (catOf cfg u j) + 1) := by
          unfold posAccumStep addWeights
          exact forLoop_keep (fun s : State α => s.posvisact) _ _ _ (fun _ _ _ => rfl)
        simp only
        rw [hadd, rowSum_bump _ _ _ _ (hvalid j hj)])
      (fun _ _ => rfl)
    have hcast : ((trainCount cfg u m : Nat) : α)
        = ∑ j in Finset.range (cfg.UNTRAIN u), if itemOf cfg u j = m then (1 : α) else 0 := by
      unfold trainCount itemOf
      push_cast
      rfl
    rw [hcast]
    exact key
  have hhid : ∀ t : State α,
      (forLoop cfg.TOTAL_FEATURES (posHiddenStep cfg) t).posvisact = t.posvisact := by
    intro t
    apply forLoop_keep (fun s : State α => s.posvisact)
    intro h _ t'
    unfold posHiddenStep drawNext
    simp only
    split_ifs <;> rfl
  have hcopy : (prePhase cfg u st).posvisact
      = (forLoop cfg.TOTAL_FEATURES (posHiddenStep cfg) (posPhase cfg u st)).posvisact := by
    unfold prePhase
    exact forLoop_keep (fun s : State α => s.posvisact) _ _ _ (fun _ _ _ => rfl)
  rw [hcopy, hhid, hpos]

/-- Line 412: a reconstruction step adds 1 to `negvisact[m][c]` for the item
`m` of its entry and the category `c ≤ 4` it has just sampled, when the entry
is a training entry and the Gibbs step is final; otherwise `negvisact` is
left alone. -/
theorem visReconStep_negvisact_eq (cfg : Env α) (u stepT : Nat) (fin : Bool) (j : Nat)
    (t : State α) :
    (visReconStep cfg u stepT fin j t).negvissoftmax (itemOf cfg u j) ≤ 4
      ∧ (visReconStep cfg u stepT fin j t).negvisact
        = if j < cfg.UNTRAIN u ∧ fin = true then
            upd2 t.negvisact (itemOf cfg u j)
              ((visReconStep cfg u stepT fin j t).negvissoftmax (itemOf cfg u j))
              (t.negvisact (itemOf cfg u j)
                ((visReconStep cfg u stepT fin j t).negvissoftmax (itemOf cfg u j)) + 1)
          else t.negvisact := by
  constructor
  · have hs := (visReconStep_sample cfg u stepT fin j t).1
    have hs' : (visReconStep cfg u stepT fin j t).negvissoftmax (itemOf cfg u j)
        = sampleCategory ((visReconStep cfg u stepT fin j t).negvisprobs (itemOf cfg u j))
            (cfg.rand t.nrand) := hs
    rw [hs']
    exact sampleCategory_le _ _
  · have hn := visAccumLoop_negvisact (entMovie cfg (cfg.useridx u 0 + j)) stepT
      cfg.TOTAL_FEATURES t
    rw [← hn]
    unfold visReconStep drawNext itemOf
    simp only
    by_cases hj : j < cfg.UNTRAIN u ∧ fin = true
    · simp only [if_pos hj]
      split_ifs <;> rfl
    · simp only [if_neg hj]
      split_ifs <;> rfl

theorem visReconStep_negvisact_row (cfg : Env α) (u stepT : Nat) (fin : Bool) (j m : Nat)
    (t : State α) :
    rowSum (visReconStep cfg u stepT fin j t).negvisact m
      = rowSum t.negvisact m
        + (if j < cfg.UNTRAIN u ∧ fin = true then (if itemOf cfg u j = m then 1 else 0)
            else 0) := by
  have he := visReconStep_negvisact_eq cfg u stepT fin j t
  have hc : (visReconStep cfg u stepT fin j t).negvissoftmax (itemOf cfg u j) < SOFTMAX :=
    Nat.lt_succ_of_le he.1
  rw [he.2]
  by_cases hj : j < cfg.UNTRAIN u ∧ fin = true
  · rw [if_pos hj, if_pos hj, rowSum_bump _ _ _ _ hc]
  · rw [if_neg hj, if_neg hj, add_zero]

theorem trainCount_cast (cfg : Env α) (u m : Nat) :
    ((trainCount cfg u m : Nat) : α)
      = ∑ j in Finset.range (cfg.UNTRAIN u), if itemOf cfg u j = m then (1 : α) else 0 := by
  unfold trainCount itemOf
  push_cast
  rfl

theorem reconLoop_negvisact_row (cfg : Env α) (u stepT m : Nat) (t : State α) :
    rowSum (reconLoop cfg u stepT t).negvisact m
      = rowSum t.negvisact m
        + (if stepT + 1 ≥ t.tSteps then (trainCount cfg u m : α) else 0) := by
  have key := forLoop_sum (fun s : State α => rowSum s.negvisact m) (fun _ : State α => ())
    (fun _ j => if j < cfg.UNTRAIN u ∧ decide (stepT + 1 ≥ t.tSteps) = true then
      (if itemOf cfg u j = m then (1 : α) else 0) else 0)
    (cfg.UNTRAIN u + cfg.useridx u 2)
    (visReconStep cfg u stepT (decide (stepT + 1 ≥ t.tSteps))) t
    (fun j s => visReconStep_negvisact_row cfg u stepT _ j m s) (fun _ _ => rfl)
  have hsum : (∑ j in Finset.range (cfg.UNTRAIN u + cfg.useridx u 2),
        (if j < cfg.UNTRAIN u ∧ decide (stepT + 1 ≥ t.tSteps) = true then
          (if itemOf cfg u j = m then (1 : α) else 0) else 0))
      = if stepT + 1 ≥ t.tSteps then (trainCount cfg u m : α) else 0 := by
    rw [Finset.sum_range_add]
    have htail : (∑ x in Finset.range (cfg.useridx u 2),
        (if cfg.UNTRAIN u + x < cfg.UNTRAIN u ∧ decide (stepT + 1 ≥ t.tSteps) = true then
          (if itemOf cfg u (cfg.UNTRAIN u + x) = m then (1 : α) else 0) else 0)) = 0 := by
      apply Finset.sum_eq_zero
      intro x _
      have hx : ¬ (cfg.UNTRAIN u + x < cfg.UNTRAIN u ∧ decide (stepT + 1 ≥ t.tSteps) = true) :=
        fun h => absurd h.1 (by omega)
      rw [if_neg hx]
    rw [htail, add_zero]
    by_cases hf : stepT + 1 ≥ t.tSteps
    · rw [if_pos hf, trainCount_cast]
      apply Finset.sum_congr rfl
      intro j hj
      have hj' : j < cfg.UNTRAIN u ∧ decide (stepT + 1 ≥ t.tSteps) = true :=
        ⟨Finset.mem_range.mp hj, decide_eq_true hf⟩
      rw [if_pos hj']
    · rw [if_neg hf]
      apply Finset.sum_eq_zero
      intro j _
      have hj' : ¬ (j < cfg.UNTRAIN u ∧ decide (stepT + 1 ≥ t.tSteps) = true) :=
        fun h => hf (of_decide_eq_true h.2)
      rw [if_neg hj']
  rw [← hsum]
  exact key

theorem gibbsStep_negvisact_row (cfg : Env α) (u stepT m : Nat) (t : State α) :
    rowSum (gibbsStep cfg u stepT t).negvisact m
      = rowSum t.negvisact m
        + (if stepT + 1 ≥ t.tSteps then (trainCount cfg u m : α) else 0) := by
  rw [(gibbsStep_hidden cfg u stepT t).2.2.2.2.1]
  have hrun := negHiddenLoop_run cfg (decide (stepT + 1 ≥ t.tSteps)) cfg.TOTAL_FEATURES
    (forLoop (cfg.UNTRAIN u) (negSumStep cfg u)
      { reconLoop cfg u stepT t with sumW := fun _ => 0 })
  have hkeep := negSumLoop_keep cfg u (cfg.UNTRAIN u)
    { reconLoop cfg u stepT t with sumW := fun _ => 0 }
  have hall : (negPhase cfg u stepT t).negvisact = (reconLoop cfg u stepT t).negvisact :=
    hrun.2.2.2.2.1.trans hkeep.2.2.2
  rw [hall]
  exact reconLoop_negvisact_row cfg u stepT m t

theorem final_step_sum {M : Type} [AddCommMonoid M] (T : Nat) (x : M) :
    (∑ k in Finset.range (max T 1), if k + 1 ≥ T then x else 0) = x := by
  obtain ⟨K, hK⟩ : ∃ K, max T 1 = K + 1 := ⟨max T 1 - 1, by omega⟩
  rw [hK, Finset.sum_range_succ]
  have hzero : (∑ k in Finset.range K, if k + 1 ≥ T then x else 0) = 0 := by
    apply Finset.sum_eq_zero
    intro k hk
    have hk' := Finset.mem_range.mp hk
    have hlt : ¬ k + 1 ≥ T := by omega
    rw [if_neg hlt]
  have hlast : K + 1 ≥ T := by omega
  rw [hzero, if_pos hlast, zero_add]

/-- The Gibbs chain of a user adds to the row sum of `negvisact[m]` the
number of training entries that name `m`: once, in the final step, whatever
the sampling depth. -/
theorem afterChain_negvisact_row (cfg : Env α) (u m : Nat) (st : State α) :
    rowSum (afterChain cfg u st).negvisact m
      = rowSum (prePhase cfg u st).negvisact m + (trainCount cfg u m : α) := by
  have key := forLoop_sum (fun s : State α => rowSum s.negvisact m)
    (fun s : State α => s.tSteps)
    (fun T k => if k + 1 ≥ T then (trainCount cfg u m : α) else 0)
    (max st.tSteps 1) (gibbsStep cfg u) (prePhase cfg u st)
    (fun k s => gibbsStep_negvisact_row cfg u k m s)
    (fun k s => congrArg Ctl.tSteps (gibbsStep_ctl cfg u k s))
  have hT : (prePhase cfg u st).tSteps = st.tSteps :=
    congrArg Ctl.tSteps (prePhase_ctl cfg u st)
  simp only [hT] at key
  rw [final_step_sum] at key
  exact key

theorem zeroAccumulators_balanced (st : State α) (m : Nat) :
    visactBalanced (zeroAccumulators st) m := by
  unfold visactBalanced rowSum zeroAccumulators
  simp

/-- Processing a user whose training categories are in `0..4` keeps the
visible activation counts balanced. -/
theorem processUser_balanced (cfg : Env α) (u m : Nat)
    (hvalid : ∀ j, j < cfg.UNTRAIN u → catOf cfg u j < SOFTMAX) (st : State α)
    (hb : visactBalanced st m) :
    visactBalanced (processUser cfg u st) m := by
  have hdrop := cdLoop_drop cfg u (cfg.UNTRAIN u) (afterChain cfg u st)
  have hpva : (forLoop (cfg.UNTRAIN u) (cdAccumStep cfg u) (afterChain cfg u st)).posvisact
      = (afterChain cfg u st).posvisact :=
    (congrArg State.posvisact hdrop : (dropCD _).posvisact = (dropCD _).posvisact)
  have hnva : (forLoop (cfg.UNTRAIN u) (cdAccumStep cfg u) (afterChain cfg u st)).negvisact
      = (afterChain cfg u st).negvisact :=
    (congrArg State.negvisact hdrop : (dropCD _).negvisact = (dropCD _).negvisact)
  have hch := chain_poshid _ _ (afterChain_chain cfg u st)
  have hnva0 : (prePhase cfg u st).negvisact = st.negvisact :=
    (congrArg State.negvisact (prePhase_drop cfg u st) :
      (dropPre _).negvisact = (dropPre st).negvisact)
  have hcount := processUser_moviecount cfg u m st
  unfold visactBalanced at hb ⊢
  rw [hcount]
  push_cast
  constructor
  · rw [processUser_afterChain, hpva, hch.2.2.2.1, prePhase_posvisact_row cfg u m hvalid, hb.1]
  · rw [processUser_afterChain, hnva, afterChain_negvisact_row, hnva0, hb.2]

theorem beforeUser_balanced (cfg : Env α) (st : State α)
    (hvalid : ∀ u, u < cfg.NUSERS → ∀ j, j < cfg.UNTRAIN u → catOf cfg u j < SOFTMAX)
    (u : Nat) (hu : u ≤ cfg.NUSERS) (m : Nat) :
    visactBalanced (beforeUser cfg st u) m := by
  induction u with
  | zero =>
    show visactBalanced (epochStart st) m
    unfold epochStart
    exact zeroAccumulators_balanced _ m
  | succ k ih =>
    have hk : k < cfg.NUSERS := hu
    have hp := processUser_balanced cfg k m (hvalid k hk) _ (ih (Nat.le_of_lt hk))
    rw [beforeUser_succ]
    unfold userStep
    simp only
    split_ifs
    · exact zeroAccumulators_balanced _ m
    · exact hp

/-- C23: in an epoch over data whose training categories are all in `0..4`,
in the state left by processing user `u` (the state in which the batch test
of line 506 is made, so immediately before the mini-batch update when the
test holds), for every item `m` the five entries of `posvisact[m]` and the
five entries of `negvisact[m]` each sum to `moviecount[m]`, whatever the
sampling depth; hence for an observed item the terms
`posvisact[m][c]/moviecount[m] - negvisact[m][c]/moviecount[m]` sum to zero
over the five categories. -/
theorem visact_sums_equal_count (cfg : Env α) (st : State α)
    (hvalid : ∀ u, u < cfg.NUSERS → ∀ j, j < cfg.UNTRAIN u → catOf cfg u j < SOFTMAX)
    (u : Nat) (hu : u < cfg.NUSERS) (m : Nat) :
    rowSum (processUser cfg u (beforeUser cfg st u)).posvisact m
        = ((processUser cfg u (beforeUser cfg st u)).moviecount m : α)
      ∧ rowSum (processUser cfg u (beforeUser cfg st u)).negvisact m
        = ((processUser cfg u (beforeUser cfg st u)).moviecount m : α)
      ∧ (batchEnd cfg u →
          beforeUser cfg st (u + 1)
            = miniBatchUpdate cfg u (processUser cfg u (beforeUser cfg st u)))
      ∧ ((processUser cfg u (beforeUser cfg st u)).moviecount m ≠ 0 →
          (∑ c in Finset.range SOFTMAX,
            ((processUser cfg u (beforeUser cfg st u)).posvisact m c
                / ((processUser cfg u (beforeUser cfg st u)).moviecount m : α)
              - (processUser cfg u (beforeUser cfg st u)).negvisact m c
                / ((processUser cfg u (beforeUser cfg st u)).moviecount m : α))) = 0) := by
  have hb := processUser_balanced cfg u m (hvalid u hu) _
    (beforeUser_balanced cfg st hvalid u (Nat.le_of_lt hu) m)
  unfold visactBalanced at hb
  refine ⟨hb.1, hb.2, ?_, ?_⟩
  · intro hbe
    rw [beforeUser_succ]
    unfold userStep
    simp only
    rw [if_pos hbe]
  · intro _
    have hsum : (∑ c in Finset.range SOFTMAX,
          ((processUser cfg u (beforeUser cfg st u)).posvisact m c
              / ((processUser cfg u (beforeUser cfg st u)).moviecount m : α)
            - (processUser cfg u (beforeUser cfg st u)).negvisact m c
              / ((processUser cfg u (beforeUser cfg st u)).moviecount m : α)))
        = rowSum (processUser cfg u (beforeUser cfg st u)).posvisact m
            / ((processUser cfg u (beforeUser cfg st u)).moviecount m : α)
          - rowSum (processUser cfg u (beforeUser cfg st u)).negvisact m
            / ((processUser cfg u (beforeUser cfg st u)).moviecount m : α) := by
      unfold SOFTMAX rowSum
      simp only [Finset.sum_range_succ, Finset.sum_range_zero]
      ring
    rw [hsum, hb.1, hb.2, sub_self]

/-- Witness of `visact_sums_equal_count`: item 0 of `exEnv` after its one
user, whose training categories are 2 and 0. -/
theorem visact_sums_equal_count_witness :
    (∀ u, u < exEnv.NUSERS → ∀ j, j < exEnv.UNTRAIN u → catOf exEnv u j < SOFTMAX)
      ∧ 0 < exEnv.NUSERS
      ∧ rowSum (processUser exEnv 0 (beforeUser exEnv exWeights 0)).posvisact 0
          = ((processUser exEnv 0 (beforeUser exEnv exWeights 0)).moviecount 0 : ℚ)
      ∧ rowSum (processUser exEnv 0 (beforeUser exEnv exWeights 0)).negvisact 0
          = ((processUser exEnv 0 (beforeUser exEnv exWeights 0)).moviecount 0 : ℚ) :=
  have hw := visact_sums_equal_count exEnv exWeights (by decide) 0 (by decide) 0
  ⟨by decide, by decide, hw.1, hw.2.1⟩

/-! ## Bounds on the expected rating and the residuals -/

theorem expectedV_bounds (a : Nat → Nat → α) (m r : Nat) (hrow : rowNormal a m) (hr : r ≤ 4) :
    (0 ≤ expectedV a m ∧ expectedV a m ≤ 4)
      ∧ (-4 ≤ (r : α) - expectedV a m ∧ (r : α) - expectedV a m ≤ 4)
      ∧ ((r : α) - expectedV a m) * ((r : α) - expectedV a m) ≤ 16 := by
  obtain ⟨hnn, hsum⟩ := hrow
  have h0 := hnn 0 (by decide)
  have h1 := hnn 1 (by decide)
  have h2 := hnn 2 (by decide)
  have h3 := hnn 3 (by decide)
  have h4 := hnn 4 (by decide)
  unfold rowSum at hsum
  have hr0 : (0 : α) ≤ (r : α) := Nat.cast_nonneg r
  have hr4 : (r : α) ≤ 4 := by
    have : ((r : Nat) : α) ≤ ((4 : Nat) : α) := Nat.cast_le.mpr hr
    simpa using this
  have hE0 : 0 ≤ expectedV a m := by
    unfold expectedV
    linarith
  have hE4 : expectedV a m ≤ 4 := by
    unfold expectedV
    linarith
  have hlo : -4 ≤ (r : α) - expectedV a m := by linarith
  have hhi : (r : α) - expectedV a m ≤ 4 := by linarith
  refine ⟨⟨hE0, hE4⟩, ⟨hlo, hhi⟩, ?_⟩
  nlinarith

theorem normalizeRow_apply (a : Nat → Nat → α) (m c : Nat) (hc : c < SOFTMAX)
    (hsum : rowSum a m ≠ 0) :
    normalizeRow a m m c = a m c / rowSum a m := by
  unfold SOFTMAX at hc
  have hcases : c = 0 ∨ c = 1 ∨ c = 2 ∨ c = 3 ∨ c = 4 := by omega
  unfold rowSum at hsum ⊢
  unfold normalizeRow
  simp only [if_pos hsum]
  rcases hcases with h | h | h | h | h <;> subst h <;> simp [upd2]

/-- A row of positive values is normal after the normalisation of lines
362-369 (and 384-391, 174-180). -/
theorem normalizeRow_normal (a : Nat → Nat → α) (m : Nat)
    (hpos : ∀ c, c < SOFTMAX → 0 < a m c) :
    rowNormal (normalizeRow a m) m := by
  have h0 := hpos 0 (by decide)
  have h1 := hpos 1 (by decide)
  have h2 := hpos 2 (by decide)
  have h3 := hpos 3 (by decide)
  have h4 := hpos 4 (by decide)
  have hs : 0 < rowSum a m := by
    unfold rowSum
    linarith
  have hne : rowSum a m ≠ 0 := ne_of_gt hs
  constructor
  · intro c hc
    rw [normalizeRow_apply a m c hc hne]
    exact le_of_lt (div_pos (hpos c hc) hs)
  · have hsum := normalizeRow_sum a m hne
    exact hsum

theorem logistic_pos (cfg : Env α) (hexp : ∀ x, 0 ≤ cfg.exp x) (x : α) :
    0 < 1 / (1 + cfg.exp x) := by
  have h := hexp x
  apply div_pos one_pos
  linarith

theorem rowNormal_congr (a b : Nat → Nat → α) (m : Nat) (h : a m = b m)
    (hb : rowNormal b m) : rowNormal a m := by
  unfold rowNormal rowSum at hb ⊢
  rw [h]
  exact hb

theorem visReconStep_nvp_normal (cfg : Env α) (hexp : ∀ x, 0 ≤ cfg.exp x) (u : Nat)
    (fin : Bool) (i m : Nat) (t : State α)
    (hm : itemOf cfg u i = m ∨ rowNormal t.nvp2 m) :
    rowNormal (visReconStep cfg u 0 fin i t).nvp2 m := by
  by_cases hi : itemOf cfg u i = m
  · subst hi
    rw [visReconStep_nvp, if_pos rfl]
    apply normalizeRow_normal
    intro c hc
    rw [sigmoidRow_apply, if_pos ⟨rfl, hc⟩]
    exact logistic_pos cfg hexp _
  · rcases hm with h | h
    · exact absurd h hi
    · exact rowNormal_congr _ _ m (visReconStep_other_row cfg u 0 fin i m hi t).2 h

/-- With a non-negative `exp`, the reconstruction `nvp2` of Gibbs step 0 has
a normal row for the item of every touched entry. -/
theorem stepZeroNvp_normal (cfg : Env α) (hexp : ∀ x, 0 ≤ cfg.exp x) (u : Nat)
    (st : State α) (j : Nat) (hj : j < cfg.UNTRAIN u + cfg.useridx u 2) :
    rowNormal (stepZeroNvp cfg u st) (itemOf cfg u j) := by
  have htail := negTail_keep cfg u (decide (0 + 1 ≥ (prePhase cfg u st).tSteps))
    (reconLoop cfg u 0 (prePhase cfg u st))
  have hn : stepZeroNvp cfg u st = (reconLoop cfg u 0 (prePhase cfg u st)).nvp2 := htail.2
  rw [hn]
  unfold reconLoop
  apply forLoop_establish (fun s : State α => rowNormal s.nvp2 (itemOf cfg u j)) j
    (cfg.UNTRAIN u + cfg.useridx u 2) _ _ hj
  · intro t
    exact visReconStep_nvp_normal cfg hexp u _ j _ t (Or.inl rfl)
  · intro i _ t ht
    exact visReconStep_nvp_normal cfg hexp u _ i _ t (Or.inr ht)

theorem reVisStep_normal (cfg : Env α) (hexp : ∀ x, 0 ≤ cfg.exp x) (u i m : Nat)
    (t : State α) (hm : itemOf cfg u i = m ∨ rowNormal t.negvisprobs m) :
    rowNormal (reVisStep cfg u i t).negvisprobs m := by
  by_cases hi : itemOf cfg u i = m
  · subst hi
    rw [(reVisStep_eq cfg u i t).1]
    apply normalizeRow_normal
    intro c hc
    rw [sigmoidRow_apply, if_pos ⟨rfl, hc⟩]
    exact logistic_pos cfg hexp _
  · rcases hm with h | h
    · exact absurd h hi
    · exact rowNormal_congr _ _ m (reVisStep_other_row cfg u i m hi t) h

/-- With a non-negative `exp`, `recordErrors` leaves a normal row of
`negvisprobs` for the item of every entry of the user. -/
theorem reUser_normal (cfg : Env α) (hexp : ∀ x, 0 ≤ cfg.exp x) (u : Nat) (st : State α)
    (i : Nat) (hi : i < cfg.UNALL u) :
    rowNormal (reUser cfg u st).negvisprobs (itemOf cfg u i) := by
  have herr := reErrLoop_err cfg u (cfg.UNALL u) i hi
    (forLoop (cfg.UNALL u) (reVisStep cfg u) (reHidden cfg u st))
  rw [reUser_eq, herr.2]
  apply forLoop_establish (fun s : State α => rowNormal s.negvisprobs (itemOf cfg u i)) i
    (cfg.UNALL u) _ _ hi
  · intro t
    exact reVisStep_normal cfg hexp u i _ t (Or.inl rfl)
  · intro k _ t ht
    exact reVisStep_normal cfg hexp u k _ t (Or.inr ht)

/-- The residual that `recordErrors` stores for entry `i` of user `u`. -/
theorem reUser_err (cfg : Env α) (u : Nat) (st : State α) (i : Nat) (hi : i < cfg.UNALL u) :
    (reUser cfg u st).err (cfg.useridx u 0 + i)
      = (catOf cfg u i : α) - expectedV (reUser cfg u st).negvisprobs (itemOf cfg u i) := by
  have herr := reErrLoop_err cfg u (cfg.UNALL u) i hi
    (forLoop (cfg.UNALL u) (reVisStep cfg u) (reHidden cfg u st))
  rw [reUser_eq, herr.1, herr.2]

theorem sum_bound16 {β : Type} [LinearOrderedField β] (f : Nat → β) (w : Nat → Nat) (n : Nat)
    (h : ∀ j, j < n → 0 ≤ f j ∧ f j ≤ 16 * (w j : β)) :
    0 ≤ ∑ j in Finset.range n, f j
      ∧ ∑ j in Finset.range n, f j ≤ 16 * ((∑ j in Finset.range n, w j : Nat) : β) := by
  constructor
  · exact Finset.sum_nonneg (fun j hj => (h j (Finset.mem_range.mp hj)).1)
  · rw [Nat.cast_sum, Finset.mul_sum]
    exact Finset.sum_le_sum (fun j hj => (h j (Finset.mem_range.mp hj)).2)

theorem sqResidual_bound (cfg : Env α) (nvp : Nat → Nat → α) (e : Nat)
    (hr : entRating cfg e ≤ 4) (hrow : rowNormal nvp (entMovie cfg e)) :
    0 ≤ sqResidual cfg nvp e ∧ sqResidual cfg nvp e ≤ 16 := by
  unfold sqResidual
  exact ⟨mul_self_nonneg _, (expectedV_bounds nvp (entMovie cfg e) (entRating cfg e) hrow hr).2.2⟩

theorem epochBody_errors (cfg : Env α) (st : State α) :
    (epochBody cfg st).nrmse
        = cfg.sqrt ((beforeUser cfg st cfg.NUSERS).nrmse
            / ((beforeUser cfg st cfg.NUSERS).ntrain : α))
      ∧ (epochBody cfg st).prmse
        = cfg.sqrt ((beforeUser cfg st cfg.NUSERS).s
            / ((beforeUser cfg st cfg.NUSERS).n : α)) := by
  have hd := decayRates_errors cfg
    { ({ beforeUser cfg st cfg.NUSERS with
          nrmse := cfg.sqrt ((beforeUser cfg st cfg.NUSERS).nrmse
            / ((beforeUser cfg st cfg.NUSERS).ntrain : α)) } : State α) with
      prmse := cfg.sqrt ((beforeUser cfg st cfg.NUSERS).s
        / ((beforeUser cfg st cfg.NUSERS).n : α)) }
  have he : epochBody cfg st = decayRates cfg
    { ({ beforeUser cfg st cfg.NUSERS with
          nrmse := cfg.sqrt ((beforeUser cfg st cfg.NUSERS).nrmse
            / ((beforeUser cfg st cfg.NUSERS).ntrain : α)) } : State α) with
      prmse := cfg.sqrt ((beforeUser cfg st cfg.NUSERS).s
        / ((beforeUser cfg st cfg.NUSERS).n : α)) } := rfl
  rw [he, hd.1, hd.2.1]
  exact ⟨rfl, rfl⟩

/-- When every squared residual of an epoch is at most 16, the two mean
squared errors are in `[0,16]`. -/
theorem epoch_means_bound (cfg : Env α) (st : State α)
    (htrain : ∀ u, u < cfg.NUSERS → ∀ j, j < cfg.UNTRAIN u →
      entRating cfg (cfg.useridx u 0 + j) ≤ 4
        ∧ rowNormal (stepZeroNvp cfg u (beforeUser cfg st u))
            (entMovie cfg (cfg.useridx u 0 + j)))
    (hprobe : ∀ u, u < cfg.NUSERS → ∀ i, i < cfg.useridx u 2 →
      entRating cfg (cfg.useridx u 0 + cfg.useridx u 1 + i) ≤ 4
        ∧ rowNormal (stepZeroNvp cfg u (beforeUser cfg st u))
            (entMovie cfg (cfg.useridx u 0 + cfg.useridx u 1 + i)))
    (hnt : 0 < ∑ u in Finset.range cfg.NUSERS, cfg.UNTRAIN u)
    (hnp : 0 < ∑ u in Finset.range cfg.NUSERS, cfg.useridx u 2) :
    (0 ≤ (beforeUser cfg st cfg.NUSERS).nrmse / ((beforeUser cfg st cfg.NUSERS).ntrain : α)
        ∧ (beforeUser cfg st cfg.NUSERS).nrmse / ((beforeUser cfg st cfg.NUSERS).ntrain : α)
          ≤ 16)
      ∧ (0 ≤ (beforeUser cfg st cfg.NUSERS).s / ((beforeUser cfg st cfg.NUSERS).n : α)
        ∧ (beforeUser cfg st cfg.NUSERS).s / ((beforeUser cfg st cfg.NUSERS).n : α) ≤ 16) := by
  have hep := beforeUser_errSums cfg st cfg.NUSERS
  unfold errSums at hep
  simp only [Prod.mk.injEq] at hep
  obtain ⟨e1, e2, e3, e4⟩ := hep
  have hT := sum_bound16
    (fun u => trainSq cfg u (stepZeroNvp cfg u (beforeUser cfg st u)))
    (fun u => cfg.UNTRAIN u) cfg.NUSERS
    (fun u hu => by
      have hb := sum_bound16
        (fun j => sqResidual cfg (stepZeroNvp cfg u (beforeUser cfg st u)) (cfg.useridx u 0 + j))
        (fun _ => 1) (cfg.UNTRAIN u)
        (fun j hj => by
          have hs := sqResidual_bound cfg _ _ (htrain u hu j hj).1 (htrain u hu j hj).2
          simpa using hs)
      simpa [trainSq] using hb)
  have hP := sum_bound16
    (fun u => probeSq cfg u (stepZeroNvp cfg u (beforeUser cfg st u)))
    (fun u => cfg.useridx u 2) cfg.NUSERS
    (fun u hu => by
      have hb := sum_bound16
        (fun i => sqResidual cfg (stepZeroNvp cfg u (beforeUser cfg st u))
          (cfg.useridx u 0 + cfg.useridx u 1 + i))
        (fun _ => 1) (cfg.useridx u 2)
        (fun i hi => by
          have hs := sqResidual_bound cfg _ _ (hprobe u hu i hi).1 (hprobe u hu i hi).2
          simpa using hs)
      simpa [probeSq] using hb)
  have hntα : (0 : α) < ((∑ u in Finset.range cfg.NUSERS, cfg.UNTRAIN u : Nat) : α) :=
    Nat.cast_pos.mpr hnt
  have hnpα : (0 : α) < ((∑ u in Finset.range cfg.NUSERS, cfg.useridx u 2 : Nat) : α) :=
    Nat.cast_pos.mpr hnp
  rw [e1, e2, e3, e4]
  refine ⟨⟨div_nonneg hT.1 (le_of_lt hntα), ?_⟩, ⟨div_nonneg hP.1 (le_of_lt hnpα), ?_⟩⟩
  · rw [div_le_iff₀ hntα]
    exact hT.2
  · rw [div_le_iff₀ hnpα]
    exact hP.2

/-- C24: for a record with category `r ≤ 4` whose item has a normal row of
expectation probabilities (non-negative, summing to 1), the expected rating
`p1 + 2 p2 + 3 p3 + 4 p4` lies in `[0,4]` and the residual `r` minus the
expected rating in `[-4,4]`; so the squared residual that lines 447-455 add
to `nrmse` and lines 462-469 add to `s` is at most 16, and the residual that
`recordErrors` stores in `err[base0+i]` lies in `[-4,4]`.  Hence, when every
training and probe record of an epoch is such a record, there is at least
one record of each kind, and the library `sqrt` maps `[0,16]` into values at
most 4, the training and probe RMSE of the epoch are at most 4. -/
theorem residual_and_rmse_bounds (cfg : Env α) (st : State α) :
    (∀ (a : Nat → Nat → α) (m r : Nat), rowNormal a m → r ≤ 4 →
        (0 ≤ expectedV a m ∧ expectedV a m ≤ 4)
          ∧ (-4 ≤ (r : α) - expectedV a m ∧ (r : α) - expectedV a m ≤ 4))
    ∧ (∀ (u j : Nat) (t : State α), entRating cfg (cfg.useridx u 0 + j) ≤ 4 →
        rowNormal t.nvp2 (entMovie cfg (cfg.useridx u 0 + j)) →
        (trainErrStep cfg u j t).nrmse = t.nrmse + sqResidual cfg t.nvp2 (cfg.useridx u 0 + j)
          ∧ sqResidual cfg t.nvp2 (cfg.useridx u 0 + j) ≤ 16)
    ∧ (∀ (base i : Nat) (t : State α), entRating cfg (base + i) ≤ 4 →
        rowNormal t.nvp2 (entMovie cfg (base + i)) →
        (probeErrStep cfg base i t).s = t.s + sqResidual cfg t.nvp2 (base + i)
          ∧ sqResidual cfg t.nvp2 (base + i) ≤ 16)
    ∧ (∀ (u i : Nat) (s : State α), i < cfg.UNALL u → catOf cfg u i ≤ 4 →
        rowNormal (reUser cfg u s).negvisprobs (itemOf cfg u i) →
        -4 ≤ (reUser cfg u s).err (cfg.useridx u 0 + i)
          ∧ (reUser cfg u s).err (cfg.useridx u 0 + i) ≤ 4)
    ∧ ((∀ u, u < cfg.NUSERS → ∀ j, j < cfg.UNTRAIN u →
          entRating cfg (cfg.useridx u 0 + j) ≤ 4
            ∧ rowNormal (stepZeroNvp cfg u (beforeUser cfg st u))
                (entMovie cfg (cfg.useridx u 0 + j))) →
        (∀ u, u < cfg.NUSERS → ∀ i, i < cfg.useridx u 2 →
          entRating cfg (cfg.useridx u 0 + cfg.useridx u 1 + i) ≤ 4
            ∧ rowNormal (stepZeroNvp cfg u (beforeUser cfg st u))
                (entMovie cfg (cfg.useridx u 0 + cfg.useridx u 1 + i))) →
        0 < ∑ u in Finset.range cfg.NUSERS, cfg.UNTRAIN u →
        0 < ∑ u in Finset.range cfg.NUSERS, cfg.useridx u 2 →
        (∀ x, 0 ≤ x → x ≤ 16 → cfg.sqrt x ≤ 4) →
        (epochBody cfg st).nrmse ≤ 4 ∧ (epochBody cfg st).prmse ≤ 4) := by
  refine ⟨?_, ?_, ?_, ?_, ?_⟩
  · intro a m r hrow hr
    have hb := expectedV_bounds a m r hrow hr
    exact ⟨hb.1, hb.2.1⟩
  · intro u j t hr hrow
    exact ⟨rfl, (sqResidual_bound cfg t.nvp2 _ hr hrow).2⟩
  · intro base i t hr hrow
    exact ⟨rfl, (sqResidual_bound cfg t.nvp2 _ hr hrow).2⟩
  · intro u i s hi hr hrow
    rw [reUser_err cfg u s i hi]
    exact (expectedV_bounds _ _ _ hrow hr).2.1
  · intro htrain hprobe hnt hnp hsqrt
    have hm := epoch_means_bound cfg st htrain hprobe hnt hnp
    have he := epochBody_errors cfg st
    rw [he.1, he.2]
    exact ⟨hsqrt _ hm.1.1 hm.1.2, hsqrt _ hm.2.1 hm.2.2⟩

theorem exOneHot_normal (m : Nat) : rowNormal exOneHot.nvp2 m := by
  unfold rowNormal rowSum exOneHot
  constructor
  · intro c _
    simp only
    split_ifs <;> norm_num
  · simp

theorem exEnvSqrt_exp (x : ℚ) : 0 ≤ exEnvSqrt.exp x := by
  show (0 : ℚ) ≤ 1 + x ^ 2
  positivity

/-- Witness of `residual_and_rmse_bounds`: the row `1,0,0,0,0` with category
4, and the epoch of `exEnvSqrt` (two training records, one probe record). -/
theorem residual_and_rmse_bounds_witness :
    ((0 ≤ expectedV exOneHot.nvp2 0 ∧ expectedV exOneHot.nvp2 0 ≤ 4)
        ∧ (-4 ≤ ((4 : Nat) : ℚ) - expectedV exOneHot.nvp2 0
          ∧ ((4 : Nat) : ℚ) - expectedV exOneHot.nvp2 0 ≤ 4))
    ∧ sqResidual exEnvSqrt exOneHot.nvp2 (exEnvSqrt.useridx 0 0 + 0) ≤ 16
    ∧ sqResidual exEnvSqrt exOneHot.nvp2 (2 + 0) ≤ 16
    ∧ (-4 ≤ (reUser exEnvSqrt 0 exWeights).err (exEnvSqrt.useridx 0 0 + 2)
        ∧ (reUser exEnvSqrt 0 exWeights).err (exEnvSqrt.useridx 0 0 + 2) ≤ 4)
    ∧ ((epochBody exEnvSqrt exWeights).nrmse ≤ 4
        ∧ (epochBody exEnvSqrt exWeights).prmse ≤ 4) := by
  have hw := residual_and_rmse_bounds exEnvSqrt exWeights
  have hcatT : ∀ u, u < exEnvSqrt.NUSERS → ∀ j, j < exEnvSqrt.UNTRAIN u →
      entRating exEnvSqrt (exEnvSqrt.useridx u 0 + j) ≤ 4 := by decide
  have hcatP : ∀ u, u < exEnvSqrt.NUSERS → ∀ i, i < exEnvSqrt.useridx u 2 →
      entRating exEnvSqrt (exEnvSqrt.useridx u 0 + exEnvSqrt.useridx u 1 + i) ≤ 4
        ∧ exEnvSqrt.useridx u 0 + exEnvSqrt.useridx u 1 + i
          = exEnvSqrt.useridx u 0 + (exEnvSqrt.UNTRAIN u + i) := by decide
  refine ⟨hw.1 exOneHot.nvp2 0 4 (exOneHot_normal 0) (by decide),
    (hw.2.1 0 0 exOneHot (by decide) (exOneHot_normal _)).2,
    (hw.2.2.1 2 0 exOneHot (by decide) (exOneHot_normal _)).2,
    hw.2.2.2.1 0 2 exWeights (by decide) (by decide)
      (reUser_normal exEnvSqrt exEnvSqrt_exp 0 exWeights 2 (by decide)),
    hw.2.2.2.2 ?_ ?_ (by decide) (by decide) ?_⟩
  · intro u hu j hj
    exact ⟨hcatT u hu j hj,
      stepZeroNvp_normal exEnvSqrt exEnvSqrt_exp u _ j (Nat.lt_add_right _ hj)⟩
  · intro u hu i hi
    refine ⟨(hcatP u hu i hi).1, ?_⟩
    rw [(hcatP u hu i hi).2]
    exact stepZeroNvp_normal exEnvSqrt exEnvSqrt_exp u _ (exEnvSqrt.UNTRAIN u + i)
      (Nat.add_lt_add_left hi _)
  · intro x _ hx
    show (x + 16) / 8 ≤ 4
    linarith

end Proofs

end Rbm
